import Mathlib

set_option maxHeartbeats 2000000
set_option maxRecDepth 8000
set_option linter.unnecessarySeqFocus false

/-!
Verification development for the Crunch message codec (a schema-driven,
fixed-capacity binary serialization library).  The definitions below are a
shallow embedding of the C++ sources: byte buffers are `List Nat` (each
element a byte value, i.e. `< 256`, mirroring `std::byte`), machine
integers are `Nat` with explicit `% 2 ^ w` at the points where the C++
performs truncating casts, and fallible operations return `Except`/`Option`.
Every definition cites the source file and function it embeds.
-/

/-! ## Core error model (src/include/crunch/core/crunch_types.hpp) -/

/-- Mirrors `enum class ErrorCode` in crunch_types.hpp. -/
inductive ErrCode where
  | unknown
  | integrityCheckFailed
  | deserializationError
  | validationFailed
  | invalidMessageId
  | invalidFormat
  | capacityExceeded
deriving DecidableEq, Repr

/-- Mirrors `struct Error {code, field_id, message}` in crunch_types.hpp.
Field ids in Crunch are non-negative `int32_t` values (at most `2^29 - 1`),
so they are represented as `Nat`. -/
structure CrError where
  code : ErrCode
  fieldId : Nat
  msg : String
deriving DecidableEq, Repr

/-- Mirrors `Error::integrity()`. -/
def CrError.integrityErr : CrError :=
  ⟨ErrCode.integrityCheckFailed, 0, "integrity check failed"⟩

/-- Mirrors `Error::validation(id, msg)`. -/
def CrError.validationErr (id : Nat) (m : String) : CrError :=
  ⟨ErrCode.validationFailed, id, m⟩

/-- Mirrors `Error::deserialization(msg)`. -/
def CrError.deserializationErr (m : String) : CrError :=
  ⟨ErrCode.deserializationError, 0, m⟩

/-- Mirrors `Error::invalid_message_id()`. -/
def CrError.invalidMessageIdErr : CrError :=
  ⟨ErrCode.invalidMessageId, 0, "invalid message id"⟩

/-- Mirrors `Error::invalid_format()`. -/
def CrError.invalidFormatErr : CrError :=
  ⟨ErrCode.invalidFormat, 0, "invalid serialization format"⟩

/-- Mirrors `Error::capacity_exceeded(id, msg)`. -/
def CrError.capacityErr (id : Nat) (m : String) : CrError :=
  ⟨ErrCode.capacityExceeded, id, m⟩

/-! ## Little-endian byte encoding (src/include/crunch/core/crunch_endian.hpp)

On a little-endian host `Crunch::LittleEndian` is the identity and the
subsequent `memcpy` of a `w`-byte integer writes its little-endian byte
representation.  `leBytes w v` is that representation; `readLE` is the
corresponding `memcpy`-read.  Out-of-range accesses read 0 (the C++ relies
on the caller keeping offsets in bounds; in all proofs below the accesses
are in bounds, so the default never matters). -/

/-- Little-endian bytes of the `w`-byte truncation of `v`. -/
def leBytes : Nat → Nat → List Nat
  | 0, _ => []
  | w + 1, v => v % 256 :: leBytes w (v / 256)

/-- Reads `w` bytes little-endian starting at `off`. -/
def readLE (input : List Nat) (off : Nat) : Nat → Nat
  | 0 => 0
  | w + 1 => input.getD off 0 + 256 * readLE input (off + 1) w

/-- Reads `n` raw bytes starting at `off` (a `memcpy` out of the input). -/
def readBytes (input : List Nat) (off : Nat) : Nat → List Nat
  | 0 => []
  | n + 1 => input.getD off 0 :: readBytes input (off + 1) n

/-! ## Varint (src/include/crunch/serdes/crunch_varint.hpp) -/

/-- Mirrors `Varint::encode`: emit 7 bits at a time, low first, setting the
continuation bit 0x80 on all but the last byte.  The C++ writes the bytes
into `output` at `offset` and returns the count; the model returns the list
of bytes written. -/
def varintEncode (value : Nat) : List Nat :=
  if _h : 0x80 ≤ value then
    (value &&& 0x7F ||| 0x80) :: varintEncode (value >>> 7)
  else
    [value]
termination_by value
decreasing_by
  have : value >>> 7 = value / 128 := Nat.shiftRight_eq_div_pow value 7
  omega

/-- The loop of `Varint::decode`, operating on the bytes from the current
read position onward (the C++ indexes `input[offset + bytes_read]`; the
model recurses on the remaining list and counts consumed bytes in the
result).  The C++ checks `shift >= 64` before accumulating, accumulates
`uint64(byte & 0x7F) << shift` with 64-bit wraparound, and returns when the
continuation bit 0x80 is clear. -/
def varintDecodeLoop : List Nat → Nat → Nat → Option (Nat × Nat)
  | [], _, _ => none
  | b :: rest, value, shift =>
    if 64 ≤ shift then none
    else
      let value' := value ||| (b &&& 0x7F) <<< shift % 2 ^ 64
      if b &&& 0x80 == 0 then some (value', 1)
      else
        match varintDecodeLoop rest value' (shift + 7) with
        | some (v, n) => some (v, n + 1)
        | none => none

/-- Mirrors `Varint::decode(input, offset)`: returns the decoded value and
the number of bytes consumed, or `none` on failure. -/
def varintDecode (input : List Nat) (offset : Nat) : Option (Nat × Nat) :=
  varintDecodeLoop (input.drop offset) 0 0

/-- The byte-counting loop of `Varint::size`. -/
def varintSizeLoop (value : Nat) : Nat :=
  if _h : value = 0 then 0 else 1 + varintSizeLoop (value >>> 7)
termination_by value
decreasing_by
  have : value >>> 7 = value / 128 := Nat.shiftRight_eq_div_pow _ 7
  omega

/-- Mirrors `Varint::size(value)`. -/
def varintSize (value : Nat) : Nat :=
  if value = 0 then 1 else varintSizeLoop value

/-! ## Integrity policies (src/crunch/integrity/includes/crunch_integrity.hpp) -/

/-- One iteration of the inner CRC loop in `CRC16::calculate`:
`crc = (crc & 0x8000) ? uint16((crc << 1) ^ 0x1021) : uint16(crc << 1)`. -/
def crc16Shift (crc : Nat) : Nat :=
  if crc &&& 0x8000 ≠ 0 then (crc <<< 1 ^^^ 0x1021) % 65536
  else crc <<< 1 % 65536

/-- Processing one byte in `CRC16::calculate`: `crc ^= uint8(b) << 8`
followed by eight shift iterations.  Bytes are `< 256` (`std::byte`). -/
def crc16Byte (crc b : Nat) : Nat :=
  Nat.iterate crc16Shift 8 (crc ^^^ b <<< 8)

/-- The 16-bit CRC register after processing `data`, initial value 0xFFFF. -/
def crc16 (data : List Nat) : Nat :=
  data.foldl crc16Byte 0xFFFF

/-- Mirrors `CRC16::calculate`: returns the two trailer bytes, high byte
first. -/
def crc16Calculate (data : List Nat) : List Nat :=
  [crc16 data >>> 8 &&& 0xFF, crc16 data &&& 0xFF]

/-- Mirrors `Parity::calculate`: XOR of all bytes, one trailer byte. -/
def parityCalculate (data : List Nat) : List Nat :=
  [data.foldl (· ^^^ ·) 0]

/-! ## Validators (src/crunch/validators/includes/crunch_validators.hpp) -/

/-- Mirrors `NullTerminated::Check(value, field_id)` on the byte view of the
string: succeeds iff the string is nonempty and its last byte is zero. -/
def nullTerminatedCheck (s : List Nat) (fieldId : Nat) : Option CrError :=
  if !s.isEmpty && s.getLastD 0 == 0 then none
  else some (CrError.validationErr fieldId "must count null terminator")

/-! ## String field (src/include/crunch/fields/crunch_string.hpp)

`String<MaxSize, Validators...>` owns `std::array<char, MaxSize> buffer_`
and `std::size_t current_len_`.  The validator pack is abstracted as a
single `check` function on the byte view (the pack's ordered conjunction,
invoked with field id 0 as in `String::set`). -/

/-- The state of a `String<maxSize>` field: the fixed-size backing buffer
and the current length. -/
structure StringState (maxSize : Nat) where
  buffer : List Nat
  currentLen : Nat
deriving DecidableEq, Repr

/-- Default construction: zero-filled buffer, length 0. -/
def stringInit (maxSize : Nat) : StringState maxSize :=
  ⟨List.replicate maxSize 0, 0⟩

/-- Mirrors `String::get()`: the active prefix of the buffer. -/
def stringGet {m : Nat} (s : StringState m) : List Nat :=
  s.buffer.take s.currentLen

/-- Mirrors `String::set(sv)`: reject when `sv` exceeds capacity, run the
validators, then copy `sv` and zero-fill the rest.  On failure the prior
state is returned unchanged. -/
def stringSet {m : Nat} (check : List Nat → Option CrError)
    (s : StringState m) (sv : List Nat) : StringState m × Option CrError :=
  if m < sv.length then
    (s, some (CrError.capacityErr 0 "string exceeds capacity"))
  else
    match check sv with
    | some e => (s, some e)
    | none => (⟨sv ++ List.replicate (m - sv.length) 0, sv.length⟩, none)

/-- Mirrors `String::clear()`. -/
def stringClear (m : Nat) : StringState m :=
  ⟨List.replicate m 0, 0⟩

/-- The data-model invariant of `String` stated in the specification:
length within capacity, buffer of the declared size, and every byte at an
index at or beyond the current length is zero. -/
def stringInv {m : Nat} (s : StringState m) : Prop :=
  s.currentLen ≤ m ∧ s.buffer.length = m ∧
    s.buffer.drop s.currentLen = List.replicate (m - s.currentLen) 0

/-! ## Map field (src/include/crunch/messages/crunch_field.hpp, `MapField`)

`MapField<Id, KeyField, ValueField, MaxSize, Validators...>` stores
insertion-ordered pairs.  Key/value validation (`KeyField::Validate` /
`ValueField::Validate` for scalars and strings, `.Validate()` for
aggregates) is abstracted as `checkK` / `checkV`; key comparison
(`key_equals`) as `keyEq`.  The model stores the inserted key and value
directly, which is faithful for the error paths and the size/contents
claims below. -/

/-- The state of a map field: the active pair list (C++ `items_` prefix of
length `current_len_`). -/
structure MapState (K V : Type) (maxSize : Nat) where
  items : List (K × V)
deriving DecidableEq, Repr

/-- Mirrors the lookup done by `MapField::at(key)` (a linear scan with
`key_equals`), reduced to whether the key is present. -/
def mapHasKey {K V : Type} {m : Nat} (keyEq : K → K → Bool)
    (s : MapState K V m) (k : K) : Bool :=
  (s.items.find? fun p => keyEq p.1 k).isSome

/-- Mirrors `MapField::insert(key, value)`: validate the key, validate the
value, then check capacity (`current_len_ >= MaxSize`), then reject
duplicate keys, and finally append the pair. -/
def mapInsert {K V : Type} {m : Nat} (fid : Nat)
    (checkK : K → Option CrError) (checkV : V → Option CrError)
    (keyEq : K → K → Bool) (s : MapState K V m) (k : K) (v : V) :
    MapState K V m × Option CrError :=
  match checkK k with
  | some e => (s, some e)
  | none =>
    match checkV v with
    | some e => (s, some e)
    | none =>
      if m ≤ s.items.length then
        (s, some (CrError.capacityErr fid "map capacity exceeded"))
      else if mapHasKey keyEq s k then
        (s, some (CrError.validationErr fid "Duplicate key in map"))
      else
        (⟨s.items ++ [(k, v)]⟩, none)

/-! ## Static-layout padding and the string deserialization path
(src/include/crunch/serdes/crunch_static_layout.hpp) -/

/-- Mirrors `StaticLayout::calculate_padding<T>(offset)`:
`align = min(sizeof(T), Alignment)`, result `(align - offset % align) % align`. -/
def calcPadding (size alignment off : Nat) : Nat :=
  (min size alignment - off % min size alignment) % min size alignment

/-- Mirrors `StaticLayout<alignment>::deserialize_string` for a
`String<maxSize>` target: skip padding for the `uint32_t` length, read the
4-byte little-endian length, then if the field is set reject lengths over
capacity and `memcpy` the full `max_size` wire bytes into the backing
buffer; if unset, clear the string.  Returns the new string state and the
updated offset. -/
def staticDeserString {maxSize : Nat} (alignment : Nat) (set : Bool)
    (input : List Nat) (off : Nat) :
    Except CrError (StringState maxSize × Nat) :=
  let off1 := off + calcPadding 4 alignment off
  let len := readLE input off1 4
  let off2 := off1 + 4
  if set then
    if maxSize < len then
      Except.error (CrError.capacityErr 0 "deserialized string too long")
    else
      Except.ok (⟨readBytes input off2 maxSize, len⟩, off2 + maxSize)
  else
    Except.ok (stringClear maxSize, off2 + maxSize)

/-! ## Deep embedding of message schemas and values

The C++ library is generic over message types: a message is a tuple of
fields, each a `Field<Id, Presence, Inner>` wrapper (inner kind scalar,
string, or submessage — the `ValidField` concept also admits array and map
inners) or a bare `ArrayField`/`MapField`.  The templates are embedded as a
schema datatype (`FieldKind`/`TopFields`) and a value datatype
(`Value`/`Values`/`Pairs`/`FieldVals`); the template-generic serializers
become functions recursing over the schema.

Modeling notes, applying throughout:
- scalars are carried as their raw little-endian bit pattern (`Nat` below
  `2 ^ (8 * width)`).  This covers signed and unsigned integers (two's
  complement pattern), `bool` (0/1), enums (int32 pattern) and floats
  (IEEE bit pattern): the serializers only ever move the pattern
  (`LittleEndian` + `memcpy`, or `std::bit_cast` zero-extension for TLV);
- a validator pack is abstracted as one `check` function of the value (its
  ordered conjunction); the field id, which the source threads into the
  produced `Error` only, is dropped;
- strings carry the full backing buffer plus the current length; arrays
  and maps carry their active element lists (slots past `current_len_` are
  never read by the serializers, which zero-fill trailing slots, and are
  ignored by the equality operators). -/

mutual
/-- A runtime field value (the storage of `Scalar`, `String`, a message,
`ArrayField`, or `MapField`). -/
inductive Value where
  | scalar (v : Nat)
  | vstr (buf : List Nat) (len : Nat)
  | sub (fields : FieldVals)
  | arr (items : Values)
  | vmap (pairs : Pairs)

/-- The active elements of an `ArrayField`. -/
inductive Values where
  | nil
  | cons (v : Value) (rest : Values)

/-- The active key-value pairs of a `MapField`. -/
inductive Pairs where
  | nil
  | cons (k : Value) (v : Value) (rest : Pairs)

/-- The field tuple of a message value: for a `Field` wrapper the `set_`
flag plus the inner value; for bare array/map fields the flag is unused
(kept `true`). -/
inductive FieldVals where
  | nil
  | cons (set : Bool) (v : Value) (rest : FieldVals)
end

mutual
/-- The compile-time description of a field's inner type.  `scalar` carries
the byte width of the primitive; `str` the capacity; `sub` a nested message
schema (message id, field list, and the message's cross-field `Validate`
hook); `arr`/`kmap` carry the field id their C++ counterparts embed as a
template parameter, the element schema(s), the capacity, and the
container-level validator conjunction. -/
inductive FieldKind where
  | scalar (width : Nat) (check : Nat → Option CrError)
  | str (maxSize : Nat) (check : List Nat → Option CrError)
  | sub (mid : Nat) (fields : TopFields) (hook : FieldVals → Option CrError)
  | arr (fid : Nat) (elem : FieldKind) (maxSize : Nat) (check : Values → Option CrError)
  | kmap (fid : Nat) (key : FieldKind) (value : FieldKind) (maxSize : Nat)
      (check : Pairs → Option CrError)

/-- The ordered field list of a message type: `consPlain` for
`Field<Id, Required/Optional, Inner>` wrappers (these own a `set_` flag and
emit an is-set byte in the static layouts), `consBare` for top-level
`ArrayField`/`MapField` members (no flag, no is-set byte; the id lives in
the kind). -/
inductive TopFields where
  | nil
  | consPlain (id : Nat) (required : Bool) (kind : FieldKind) (rest : TopFields)
  | consBare (kind : FieldKind) (rest : TopFields)
end

/-- A message type: id, ordered fields, and the cross-field `Validate`
hook. -/
structure MsgSchema where
  mid : Nat
  fields : TopFields
  hook : FieldVals → Option CrError

/-- Number of active array elements (`current_len_`). -/
def lenValues : Values → Nat
  | .nil => 0
  | .cons _ rest => lenValues rest + 1

/-- Number of active map pairs (`current_len_`). -/
def lenPairs : Pairs → Nat
  | .nil => 0
  | .cons _ _ rest => lenPairs rest + 1

mutual
/-- The default-constructed value of a kind (zero scalar, cleared string,
default submessage, empty containers). -/
def defaultValue : FieldKind → Value
  | .scalar _ _ => .scalar 0
  | .str ms _ => .vstr (List.replicate ms 0) 0
  | .sub _ fs _ => .sub (defaultFields fs)
  | .arr _ _ _ _ => .arr .nil
  | .kmap _ _ _ _ _ => .vmap .nil

/-- The default-constructed field tuple (all `Field` wrappers unset). -/
def defaultFields : TopFields → FieldVals
  | .nil => .nil
  | .consPlain _ _ kind rest => .cons false (defaultValue kind) (defaultFields rest)
  | .consBare kind rest => .cons true (defaultValue kind) (defaultFields rest)
end

mutual
/-- Structural well-formedness of a value for a kind: the representation
invariants the C++ types enforce by construction (buffer sizes fixed by
`std::array`, byte values below 256, lengths within the capacity bound,
and capacities below `2^32` so that the 4-byte length prefixes are exact). -/
def wfValue : FieldKind → Value → Prop
  | .scalar w _, .scalar v => v < 2 ^ (8 * w)
  | .str ms _, .vstr buf len =>
      buf.length = ms ∧ len ≤ ms ∧ ms < 2 ^ 32 ∧ ∀ b ∈ buf, b < 256
  | .sub mid fs _, .sub fvs => mid < 2 ^ 32 ∧ wfFields fs fvs
  | .arr _ elem ms _, .arr items =>
      lenValues items ≤ ms ∧ ms < 2 ^ 32 ∧ wfValues elem items
  | .kmap _ kk vk ms _, .vmap pairs =>
      lenPairs pairs ≤ ms ∧ ms < 2 ^ 32 ∧ wfPairs kk vk pairs
  | _, _ => False

/-- Well-formedness of every element of an array. -/
def wfValues (elem : FieldKind) : Values → Prop
  | .nil => True
  | .cons v rest => wfValue elem v ∧ wfValues elem rest

/-- Well-formedness of every pair of a map. -/
def wfPairs (kk vk : FieldKind) : Pairs → Prop
  | .nil => True
  | .cons k v rest => wfValue kk k ∧ wfValue vk v ∧ wfPairs kk vk rest

/-- Well-formedness of a message's field tuple against its schema. -/
def wfFields : TopFields → FieldVals → Prop
  | .nil, .nil => True
  | .consPlain _ _ kind restF, .cons _ v restV =>
      wfValue kind v ∧ wfFields restF restV
  | .consBare kind restF, .cons set v restV =>
      set = true ∧ wfValue kind v ∧ wfFields restF restV
  | _, _ => False
end

mutual
/-- The equality operator of the field kinds (`Scalar::operator==` on the
value, `String::operator==` on the active views, message `== default` as
fieldwise equality, `ArrayField::operator==` on length plus active prefix,
`MapField::operator==` as the order-independent `has_entry` scan). -/
def valueEq : FieldKind → Value → Value → Bool
  | .scalar _ _, .scalar a, .scalar b => a == b
  | .str _ _, .vstr b1 l1, .vstr b2 l2 => b1.take l1 == b2.take l2
  | .sub _ fs _, .sub f1, .sub f2 => fieldValsEq fs f1 f2
  | .arr _ elem _ _, .arr i1, .arr i2 =>
      lenValues i1 == lenValues i2 && valuesEq elem i1 i2
  | .kmap _ kk vk _ _, .vmap p1, .vmap p2 =>
      lenPairs p1 == lenPairs p2 && pairsAllFound kk vk p1 p2
  | _, _, _ => false
termination_by k _ _ => (2 * sizeOf k, 0, 0)

/-- Pointwise equality of the active array prefixes (`std::equal` over
`current_len_` elements; called with equal lengths). -/
def valuesEq (elem : FieldKind) : Values → Values → Bool
  | .nil, _ => true
  | .cons _ _, .nil => false
  | .cons v1 r1, .cons v2 r2 => valueEq elem v1 v2 && valuesEq elem r1 r2
termination_by i1 _ => (2 * sizeOf elem, 1, sizeOf i1)

/-- Mirrors `MapField::has_entry` for every entry of the left map: find
the first right pair whose key compares equal and require its value to
compare equal. -/
def pairsAllFound (kk vk : FieldKind) : Pairs → Pairs → Bool
  | .nil, _ => true
  | .cons k v rest, p2 =>
      pairsHasEntry kk vk p2 k v && pairsAllFound kk vk rest p2
termination_by p1 _ => (2 * (sizeOf kk + sizeOf vk) + 1, 1, sizeOf p1)

/-- Mirrors the `find_if` + value comparison inside `has_entry`. -/
def pairsHasEntry (kk vk : FieldKind) : Pairs → Value → Value → Bool
  | .nil, _, _ => false
  | .cons k2 v2 rest, k, v =>
      if valueEq kk k2 k then valueEq vk v2 v
      else pairsHasEntry kk vk rest k v
termination_by p2 _ _ => (2 * (sizeOf kk + sizeOf vk) + 1, 0, sizeOf p2)

/-- Fieldwise equality of message values (`Field::operator==`: unequal
`set_` flags differ, both-unset compare equal regardless of the stored
value; bare array/map members compare by their own operators). -/
def fieldValsEq : TopFields → FieldVals → FieldVals → Bool
  | .nil, .nil, .nil => true
  | .consPlain _ _ kind restF, .cons s1 v1 r1, .cons s2 v2 r2 =>
      s1 == s2 && (!s1 || valueEq kind v1 v2) && fieldValsEq restF r1 r2
  | .consBare kind restF, .cons _ v1 r1, .cons _ v2 r2 =>
      valueEq kind v1 v2 && fieldValsEq restF r1 r2
  | _, _, _ => false
termination_by fs _ _ => (2 * sizeOf fs, 0, 0)
end

/-! ## Message validation (src/include/crunch/crunch_detail.hpp,
`detail::Validate` / `detail::ValidateField`, plus the per-kind `Validate`
methods in crunch_field.hpp / crunch_scalar.hpp / crunch_string.hpp) -/

mutual
/-- The per-kind element `Validate()`: scalar validators on the stored
value, string validators on the active view, a message element's own
cross-field hook (`ArrayField`/`MapField` call `items_[i].Validate()`,
which for a message is the user hook, not the recursive field walk),
and the recursive container validation for arrays and maps. -/
def valueOwnValidate : FieldKind → Value → Option CrError
  | .scalar _ check, .scalar v => check v
  | .str _ check, .vstr buf len => check (buf.take len)
  | .sub _ _ hook, .sub fvs => hook fvs
  | .arr fid elem _ check, .arr items =>
      match arrElemsValidate fid elem items with
      | some e => some e
      | none => check items
  | .kmap _ kk vk _ check, .vmap pairs =>
      match mapElemsValidate kk vk pairs with
      | some e => some e
      | none => check pairs
  | _, _ => none
termination_by k _ => (2 * sizeOf k, 0, 0)

/-- Element validation inside `ArrayField::Validate`.  For scalar elements
the source calls `items_[i].Validate(Id)`, which resolves to the static
`Scalar::Validate(ScalarType v, FieldId id = 0)` overload with `v` the
array's field id converted to the scalar type — i.e. it validates the
field id, not the element.  That conversion is modeled as the field id's
`width`-byte pattern `fid % 2 ^ (8 * width)` (exact for the integer
scalars; for `bool`/float elements the converted pattern differs but is
likewise a constant independent of the elements).  String elements resolve
to the instance `Validate(FieldId)` and messages to `Validate()`, both of
which validate the element itself. -/
def arrElemsValidate (fid : Nat) (elem : FieldKind) : Values → Option CrError
  | .nil => none
  | .cons v rest =>
      let r := match elem, v with
        | .scalar w check, _ => check (fid % 2 ^ (8 * w))
        | k, v' => valueOwnValidate k v'
      match r with
      | some e => some e
      | none => arrElemsValidate fid elem rest
termination_by items => (2 * sizeOf elem, 1, sizeOf items)

/-- Pair validation inside `MapField::Validate` (`.first.Validate()` then
`.second.Validate()` for each active pair). -/
def mapElemsValidate (kk vk : FieldKind) : Pairs → Option CrError
  | .nil => none
  | .cons k v rest =>
      match valueOwnValidate kk k with
      | some e => some e
      | none =>
          match valueOwnValidate vk v with
          | some e => some e
          | none => mapElemsValidate kk vk rest
termination_by pairs => (2 * (sizeOf kk + sizeOf vk) + 1, 1, sizeOf pairs)

/-- A submessage's full validation: the recursive field walk followed by
its cross-field hook (`detail::Validate`). -/
def subMsgValidate (fs : TopFields) (hook : FieldVals → Option CrError)
    (fvs : FieldVals) : Option CrError :=
  match fieldsValidate fs fvs with
  | some e => some e
  | none => hook fvs
termination_by (2 * sizeOf fs + 1, 0, 0)

/-- Mirrors the field fold of `detail::Validate` with
`detail::ValidateField` per field: presence first, then for a set
submessage field the recursive walk, otherwise the field's own
`Validate()` (a no-op on unset fields); first error wins. -/
def fieldsValidate : TopFields → FieldVals → Option CrError
  | .nil, _ => none
  | .consPlain id req kind restF, .cons set v restV =>
      let r :=
        if req && !set then
          some (CrError.validationErr id "field is required but not set")
        else
          match kind, v with
          | .sub _ fs2 hook, .sub fvs2 =>
              if set then subMsgValidate fs2 hook fvs2 else none
          | k, v' => if set then valueOwnValidate k v' else none
      match r with
      | some e => some e
      | none => fieldsValidate restF restV
  | .consBare kind restF, .cons _ v restV =>
      match valueOwnValidate kind v with
      | some e => some e
      | none => fieldsValidate restF restV
  | _, _ => none
termination_by fs _ => (2 * sizeOf fs, 0, 0)
end

/-- Mirrors `detail::Validate(message)` (the entry point `Crunch::Validate`
delegates to it): walk all fields, then run the message's cross-field
`Validate()` hook. -/
def msgValidate (s : MsgSchema) (fvs : FieldVals) : Option CrError :=
  match fieldsValidate s.fields fvs with
  | some e => some e
  | none => s.hook fvs

/-! ## Static layout offsets and size
(src/include/crunch/serdes/crunch_static_layout.hpp) -/

/-- Mirrors `StaticLayout::align_up(value, alignment)`.  For the
power-of-two alignments used (1, 4, 8) the C++ mask form
`(v + a - 1) & ~(a - 1)` rounds `v + a - 1` down to a multiple of `a`. -/
def alignUp (v a : Nat) : Nat := (v + a - 1) - (v + a - 1) % a

/-- Mirrors `StaticLayout::PayloadStartOffset = align_up(StandardHeaderSize,
Alignment)`. -/
def payloadStart (A : Nat) : Nat := alignUp 6 A

mutual
/-- Mirrors `StaticLayout::calculate_value_end_offset` and its per-kind
helpers: scalar slots pad to `min(sizeof(T), A)`; string/array/map slots
pad to `min(4, A)` for their `uint32_t` length; a submessage slot pads to
`A`, then a 4-byte message id, then its payload size computed from
relative offset 0 (`calculate_message_end_offset` calls
`calculate_payload_size(T{})`). -/
def calcValueEnd (A : Nat) : FieldKind → Nat → Nat
  | .scalar w _, off => off + calcPadding w A off + w
  | .str ms _, off => off + calcPadding 4 A off + 4 + ms
  | .sub _ fs _, off => off + calcPadding A A off + 4 + calcFieldsEnd A fs 0
  | .arr _ elem ms _, off => calcSlots A elem ms (off + calcPadding 4 A off + 4)
  | .kmap _ kk vk ms _, off =>
      calcPairSlots A kk vk ms (off + calcPadding 4 A off + 4)
termination_by k _ => (2 * sizeOf k, 0, 0)

/-- The element-slot loop of `calculate_array_end_offset`. -/
def calcSlots (A : Nat) (elem : FieldKind) : Nat → Nat → Nat
  | 0, off => off
  | n + 1, off => calcSlots A elem n (calcValueEnd A elem off)
termination_by n _ => (2 * sizeOf elem, 1, n)

/-- The pair-slot loop of `calculate_map_end_offset`. -/
def calcPairSlots (A : Nat) (kk vk : FieldKind) : Nat → Nat → Nat
  | 0, off => off
  | n + 1, off => calcPairSlots A kk vk n (calcValueEnd A vk (calcValueEnd A kk off))
termination_by n _ => (2 * (sizeOf kk + sizeOf vk) + 1, 1, n)

/-- Mirrors the fold of `calculate_field_end_offset` over the field tuple:
`Field` wrappers add one is-set byte, bare array/map fields do not. -/
def calcFieldsEnd (A : Nat) : TopFields → Nat → Nat
  | .nil, off => off
  | .consPlain _ _ kind rest, off => calcFieldsEnd A rest (calcValueEnd A kind (off + 1))
  | .consBare kind rest, off => calcFieldsEnd A rest (calcValueEnd A kind off)
termination_by fs _ => (2 * sizeOf fs, 0, 0)
end

/-- Mirrors `StaticLayout::calculate_payload_size` (fields folded from
relative offset 0). -/
def calcPayloadSize (A : Nat) (fs : TopFields) : Nat := calcFieldsEnd A fs 0

/-- Mirrors `StaticLayout::Size<Message>() = PayloadStartOffset +
sizeof(MessageId) + calculate_payload_size(Message{})`. -/
def staticSize (A : Nat) (s : MsgSchema) : Nat :=
  payloadStart A + 4 + calcPayloadSize A s.fields

/-! ## Static layout serialization -/

/-- The zero-fill loop for unused trailing array slots in
`StaticLayout::serialize_array`. -/
def zeroSlots (A : Nat) (elem : FieldKind) : Nat → Nat → List Nat
  | 0, _ => []
  | n + 1, off =>
      List.replicate (calcValueEnd A elem off - off) 0 ++
        zeroSlots A elem n (calcValueEnd A elem off)

/-- The zero-fill loop for unused trailing map slots in
`StaticLayout::serialize_map` (key slot, then value slot). -/
def zeroPairSlots (A : Nat) (kk vk : FieldKind) : Nat → Nat → List Nat
  | 0, _ => []
  | n + 1, off =>
      let keyEnd := calcValueEnd A kk off
      let valEnd := calcValueEnd A vk keyEnd
      List.replicate (keyEnd - off) 0 ++ List.replicate (valEnd - keyEnd) 0 ++
        zeroPairSlots A kk vk n valEnd

mutual
/-- Mirrors `StaticLayout::serialize_value` and its per-kind helpers.  The
C++ writes into `output` at `[off, end)` and returns `end`; the model
returns the bytes written, so `end = off + (serValue ...).length`.  Padding
bytes are zero; scalars are written little-endian; strings write the
4-byte length then the full `max_size` backing buffer; submessages write
their 4-byte message id then their fields at the running absolute offset;
arrays and maps write the 4-byte count, the active elements, then
zero-fill the remaining slots. -/
def serValue (A : Nat) : FieldKind → Value → Nat → List Nat
  | .scalar w _, .scalar v, off =>
      List.replicate (calcPadding w A off) 0 ++ leBytes w v
  | .str _ _, .vstr buf len, off =>
      List.replicate (calcPadding 4 A off) 0 ++ leBytes 4 len ++ buf
  | .sub mid fs _, .sub fvs, off =>
      let pad := calcPadding A A off
      List.replicate pad 0 ++ leBytes 4 mid ++ serFields A fs fvs (off + pad + 4)
  | .arr _ elem ms _, .arr items, off =>
      let pad := calcPadding 4 A off
      let body := serItems A elem items (off + pad + 4)
      List.replicate pad 0 ++ leBytes 4 (lenValues items) ++ body ++
        zeroSlots A elem (ms - lenValues items) (off + pad + 4 + body.length)
  | .kmap _ kk vk ms _, .vmap pairs, off =>
      let pad := calcPadding 4 A off
      let body := serPairs A kk vk pairs (off + pad + 4)
      List.replicate pad 0 ++ leBytes 4 (lenPairs pairs) ++ body ++
        zeroPairSlots A kk vk (ms - lenPairs pairs) (off + pad + 4 + body.length)
  | _, _, _ => []
termination_by k _ _ => (2 * sizeOf k, 0, 0)

/-- The active-element loop of `serialize_array`. -/
def serItems (A : Nat) (elem : FieldKind) : Values → Nat → List Nat
  | .nil, _ => []
  | .cons v rest, off =>
      let b := serValue A elem v off
      b ++ serItems A elem rest (off + b.length)
termination_by items _ => (2 * sizeOf elem, 1, sizeOf items)

/-- The active-pair loop of `serialize_map`. -/
def serPairs (A : Nat) (kk vk : FieldKind) : Pairs → Nat → List Nat
  | .nil, _ => []
  | .cons k v rest, off =>
      let bk := serValue A kk k off
      let bv := serValue A vk v (off + bk.length)
      bk ++ bv ++ serPairs A kk vk rest (off + bk.length + bv.length)
termination_by pairs _ => (2 * (sizeOf kk + sizeOf vk) + 1, 1, sizeOf pairs)

/-- Mirrors the fold of `serialize_field` over the field tuple: `Field`
wrappers write a 1-byte is-set flag, then either the value or a zero fill
of the value's computed slot; bare array/map fields serialize directly. -/
def serFields (A : Nat) : TopFields → FieldVals → Nat → List Nat
  | .consPlain _ _ kind restF, .cons set v restV, off =>
      let body := if set then serValue A kind v (off + 1)
                  else List.replicate (calcValueEnd A kind (off + 1) - (off + 1)) 0
      (if set then 1 else 0) :: body ++ serFields A restF restV (off + 1 + body.length)
  | .consBare kind restF, .cons _ v restV, off =>
      let body := serValue A kind v off
      body ++ serFields A restF restV (off + body.length)
  | _, _, _ => []
termination_by fs _ _ => (2 * sizeOf fs, 0, 0)
end

/-- Mirrors `StaticLayout::Serialize(msg, output)`: the caller
(`detail::SerializeWithoutValidation`) has already written the 6-byte
standard header; `Serialize` zero-fills up to `PayloadStartOffset`, writes
the 4-byte little-endian message id, then the fields at absolute offsets.
The model returns the bytes written from offset 6 on; the C++ return value
(the final offset, i.e. the byte count) is `6 +` the length of this
list. -/
def staticSerializeTail (A : Nat) (s : MsgSchema) (m : FieldVals) : List Nat :=
  List.replicate (payloadStart A - 6) 0 ++ leBytes 4 s.mid ++
    serFields A s.fields m (payloadStart A + 4)

/-- The byte count returned by `StaticLayout::Serialize`. -/
def staticSerializeEnd (A : Nat) (s : MsgSchema) (m : FieldVals) : Nat :=
  6 + (staticSerializeTail A s m).length

/-! ## Static layout deserialization -/

mutual
/-- Mirrors `StaticLayout::deserialize_value` and its helpers, decoding
into a default-initialized target (as at every call site in the claims: a
fresh `out` message or the decoder's `Messages msg{}`).  Unset scalars
keep the default 0; unset strings/arrays/maps are cleared; an unset
submessage slot is skipped using the relative payload size.  Array and map
decoding first computes the slot end from the current offset
(`calculate_array_end_offset` / `calculate_map_end_offset`), rejects
counts above the capacity with `CapacityExceeded`, and returns the slot
end. -/
def deserValue (A : Nat) : FieldKind → Bool → List Nat → Nat →
    Except CrError (Value × Nat)
  | .scalar w _, set, input, off =>
      let off1 := off + calcPadding w A off
      if set then .ok (.scalar (readLE input off1 w), off1 + w)
      else .ok (.scalar 0, off1 + w)
  | .str ms _, set, input, off =>
      let off1 := off + calcPadding 4 A off
      let len := readLE input off1 4
      if set then
        if ms < len then
          .error (CrError.capacityErr 0 "deserialized string too long")
        else .ok (.vstr (readBytes input (off1 + 4) ms) len, off1 + 4 + ms)
      else .ok (.vstr (List.replicate ms 0) 0, off1 + 4 + ms)
  | .sub mid fs _, set, input, off =>
      let off1 := off + calcPadding A A off
      let rid := readLE input off1 4
      if set && rid != mid then .error CrError.invalidMessageIdErr
      else if set then
        match deserFields A fs input (off1 + 4) with
        | .error e => .error e
        | .ok (fvs, off') => .ok (.sub fvs, off')
      else .ok (.sub (defaultFields fs), off1 + 4 + calcFieldsEnd A fs 0)
  | .arr fid elem ms chk, set, input, off =>
      let arrEnd := calcValueEnd A (.arr fid elem ms chk) off
      if !set then .ok (.arr .nil, arrEnd)
      else
        let off1 := off + calcPadding 4 A off
        let len := readLE input off1 4
        if ms < len then .error (CrError.capacityErr 0 "array capacity exceeded")
        else
          match deserItems A elem len input (off1 + 4) with
          | .error e => .error e
          | .ok (items, _) => .ok (.arr items, arrEnd)
  | .kmap fid kk vk ms chk, set, input, off =>
      let mapEnd := calcValueEnd A (.kmap fid kk vk ms chk) off
      if !set then .ok (.vmap .nil, mapEnd)
      else
        let off1 := off + calcPadding 4 A off
        let len := readLE input off1 4
        if ms < len then .error (CrError.capacityErr 0 "map capacity exceeded")
        else
          match deserPairs A kk vk len input (off1 + 4) with
          | .error e => .error e
          | .ok (pairs, _) => .ok (.vmap pairs, mapEnd)
termination_by k _ _ _ => (2 * sizeOf k, 0, 0)

/-- The active-element decode loop of `deserialize_array`. -/
def deserItems (A : Nat) (elem : FieldKind) : Nat → List Nat → Nat →
    Except CrError (Values × Nat)
  | 0, _, off => .ok (.nil, off)
  | n + 1, input, off =>
      match deserValue A elem true input off with
      | .error e => .error e
      | .ok (v, off') =>
          match deserItems A elem n input off' with
          | .error e => .error e
          | .ok (vs, off'') => .ok (.cons v vs, off'')
termination_by n _ _ => (2 * sizeOf elem, 1, n)

/-- The active-pair decode loop of `deserialize_map`. -/
def deserPairs (A : Nat) (kk vk : FieldKind) : Nat → List Nat → Nat →
    Except CrError (Pairs × Nat)
  | 0, _, off => .ok (.nil, off)
  | n + 1, input, off =>
      match deserValue A kk true input off with
      | .error e => .error e
      | .ok (k, off') =>
          match deserValue A vk true input off' with
          | .error e => .error e
          | .ok (v, off'') =>
              match deserPairs A kk vk n input off'' with
              | .error e => .error e
              | .ok (ps, off''') => .ok (.cons k v ps, off''')
termination_by n _ _ => (2 * (sizeOf kk + sizeOf vk) + 1, 1, n)

/-- Mirrors the fold of `deserialize_field`: `Field` wrappers read the
is-set byte (`static_cast<bool>` of the wire byte: any nonzero value sets
the flag) then the value; bare array/map fields decode with `set =
true`. -/
def deserFields (A : Nat) : TopFields → List Nat → Nat →
    Except CrError (FieldVals × Nat)
  | .nil, _, off => .ok (.nil, off)
  | .consPlain _ _ kind restF, input, off =>
      let set := input.getD off 0 != 0
      match deserValue A kind set input (off + 1) with
      | .error e => .error e
      | .ok (v, off') =>
          match deserFields A restF input off' with
          | .error e => .error e
          | .ok (rest, off'') => .ok (.cons set v rest, off'')
  | .consBare kind restF, input, off =>
      match deserValue A kind true input off with
      | .error e => .error e
      | .ok (v, off') =>
          match deserFields A restF input off' with
          | .error e => .error e
          | .ok (rest, off'') => .ok (.cons true v rest, off'')
termination_by fs _ _ => (2 * sizeOf fs, 0, 0)
end

/-- Mirrors `StaticLayout::Deserialize(input, msg)`: read the 4-byte
message id at `PayloadStartOffset`, reject a mismatch with
`InvalidMessageId`, then decode the fields in order (first error wins). -/
def staticDeserialize (A : Nat) (s : MsgSchema) (input : List Nat) :
    Except CrError FieldVals :=
  let rid := readLE input (payloadStart A) 4
  if rid ≠ s.mid then .error CrError.invalidMessageIdErr
  else
    match deserFields A s.fields input (payloadStart A + 4) with
    | .error e => .error e
    | .ok (fvs, _) => .ok fvs

/-! ## TLV layout serialization
(src/include/crunch/serdes/crunch_tlv_layout.hpp)

The TLV forms have no alignment, so each serializer's output is
independent of the write offset and is modeled as a plain byte list.
`fixup_length_prefix` reserves `Varint::max_size` bytes for a length,
writes the body, then encodes the actual length and shifts the body left
over the unused reservation; the bytes finally occupying the region are
exactly the length varint followed by the body, which is what
`lenDelimited` produces. -/

/-- Mirrors `TlvLayout::write_tag`: `tag = (uint32(id) << 3) | wire_type`
(ids are below `2^29`, so the 32-bit shift does not wrap), varint
encoded.  Wire types: 0 = Varint, 1 = LengthDelimited. -/
def tlvTag (id wt : Nat) : List Nat := varintEncode ((id <<< 3) ||| wt)

/-- The net effect of a reserved-and-fixed-up length prefix
(`fixup_length_prefix`): the body's length as a varint, then the body. -/
def lenDelimited (body : List Nat) : List Nat := varintEncode body.length ++ body

/-- The dispatch of `serialize_field` for a plain `Field` wrapper: the
wire type used for the inner kind, or `none` when no branch of the
source's `if constexpr` chain matches (inner arrays/maps), in which case
nothing is written. -/
def kindPlainTag : FieldKind → Option Nat
  | .scalar _ _ => some 0
  | .str _ _ => some 1
  | .sub _ _ _ => some 1
  | _ => none

/-- The dispatch of `serialize_field` for a bare array/map field:
`is_set` is `!empty()`, and the tag uses the field's own id.  Returns
the id when the field serializes, `none` when it is skipped. -/
def bareFieldTagId : FieldKind → Value → Option Nat
  | .arr fid _ _ _, .arr items => if lenValues items == 0 then none else some fid
  | .kmap fid _ _ _ _, .vmap pairs => if lenPairs pairs == 0 then none else some fid
  | _, _ => none

mutual
/-- Mirrors `serialize_value_without_tag` (and the per-kind
`serialize_scalar_value` / `serialize_string_value` /
`serialize_nested_message` / `serialize_array_value` /
`serialize_map_value`).  A scalar's pattern is zero-extended to 64 bits
and varint encoded (`bool` writes 0/1, floats their bit pattern — all are
the stored pattern); strings write their active view length-delimited;
nested messages their tag-free field sequence; arrays and maps their
count-prefixed packed content. -/
def tlvSerValueNoTag : FieldKind → Value → List Nat
  | .scalar _ _, .scalar v => varintEncode v
  | .str _ _, .vstr buf len => lenDelimited (buf.take len)
  | .sub _ fs _, .sub fvs => lenDelimited (tlvSerFields fs fvs)
  | .arr _ elem _ _, .arr items =>
      lenDelimited (varintEncode (lenValues items) ++ tlvSerItems elem items)
  | .kmap _ kk vk _ _, .vmap pairs =>
      lenDelimited (varintEncode (lenPairs pairs) ++ tlvSerPairs kk vk pairs)
  | _, _ => []
termination_by k _ => (2 * sizeOf k, 0, 0)

/-- The element loop of `serialize_array_content`. -/
def tlvSerItems (elem : FieldKind) : Values → List Nat
  | .nil => []
  | .cons v rest => tlvSerValueNoTag elem v ++ tlvSerItems elem rest
termination_by items => (2 * sizeOf elem, 1, sizeOf items)

/-- The pair loop of `serialize_map_content`. -/
def tlvSerPairs (kk vk : FieldKind) : Pairs → List Nat
  | .nil => []
  | .cons k v rest =>
      tlvSerValueNoTag kk k ++ tlvSerValueNoTag vk v ++ tlvSerPairs kk vk rest
termination_by pairs => (2 * (sizeOf kk + sizeOf vk) + 1, 1, sizeOf pairs)

/-- Mirrors `serialize_field` folded over the tuple
(`serialize_fields_helper`): unset `Field` wrappers and empty arrays/maps
are omitted; otherwise the tag is written (wire type Varint for scalars,
LengthDelimited for the rest) followed by the untagged value.  A `Field`
whose inner type is an array or map matches no dispatch branch in the
source and writes nothing (such schemas are excluded by `wfSchema`
below). -/
def tlvSerFields : TopFields → FieldVals → List Nat
  | .consPlain id _ kind restF, .cons set v restV =>
      (if set then
        match kindPlainTag kind with
        | some wt => tlvTag id wt ++ tlvSerValueNoTag kind v
        | none => []
      else []) ++ tlvSerFields restF restV
  | .consBare kind restF, .cons _ v restV =>
      (match bareFieldTagId kind v with
        | some fid => tlvTag fid 1 ++ tlvSerValueNoTag kind v
        | none => []) ++ tlvSerFields restF restV
  | _, _ => []
termination_by fs _ => (2 * sizeOf fs, 0, 0)
end

/-- Mirrors `TlvLayout::Serialize`: the caller wrote the 6-byte header;
the serializer writes a 4-byte little-endian payload length at offset 6
(back-patched in the source) followed by the tagged fields.  The model
returns the bytes from offset 6 on; the C++ return value is `6 +` this
list's length. -/
def tlvSerializeTail (s : MsgSchema) (m : FieldVals) : List Nat :=
  leBytes 4 (tlvSerFields s.fields m).length ++ tlvSerFields s.fields m

/-- The byte count returned by `TlvLayout::Serialize`. -/
def tlvSerializeEnd (s : MsgSchema) (m : FieldVals) : Nat :=
  6 + (tlvSerializeTail s m).length

/-! ## TLV layout deserialization -/

/-- The field id a bare array/map field exposes as `field_id`. -/
def kindFid : FieldKind → Nat
  | .arr fid _ _ _ => fid
  | .kmap fid _ _ _ _ => fid
  | _ => 0

/-- Append one element (`ArrayField::add` after its capacity check). -/
def valuesAppend : Values → Value → Values
  | .nil, v => .cons v .nil
  | .cons v0 rest, v => .cons v0 (valuesAppend rest v)

/-- Append one pair (`items_[current_len_++] = ...` in `MapField::insert`). -/
def pairsAppend : Pairs → Value → Value → Pairs
  | .nil, k, v => .cons k v .nil
  | .cons k0 v0 rest, k, v => .cons k0 v0 (pairsAppend rest k v)

/-- The active elements of an array value (the decoder appends into the
field's current contents; a non-array value stands for the untouched
default, i.e. no elements). -/
def arrItemsOf : Value → Values
  | .arr items => items
  | _ => .nil

/-- The active pairs of a map value. -/
def mapPairsOf : Value → Pairs
  | .vmap pairs => pairs
  | _ => .nil

/-- The scan of `MapField::at(key)` (linear scan with `key_equals`, which
compares with the kinds' `operator==`), reduced to presence. -/
def pairsKeyPresent (kk : FieldKind) : Pairs → Value → Bool
  | .nil, _ => false
  | .cons k2 _ rest, k => valueEq kk k2 k || pairsKeyPresent kk rest k

/-- Mirrors `MapField::insert` as a state transformer on the pair list:
validate the key, validate the value (`KeyField::Validate(x, 0)` for
scalars/strings, `x.Validate()` for aggregates — in both cases the
element validation `valueOwnValidate`), then the capacity check, then the
duplicate-key scan, then append. -/
def tlvMapInsert (fid : Nat) (kk vk : FieldKind) (ms : Nat) (pairs : Pairs)
    (k v : Value) : Except CrError Pairs :=
  match valueOwnValidate kk k with
  | some e => .error e
  | none =>
      match valueOwnValidate vk v with
      | some e => .error e
      | none =>
          if ms ≤ lenPairs pairs then
            .error (CrError.capacityErr fid "map capacity exceeded")
          else if pairsKeyPresent kk pairs k then
            .error (CrError.validationErr fid "Duplicate key in map")
          else .ok (pairsAppend pairs k v)

mutual
/-- Mirrors the `while (offset < input.size())` loop of
`deserialize_message_payload`: read a tag varint, extract the field id
(`uint32` cast of `tag >> 3`; a valid id is below `2^29`, so larger
values match no field) and the wire type (`tag & 0x07`), locate and
decode the matching field, and continue at the updated offset.  `fuel`
bounds the iteration count for well-foundedness only: every iteration of
the source loop consumes at least the one-byte-minimum tag varint, so a
budget of `input.length + 1` (used at every call site) can never run out
before `offset` passes `input.length`; the fuel-exhaustion branch is
unreachable. -/
def tlvMsgLoop (fs : TopFields) (fuel : Nat) (input : List Nat)
    (offset : Nat) (cur : FieldVals) : Except CrError FieldVals :=
  match fuel with
  | 0 => .error (CrError.deserializationErr "invalid tag varint")
  | fuel' + 1 =>
      if _h1 : offset < input.length then
        match _h2 : varintDecode input offset with
        | none => .error (CrError.deserializationErr "invalid tag varint")
        | some (tag, tagBytes) =>
            match tlvVisit input ((tag >>> 3) % 2 ^ 32) (tag &&& 0x07) fs cur
                (offset + tagBytes) with
            | .error e => .error e
            | .ok none =>
                .error (CrError.deserializationErr "unknown fields present")
            | .ok (some (cur', offset')) => tlvMsgLoop fs fuel' input offset' cur'
      else .ok cur
termination_by (input.length, input.length + fuel, 3, 0)

/-- Mirrors `visit_fields_tlv`: walk the field tuple looking for
`f.field_id == target_id`; on the first match decode into that field and
stop; `none` means no field matched (`found` stays false). -/
def tlvVisit (input : List Nat) (targetId wt : Nat) :
    TopFields → FieldVals → Nat → Except CrError (Option (FieldVals × Nat))
  | .nil, _, _ => .ok none
  | .consPlain id _ kind restF, .cons set v restV, off =>
      if id == targetId then
        match tlvDeserPlainField input wt kind set v off with
        | .error e => .error e
        | .ok (set', v', off') => .ok (some (.cons set' v' restV, off'))
      else
        match tlvVisit input targetId wt restF restV off with
        | .error e => .error e
        | .ok none => .ok none
        | .ok (some (rest', off')) => .ok (some (.cons set v rest', off'))
  | .consBare kind restF, .cons set v restV, off =>
      if kindFid kind == targetId then
        match tlvDeserBareField input wt kind v off with
        | .error e => .error e
        | .ok (v', off') => .ok (some (.cons set v' restV, off'))
      else
        match tlvVisit input targetId wt restF restV off with
        | .error e => .error e
        | .ok none => .ok none
        | .ok (some (rest', off')) => .ok (some (.cons set v rest', off'))
  | _, _, _ => .ok none
termination_by fs _ off => (input.length, input.length - off, 2, sizeOf fs)

/-- Mirrors `deserialize_field_value` for a plain `Field` wrapper
(`FieldT` not an array/map): dispatch on the inner kind to
`deserialize_scalar_field` / `deserialize_string_field` /
`deserialize_nested_message_field`.  A `Field` with an array/map inner
matches no `if constexpr` branch and falls through to `return offset`
unchanged without touching the field. -/
def tlvDeserPlainField (input : List Nat) (wt : Nat) :
    FieldKind → Bool → Value → Nat → Except CrError (Bool × Value × Nat)
  | .scalar w _, _, _, off =>
      if wt != 0 then
        .error (CrError.deserializationErr "scalar must be varint")
      else
        match varintDecode input off with
        | none => .error (CrError.deserializationErr "invalid varint")
        | some (raw, n) =>
            .ok (true, .scalar (raw % 2 ^ (8 * w)), off + n)
  | .str ms check, _, _, off =>
      if wt != 1 then
        .error (CrError.deserializationErr "string requires length delimited")
      else
        match varintDecode input off with
        | none => .error (CrError.deserializationErr "invalid length")
        | some (len, n) =>
            if input.length < off + n + len then
              .error (CrError.deserializationErr "underflow")
            else
              let sv := (input.drop (off + n)).take len
              if ms < len then
                .error (CrError.capacityErr 0 "string exceeds capacity")
              else
                match check sv with
                | some e => .error e
                | none =>
                    .ok (true, .vstr (sv ++ List.replicate (ms - len) 0) len,
                      off + n + len)
  | .sub _ fs _, _, _, off =>
      if wt != 1 then
        .error (CrError.deserializationErr "nested msg requires length delimited")
      else
        match _h : varintDecode input off with
        | none => .error (CrError.deserializationErr "invalid length")
        | some (len, n) =>
            if _hb : input.length < off + n + len then
              .error (CrError.deserializationErr "underflow")
            else
              let sub := (input.drop (off + n)).take len
              match tlvMsgLoop fs (sub.length + 1) sub 0 (defaultFields fs) with
              | .error e => .error e
              | .ok fvs => .ok (true, .sub fvs, off + n + len)
  | _, set, v, off => .ok (set, v, off)
termination_by k _ _ off => (input.length, input.length - off, 1, sizeOf k)
decreasing_by
all_goals first
  | decreasing_tactic
  | (simp_wf
     apply Prod.Lex.left
     have hgen : ∀ (l : List Nat) (v s : Nat) (p : Nat × Nat),
         varintDecodeLoop l v s = some p → 1 ≤ p.2 ∧ l ≠ [] := by
       intro l
       induction l with
       | nil => intro v s p h; simp [varintDecodeLoop] at h
       | cons b rest _ih =>
           intro v s p h
           refine ⟨?_, by simp⟩
           simp only [varintDecodeLoop] at h
           split at h
           · simp at h
           · try simp only [] at h
             split at h
             · injection h with h'
               subst h'
               exact Nat.le_refl 1
             · split at h
               · injection h with h'
                 subst h'
                 exact Nat.succ_le_succ (Nat.zero_le _)
               · simp at h
     simp only [varintDecode] at _h
     have h2 := hgen _ _ _ _ _h
     have hn : 1 ≤ n := h2.1
     have _hoff : off < input.length := by
       by_contra hc
       push_neg at hc
       rw [List.drop_eq_nil_of_le hc] at h2
       exact h2.2 rfl
     have _hmin := min_le_right len (input.length - (off + n))
     try simp only [List.length_take, List.length_drop]
     omega)

/-- Mirrors `deserialize_field_value` for a bare field (`is_array_field_v`
/ `is_map_field_v` dispatch to `deserialize_array_field` /
`deserialize_map_field`): check the wire type, read the total length
varint, check bounds, then decode the count-prefixed content from the
content subspan, appending into the field's current contents. -/
def tlvDeserBareField (input : List Nat) (wt : Nat) :
    FieldKind → Value → Nat → Except CrError (Value × Nat)
  | .arr fid elem ms _, v, off =>
      if wt != 1 then
        .error (CrError.deserializationErr "array must be length delimited")
      else
        match _h : varintDecode input off with
        | none => .error (CrError.deserializationErr "invalid array length")
        | some (len, n) =>
            if _hb : input.length < off + n + len then
              .error (CrError.deserializationErr "array underflow")
            else
              let sub := (input.drop (off + n)).take len
              let cur := arrItemsOf v
              match _h2 : varintDecode sub 0 with
              | none => .error (CrError.deserializationErr "invalid array count")
              | some (count, n2) =>
                  match tlvDeserElems elem fid ms count sub n2 cur with
                  | .error e => .error e
                  | .ok (items', _) => .ok (.arr items', off + n + len)
  | .kmap fid kk vk ms _, v, off =>
      if wt != 1 then
        .error (CrError.deserializationErr "map must be length delimited")
      else
        match _h : varintDecode input off with
        | none => .error (CrError.deserializationErr "could not decode map length")
        | some (len, n) =>
            if _hb : input.length < off + n + len then
              .error (CrError.deserializationErr "map underflow")
            else
              let sub := (input.drop (off + n)).take len
              let cur := mapPairsOf v
              match _h2 : varintDecode sub 0 with
              | none => .error (CrError.deserializationErr "invalid map count")
              | some (count, n2) =>
                  match tlvDeserMapElems kk vk fid ms count sub n2 cur with
                  | .error e => .error e
                  | .ok (pairs', _) => .ok (.vmap pairs', off + n + len)
  | _, v, off => .ok (v, off)
termination_by k _ off => (input.length, input.length - off, 1, sizeOf k)
decreasing_by
all_goals first
  | decreasing_tactic
  | (simp_wf
     apply Prod.Lex.left
     have hgen : ∀ (l : List Nat) (v s : Nat) (p : Nat × Nat),
         varintDecodeLoop l v s = some p → 1 ≤ p.2 ∧ l ≠ [] := by
       intro l
       induction l with
       | nil => intro v s p h; simp [varintDecodeLoop] at h
       | cons b rest _ih =>
           intro v s p h
           refine ⟨?_, by simp⟩
           simp only [varintDecodeLoop] at h
           split at h
           · simp at h
           · try simp only [] at h
             split at h
             · injection h with h'
               subst h'
               exact Nat.le_refl 1
             · split at h
               · injection h with h'
                 subst h'
                 exact Nat.succ_le_succ (Nat.zero_le _)
               · simp at h
     simp only [varintDecode] at _h
     have h2 := hgen _ _ _ _ _h
     have hn : 1 ≤ n := h2.1
     have _hoff : off < input.length := by
       by_contra hc
       push_neg at hc
       rw [List.drop_eq_nil_of_le hc] at h2
       exact h2.2 rfl
     have _hmin := min_le_right len (input.length - (off + n))
     try simp only [List.length_take, List.length_drop]
     omega)

/-- Mirrors `deserialize_value_without_tag` and its per-kind helpers,
decoding a fresh default-constructed element (`ElemT elem{}`; nested
containers therefore start empty). -/
def tlvDeserValueNoTag (input : List Nat) :
    FieldKind → Nat → Except CrError (Value × Nat)
  | .scalar w _, off =>
      match varintDecode input off with
      | none => .error (CrError.deserializationErr "invalid varint in packed")
      | some (raw, n) => .ok (.scalar (raw % 2 ^ (8 * w)), off + n)
  | .str ms check, off =>
      match varintDecode input off with
      | none => .error (CrError.deserializationErr "invalid string length")
      | some (len, n) =>
          if input.length < off + n + len then
            .error (CrError.deserializationErr "buffer underflow")
          else
            let sv := (input.drop (off + n)).take len
            if ms < len then
              .error (CrError.capacityErr 0 "string exceeds capacity")
            else
              match check sv with
              | some e => .error e
              | none =>
                  .ok (.vstr (sv ++ List.replicate (ms - len) 0) len,
                    off + n + len)
  | .sub _ fs _, off =>
      match _h : varintDecode input off with
      | none => .error (CrError.deserializationErr "invalid message length")
      | some (len, n) =>
          if _hb : input.length < off + n + len then
            .error (CrError.deserializationErr "buffer underflow")
          else
            let sub := (input.drop (off + n)).take len
            match tlvMsgLoop fs (sub.length + 1) sub 0 (defaultFields fs) with
            | .error e => .error e
            | .ok fvs => .ok (.sub fvs, off + n + len)
  | .arr fid elem ms _, off =>
      match _h : varintDecode input off with
      | none => .error (CrError.deserializationErr "invalid array length")
      | some (len, n) =>
          if _hb : input.length < off + n + len then
            .error (CrError.deserializationErr "buffer underflow")
          else
            let sub := (input.drop (off + n)).take len
            match _h2 : varintDecode sub 0 with
            | none => .error (CrError.deserializationErr "invalid array count")
            | some (count, n2) =>
                match tlvDeserElems elem fid ms count sub n2 .nil with
                | .error e => .error e
                | .ok (items, _) => .ok (.arr items, off + n + len)
  | .kmap fid kk vk ms _, off =>
      match _h : varintDecode input off with
      | none => .error (CrError.deserializationErr "invalid map length")
      | some (len, n) =>
          if _hb : input.length < off + n + len then
            .error (CrError.deserializationErr "buffer underflow")
          else
            let sub := (input.drop (off + n)).take len
            match _h2 : varintDecode sub 0 with
            | none => .error (CrError.deserializationErr "invalid map count")
            | some (count, n2) =>
                match tlvDeserMapElems kk vk fid ms count sub n2 .nil with
                | .error e => .error e
                | .ok (pairs, _) => .ok (.vmap pairs, off + n + len)
termination_by k off => (input.length, input.length - off, 1, sizeOf k)
decreasing_by
all_goals first
  | decreasing_tactic
  | (simp_wf
     apply Prod.Lex.left
     have hgen : ∀ (l : List Nat) (v s : Nat) (p : Nat × Nat),
         varintDecodeLoop l v s = some p → 1 ≤ p.2 ∧ l ≠ [] := by
       intro l
       induction l with
       | nil => intro v s p h; simp [varintDecodeLoop] at h
       | cons b rest _ih =>
           intro v s p h
           refine ⟨?_, by simp⟩
           simp only [varintDecodeLoop] at h
           split at h
           · simp at h
           · try simp only [] at h
             split at h
             · injection h with h'
               subst h'
               exact Nat.le_refl 1
             · split at h
               · injection h with h'
                 subst h'
                 exact Nat.succ_le_succ (Nat.zero_le _)
               · simp at h
     simp only [varintDecode] at _h
     have h2 := hgen _ _ _ _ _h
     have hn : 1 ≤ n := h2.1
     have _hoff : off < input.length := by
       by_contra hc
       push_neg at hc
       rw [List.drop_eq_nil_of_le hc] at h2
       exact h2.2 rfl
     have _hmin := min_le_right len (input.length - (off + n))
     try simp only [List.length_take, List.length_drop]
     omega)

/-- The element loop of `deserialize_array_elements` after the count was
read: decode a fresh element, then `field.add` it (capacity check carrying
the array's field id, then append). -/
def tlvDeserElems (elem : FieldKind) (fid ms : Nat) :
    Nat → List Nat → Nat → Values → Except CrError (Values × Nat)
  | 0, _, off, cur => .ok (cur, off)
  | count + 1, input, off, cur =>
      match tlvDeserValueNoTag input elem off with
      | .error e => .error e
      | .ok (v, off') =>
          if ms ≤ lenValues cur then
            .error (CrError.capacityErr fid "array capacity exceeded")
          else tlvDeserElems elem fid ms count input off' (valuesAppend cur v)
termination_by count input _ _ => (input.length, input.length + count, 0, 0)

/-- The pair loop of `deserialize_map_elements` after the count was read:
decode a fresh key and value, then `field.insert` them. -/
def tlvDeserMapElems (kk vk : FieldKind) (fid ms : Nat) :
    Nat → List Nat → Nat → Pairs → Except CrError (Pairs × Nat)
  | 0, _, off, cur => .ok (cur, off)
  | count + 1, input, off, cur =>
      match tlvDeserValueNoTag input kk off with
      | .error e => .error e
      | .ok (k, off1) =>
          match tlvDeserValueNoTag input vk off1 with
          | .error e => .error e
          | .ok (v, off2) =>
              match tlvMapInsert fid kk vk ms cur k v with
              | .error e => .error e
              | .ok cur' => tlvDeserMapElems kk vk fid ms count input off2 cur'
termination_by count input _ _ => (input.length, input.length + count, 0, 0)
end

/-- Mirrors `TlvLayout::Deserialize`: the header was already validated by
the caller; check room for the 4-byte payload length at offset 6, read it,
check the payload fits, and scan the tagged fields of
`input.subspan(0, 10 + payload_len)` from offset 10 into a
default-constructed message. -/
def tlvDeserialize (s : MsgSchema) (input : List Nat) :
    Except CrError FieldVals :=
  if input.length < 10 then
    .error (CrError.deserializationErr "buffer too small for tlv length")
  else
    let payloadLen := readLE input 6 4
    if input.length < 10 + payloadLen then
      .error (CrError.deserializationErr "tlv length exceeds buffer")
    else
      let sub := input.take (10 + payloadLen)
      tlvMsgLoop s.fields (sub.length + 1) sub 10 (defaultFields s.fields)

/-! ## Pointwise observational equivalence

Two field states are pointwise equivalent when they agree on everything
the library's operations can observe: set flags, scalar values, strings'
active views, and containers' active elements in order.  (Unset `Field`
wrappers may hold different stored values; strings may differ in the
bytes beyond their length.)  The decoder images defined below are
pointwise equivalent to their sources. -/

mutual
/-- Pointwise equivalence of two values of one kind. -/
def pwEqValue : FieldKind → Value → Value → Prop
  | .scalar _ _, .scalar a, .scalar b => a = b
  | .str _ _, .vstr b1 l1, .vstr b2 l2 => l1 = l2 ∧ b1.take l1 = b2.take l2
  | .sub _ fs _, .sub f1, .sub f2 => pwEqFields fs f1 f2
  | .arr _ elem _ _, .arr i1, .arr i2 => pwEqValues elem i1 i2
  | .kmap _ kk vk _ _, .vmap p1, .vmap p2 => pwEqPairs kk vk p1 p2
  | _, _, _ => False
termination_by k _ _ => (2 * sizeOf k, 0, 0)

/-- Pointwise equivalence of array contents. -/
def pwEqValues (elem : FieldKind) : Values → Values → Prop
  | .nil, .nil => True
  | .cons v1 r1, .cons v2 r2 => pwEqValue elem v1 v2 ∧ pwEqValues elem r1 r2
  | _, _ => False
termination_by i1 _ => (2 * sizeOf elem, 1, sizeOf i1)

/-- Pointwise equivalence of map contents (order-sensitive). -/
def pwEqPairs (kk vk : FieldKind) : Pairs → Pairs → Prop
  | .nil, .nil => True
  | .cons k1 v1 r1, .cons k2 v2 r2 =>
      pwEqValue kk k1 k2 ∧ pwEqValue vk v1 v2 ∧ pwEqPairs kk vk r1 r2
  | _, _ => False
termination_by p1 _ => (2 * (sizeOf kk + sizeOf vk) + 1, 1, sizeOf p1)

/-- Pointwise equivalence of two field tuples: equal set flags, and
equivalent values wherever the flag (or bare container) makes the value
observable. -/
def pwEqFields : TopFields → FieldVals → FieldVals → Prop
  | .nil, .nil, .nil => True
  | .consPlain _ _ kind restF, .cons s1 v1 r1, .cons s2 v2 r2 =>
      s1 = s2 ∧ (s1 = true → pwEqValue kind v1 v2) ∧ pwEqFields restF r1 r2
  | .consBare kind restF, .cons _ v1 r1, .cons _ v2 r2 =>
      pwEqValue kind v1 v2 ∧ pwEqFields restF r1 r2
  | _, _, _ => False
termination_by fs _ _ => (2 * sizeOf fs, 0, 0)
end

/-! ## Schema well-formedness

The constraints the C++ template machinery enforces at compile time
(`ValidField`, `ValidElementType`, `has_unique_field_ids`, `FieldId ≤
MaxFieldId`, fixed scalar widths), plus the modeling assumption that the
user-supplied cross-field hooks and container validators depend only on
the observable content of their argument. -/

/-- The ids of a field tuple, in order (`has_unique_field_ids` requires
them pairwise distinct). -/
def fieldIds : TopFields → List Nat
  | .nil => []
  | .consPlain id _ _ rest => id :: fieldIds rest
  | .consBare kind rest => kindFid kind :: fieldIds rest

/-- Map keys are scalars or strings (`key_equals` then compares values /
views, which is an equivalence). -/
def keyKindOk : FieldKind → Prop
  | .scalar _ _ => True
  | .str _ _ => True
  | _ => False

/-- Bare top-level fields are arrays or maps. -/
def bareKindOk : FieldKind → Prop
  | .arr _ _ _ _ => True
  | .kmap _ _ _ _ _ => True
  | _ => False

mutual
/-- Well-formedness of a field kind. -/
def wfKind : FieldKind → Prop
  | .scalar w _ => w = 1 ∨ w = 2 ∨ w = 4 ∨ w = 8
  | .str _ _ => True
  | .sub mid fs hook => mid < 2 ^ 32 ∧
      (∀ f1 f2, pwEqFields fs f1 f2 → hook f1 = hook f2) ∧ wfTF fs
  | .arr fid elem _ check => fid < 2 ^ 29 ∧
      (∀ i1 i2, pwEqValues elem i1 i2 → check i1 = check i2) ∧ wfKind elem
  | .kmap fid kk vk _ check => fid < 2 ^ 29 ∧ keyKindOk kk ∧
      (∀ p1 p2, pwEqPairs kk vk p1 p2 → check p1 = check p2) ∧
      wfKind kk ∧ wfKind vk
termination_by k => (2 * sizeOf k, 0, 0)

/-- Well-formedness of a field tuple: plain wrappers hold scalars,
strings or submessages; bare members are arrays or maps; ids are below
`MaxFieldId + 1 = 2^29` and pairwise distinct. -/
def wfTF : TopFields → Prop
  | .nil => True
  | .consPlain id _ kind rest =>
      id < 2 ^ 29 ∧ (kindPlainTag kind).isSome ∧ wfKind kind ∧
        id ∉ fieldIds rest ∧ wfTF rest
  | .consBare kind rest =>
      bareKindOk kind ∧ wfKind kind ∧ kindFid kind ∉ fieldIds rest ∧ wfTF rest
termination_by fs => (2 * sizeOf fs, 1, 0)
end

mutual
/-- Static-layout decode image of a value. -/
def canonSValue : FieldKind → Value → Value
  | .sub _ fs _, .sub fvs => .sub (canonSFields fs fvs)
  | .arr _ elem _ _, .arr items => .arr (canonSValues elem items)
  | .kmap _ kk vk _ _, .vmap pairs => .vmap (canonSPairs kk vk pairs)
  | _, v => v
termination_by k _ => (2 * sizeOf k, 0, 0)

/-- Static-layout decode image of array contents. -/
def canonSValues (elem : FieldKind) : Values → Values
  | .nil => .nil
  | .cons v rest => .cons (canonSValue elem v) (canonSValues elem rest)
termination_by items => (2 * sizeOf elem, 1, sizeOf items)

/-- Static-layout decode image of map contents. -/
def canonSPairs (kk vk : FieldKind) : Pairs → Pairs
  | .nil => .nil
  | .cons k v rest =>
      .cons (canonSValue kk k) (canonSValue vk v) (canonSPairs kk vk rest)
termination_by pairs => (2 * (sizeOf kk + sizeOf vk) + 1, 1, sizeOf pairs)

/-- Static-layout decode image of a field tuple. -/
def canonSFields : TopFields → FieldVals → FieldVals
  | .consPlain _ _ kind restF, .cons set v restV =>
      .cons set (if set then canonSValue kind v else defaultValue kind)
        (canonSFields restF restV)
  | .consBare kind restF, .cons _ v restV =>
      .cons true (canonSValue kind v) (canonSFields restF restV)
  | _, _ => .nil
termination_by fs _ => (2 * sizeOf fs, 0, 0)
end

mutual
/-- TLV decode image of a value. -/
def canonTValue : FieldKind → Value → Value
  | .str ms _, .vstr buf len => .vstr (buf.take len ++ List.replicate (ms - len) 0) len
  | .sub _ fs _, .sub fvs => .sub (canonTFields fs fvs)
  | .arr _ elem _ _, .arr items => .arr (canonTValues elem items)
  | .kmap _ kk vk _ _, .vmap pairs => .vmap (canonTPairs kk vk pairs)
  | _, v => v
termination_by k _ => (2 * sizeOf k, 0, 0)

/-- TLV decode image of array contents. -/
def canonTValues (elem : FieldKind) : Values → Values
  | .nil => .nil
  | .cons v rest => .cons (canonTValue elem v) (canonTValues elem rest)
termination_by items => (2 * sizeOf elem, 1, sizeOf items)

/-- TLV decode image of map contents. -/
def canonTPairs (kk vk : FieldKind) : Pairs → Pairs
  | .nil => .nil
  | .cons k v rest =>
      .cons (canonTValue kk k) (canonTValue vk v) (canonTPairs kk vk rest)
termination_by pairs => (2 * (sizeOf kk + sizeOf vk) + 1, 1, sizeOf pairs)

/-- TLV decode image of a field tuple. -/
def canonTFields : TopFields → FieldVals → FieldVals
  | .consPlain _ _ kind restF, .cons set v restV =>
      .cons set (if set then canonTValue kind v else defaultValue kind)
        (canonTFields restF restV)
  | .consBare kind restF, .cons _ v restV =>
      .cons true (canonTValue kind v) (canonTFields restF restV)
  | _, _ => .nil
termination_by fs _ => (2 * sizeOf fs, 0, 0)
end

/-! ## Deep validity

`Validate` does not look inside message-typed container elements (their
`Validate()` is the cross-field hook only), but the TLV decoder
re-validates strings (`String::set`) and map entries (`MapField::insert`)
at every nesting depth while decoding, and `insert` additionally rejects
duplicate keys.  Deep validity is the corresponding strengthening of
`Validate`: every string view passes its validators, every map entry
passes `insert`'s element validation, and every map's keys are pairwise
distinct under `key_equals`. -/

/-- The comparison token of a map key: scalar keys compare by value,
string keys by active view (`key_equals` via the kinds' `operator==`). -/
def keyTok : FieldKind → Value → List Nat
  | .scalar _ _, .scalar v => [v]
  | .str _ _, .vstr b l => b.take l
  | _, _ => []

/-- Pairwise distinctness of a map's keys under `key_equals`. -/
def noDupKeys (kk : FieldKind) : Pairs → Prop
  | .nil => True
  | .cons k _ rest => pairsKeyPresent kk rest k = false ∧ noDupKeys kk rest

mutual
/-- Deep validity of a value. -/
def deepOkValue : FieldKind → Value → Prop
  | .str _ check, .vstr b l => check (b.take l) = none
  | .sub _ fs _, .sub fvs => deepOkFields fs fvs
  | .arr _ elem _ _, .arr items => deepOkValues elem items
  | .kmap _ kk vk _ _, .vmap pairs =>
      noDupKeys kk pairs ∧ deepOkPairs kk vk pairs
  | _, _ => True
termination_by k _ => (2 * sizeOf k, 0, 0)

/-- Deep validity of array contents. -/
def deepOkValues (elem : FieldKind) : Values → Prop
  | .nil => True
  | .cons v rest => deepOkValue elem v ∧ deepOkValues elem rest
termination_by items => (2 * sizeOf elem, 1, sizeOf items)

/-- Deep validity of map contents, including `MapField::insert`'s key and
value validation. -/
def deepOkPairs (kk vk : FieldKind) : Pairs → Prop
  | .nil => True
  | .cons k v rest =>
      valueOwnValidate kk k = none ∧ valueOwnValidate vk v = none ∧
        deepOkValue kk k ∧ deepOkValue vk v ∧ deepOkPairs kk vk rest
termination_by pairs => (2 * (sizeOf kk + sizeOf vk) + 1, 1, sizeOf pairs)

/-- Deep validity of a field tuple (set fields only: unset fields are
neither serialized nor re-validated). -/
def deepOkFields : TopFields → FieldVals → Prop
  | .consPlain _ _ kind restF, .cons set v restV =>
      (set = true → deepOkValue kind v) ∧ deepOkFields restF restV
  | .consBare kind restF, .cons _ v restV =>
      deepOkValue kind v ∧ deepOkFields restF restV
  | _, _ => True
termination_by fs _ => (2 * sizeOf fs, 0, 0)
end

/-! ## Framing: header, integrity dispatch, `detail::Serialize` /
`detail::Deserialize` (src/include/crunch/core/crunch_header.hpp,
src/include/crunch/crunch_detail.hpp,
src/crunch/integrity/includes/crunch_integrity.hpp) -/

/-- The three integrity policies. -/
inductive IntegrityKind where
  | none
  | parity
  | crc16
deriving DecidableEq, Repr

/-- Mirrors `Integrity::size()`. -/
def integritySize : IntegrityKind → Nat
  | .none => 0
  | .parity => 1
  | .crc16 => 2

/-- Mirrors `Integrity::calculate`. -/
def integrityCalc : IntegrityKind → List Nat → List Nat
  | .none, _ => []
  | .parity, d => parityCalculate d
  | .crc16, d => crc16Calculate d

/-- The serdes policies: `StaticLayout<A>` (`A` ∈ {1, 4, 8} in the
library: Packed, Aligned4, Aligned8) and `TlvLayout`. -/
inductive SerdesKind where
  | staticLayout (A : Nat)
  | tlv
deriving DecidableEq, Repr

/-- Mirrors `Serdes::GetFormat()` (Format: Packed = 1, Aligned4 = 2,
Aligned8 = 3, TLV = 4; `StaticLayout::GetFormat` maps any alignment other
than 1 and 4 to Aligned8). -/
def serdesFormat : SerdesKind → Nat
  | .staticLayout A => if A = 1 then 1 else if A = 4 then 2 else 3
  | .tlv => 4

/-- Dispatches `Serdes::Serialize` (the bytes written from offset 6 on). -/
def serdesSerializeTail : SerdesKind → MsgSchema → FieldVals → List Nat
  | .staticLayout A, s, m => staticSerializeTail A s m
  | .tlv, s, m => tlvSerializeTail s m

/-- Dispatches `Serdes::Deserialize`. -/
def serdesDeserialize : SerdesKind → MsgSchema → List Nat →
    Except CrError FieldVals
  | .staticLayout A, s, input => staticDeserialize A s input
  | .tlv, s, input => tlvDeserialize s input

/-- Mirrors `WriteHeader<Message, Serdes>`: version byte (`CrunchVersion =
3`), format byte, 4-byte little-endian message id. -/
def writeHeader (sk : SerdesKind) (mid : Nat) : List Nat :=
  3 :: serdesFormat sk :: leBytes 4 mid

/-- Mirrors `GetHeader`: bounds check, then (version, format, message id). -/
def getHeader (input : List Nat) : Except CrError (Nat × Nat × Nat) :=
  if input.length < 6 then
    .error (CrError.deserializationErr "buffer too small for header")
  else .ok (input.getD 0 0, input.getD 1 0, readLE input 2 4)

/-- Mirrors `ValidateHeader<Message, Serdes>`: version, then format, then
message id; returns the offset after the header. -/
def validateHeader (sk : SerdesKind) (mid : Nat) (input : List Nat) :
    Except CrError Nat :=
  match getHeader input with
  | .error e => .error e
  | .ok (v, f, m) =>
      if v ≠ 3 then .error (CrError.deserializationErr "unsupported crunch version")
      else if f ≠ serdesFormat sk then .error CrError.invalidFormatErr
      else if m ≠ mid then .error CrError.invalidMessageIdErr
      else .ok 6

/-- Mirrors `detail::SerializeWithoutValidation`: write the header, let
the serdes policy write from offset 6 (`bytes_written` is the length of
`payload` below), then append `Integrity::calculate` over the used
payload.  The model returns the used prefix of the buffer (the C++
returns its length `bytes_written + ChecksumSize`). -/
def serializeWithoutValidation (ik : IntegrityKind) (sk : SerdesKind)
    (s : MsgSchema) (m : FieldVals) : List Nat :=
  let payload := writeHeader sk s.mid ++ serdesSerializeTail sk s m
  payload ++ integrityCalc ik payload

/-- Mirrors `detail::Serialize`: `detail::Validate` first, then the
unvalidated serialization. -/
def detailSerialize (ik : IntegrityKind) (sk : SerdesKind) (s : MsgSchema)
    (m : FieldVals) : Except CrError (List Nat) :=
  match msgValidate s m with
  | some e => .error e
  | none => .ok (serializeWithoutValidation ik sk s m)

/-- Mirrors `detail::Deserialize`: checksum-size bounds check; recompute
the checksum over the payload (everything except the trailer) and compare
with the trailer (`Error::integrity()` on mismatch; the `None` policy
compares nothing); validate the header; run the serdes deserializer on
the payload span; finally `detail::Validate` the decoded message. -/
def detailDeserialize (ik : IntegrityKind) (sk : SerdesKind) (s : MsgSchema)
    (input : List Nat) : Except CrError FieldVals :=
  if input.length < integritySize ik then
    .error (CrError.deserializationErr "buffer too small for checksum")
  else
    let payload := input.take (input.length - integritySize ik)
    if integrityCalc ik payload ≠ input.drop (input.length - integritySize ik) then
      .error CrError.integrityErr
    else
      match validateHeader sk s.mid payload with
      | .error e => .error e
      | .ok _ =>
          match serdesDeserialize sk s payload with
          | .error e => .error e
          | .ok fvs =>
              match msgValidate s fvs with
              | some e => .error e
              | none => .ok fvs

/-! ## Decoder (src/include/crunch/crunch_detail.hpp, `Decoder::Decode`)

The variadic message pack becomes a list of schemas; the
`std::variant<Messages...>` output becomes the index of the alternative
paired with its field values. -/

/-- The fold expansion inside `Decoder::Decode`: find the first message
type whose id matches the header's; deserialize into a fresh local
message; assign it to the output variant only on full success.  Returns
the (possibly unchanged) variant and the result. -/
def decoderScan (ik : IntegrityKind) (sk : SerdesKind) (hmid : Nat)
    (input : List Nat) (out : Nat × FieldVals) (idx : Nat) :
    List MsgSchema → (Nat × FieldVals) × Option CrError
  | [] => (out, some CrError.invalidMessageIdErr)
  | s :: rest =>
      if s.mid = hmid then
        match detailDeserialize ik sk s input with
        | .error e => (out, some e)
        | .ok fvs => ((idx, fvs), none)
      else decoderScan ik sk hmid input out (idx + 1) rest

/-- Mirrors `Decoder::Decode(buffer, out_message)`: parse the header
(returning its error on failure), then scan the message types for the
header's id (`Error::invalid_message_id()` when none matches). -/
def decoderDecode (ik : IntegrityKind) (sk : SerdesKind)
    (schemas : List MsgSchema) (input : List Nat) (out : Nat × FieldVals) :
    (Nat × FieldVals) × Option CrError :=
  match getHeader input with
  | .error e => (out, some e)
  | .ok (_, _, hmid) => decoderScan ik sk hmid input out 0 schemas

/-! ## Concrete schemas used by the scenario claims -/

/-- A validator that always succeeds, mirroring `validators::None`
(validator packs that cannot fail are abstracted to this). -/
def noCheckN : Nat → Option CrError := fun _ => none

/-- Mirrors `Positive::Check` on an `int32_t` carried as its 32-bit
pattern: `value >= 0` means the sign bit is clear. -/
def positiveCheck32 : Nat → Option CrError := fun v =>
  if v < 2 ^ 31 then none else some (CrError.validationErr 0 "must be >= 0")

/-- The `MyMessage` of the specification's concrete scenarios
(src/test/api/test_e2e.cpp): message id 0x12345678, field 1 a `Required
Int32<Positive>`, field 2 an `Optional Int16<None>`, no cross-field
logic. -/
def myMessageSchema : MsgSchema :=
  ⟨0x12345678,
    .consPlain 1 true (.scalar 4 positiveCheck32)
      (.consPlain 2 false (.scalar 2 noCheckN) .nil),
    fun _ => none⟩

/-- The scenario value `f1 = 42`, `f2 = -15`: both fields set, `f1` the
pattern 42, `f2` the 16-bit two's-complement pattern of -15 (0xFFF1). -/
def myMessageVals : FieldVals :=
  .cons true (.scalar 42) (.cons true (.scalar 0xFFF1) .nil)

/-- A message with a single `Required` 8-byte scalar field (e.g.
`Field<1, Required, Float64<None>>`), used to exhibit the Aligned8 size
mismatch. -/
def f64Schema : MsgSchema :=
  ⟨0xABC, .consPlain 1 true (.scalar 8 noCheckN) .nil, fun _ => none⟩

/-- A value for `f64Schema` with the field set to an arbitrary 8-byte
pattern. -/
def f64Vals : FieldVals := .cons true (.scalar 123456789) .nil

/-- Helper: a byte with the continuation bit clear terminates the varint. -/
theorem varintDecodeLoop_cons_stop (b : Nat) (rest : List Nat) (value shift : Nat)
    (hs : shift < 64) (hb : b &&& 0x80 = 0) :
    varintDecodeLoop (b :: rest) value shift =
      some (value ||| (b &&& 0x7F) <<< shift % 2 ^ 64, 1) := by
  simp [varintDecodeLoop, Nat.not_le.mpr hs, hb]

/-- Helper: a byte with the continuation bit set recurses. -/
theorem varintDecodeLoop_cons_go (b : Nat) (rest : List Nat) (value shift : Nat)
    (hs : shift < 64) (hb : b &&& 0x80 ≠ 0) :
    varintDecodeLoop (b :: rest) value shift =
      match varintDecodeLoop rest (value ||| (b &&& 0x7F) <<< shift % 2 ^ 64) (shift + 7) with
      | some (v, n) => some (v, n + 1)
      | none => none := by
  rw [varintDecodeLoop]
  simp only [Nat.not_le.mpr hs, if_false]
  have : (b &&& 0x80 == 0) = false := by
    simp [hb]
  simp [this]

/-- Helper: successful varint decodes consume at least one byte. -/
theorem varintDecodeLoop_pos (l : List Nat) (value shift pv pn : Nat)
    (h : varintDecodeLoop l value shift = some (pv, pn)) : 1 ≤ pn := by
  cases l with
  | nil => simp [varintDecodeLoop] at h
  | cons b rest =>
    rw [varintDecodeLoop] at h
    split at h
    · simp at h
    · split at h
      · simp only [Option.some.injEq, Prod.mk.injEq] at h
        omega
      · simp only [] at h
        split at h
        · simp only [Option.some.injEq, Prod.mk.injEq] at h
          omega
        · simp at h

/-- Helper: `getD` after `drop`. -/
theorem getD_drop_eq (l : List Nat) (n i : Nat) :
    (l.drop n).getD i 0 = l.getD (n + i) 0 := by
  simp [List.getD_eq_getElem?_getD, List.getElem?_drop]

/-- Helper: the varint decode loop fails exactly when no byte with a clear
continuation bit occurs before the 64-bit shift budget runs out (the shift
is `7 * k` after `k` accumulated bytes, and `64 ≤ 7 * k` first holds at
`k = 10`). -/
theorem varintDecodeLoop_none_iff (l : List Nat) (value k : Nat) :
    varintDecodeLoop l value (7 * k) = none ↔
      ∀ i, i + k < 10 → i < l.length → l.getD i 0 &&& 0x80 ≠ 0 := by
  induction l generalizing value k with
  | nil =>
    constructor
    · intro _ i _ hi
      simp at hi
    · intro _
      simp [varintDecodeLoop]
  | cons b rest ih =>
    rw [varintDecodeLoop]
    by_cases hk : 64 ≤ 7 * k
    · simp only [hk, if_true]
      constructor
      · intro _ i hik _
        omega
      · intro _
        trivial
    · simp only [hk, if_false]
      by_cases hb : b &&& 0x80 = 0
      · have hb' : (b &&& 0x80 == 0) = true := by simpa using hb
        simp only [hb', if_true]
        constructor
        · intro h
          simp at h
        · intro h
          exact absurd hb (h 0 (by omega) (by simp))
      · have hb' : (b &&& 0x80 == 0) = false := by simpa using hb
        simp only [hb', if_false]
        have h7 : 7 * k + 7 = 7 * (k + 1) := by ring
        rw [h7]
        have hrec := ih (value ||| (b &&& 0x7F) <<< (7 * k) % 2 ^ 64) (k + 1)
        constructor
        · intro h i hik hil
          have hnone : varintDecodeLoop rest
              (value ||| (b &&& 0x7F) <<< (7 * k) % 2 ^ 64) (7 * (k + 1)) = none := by
            by_contra hne
            obtain ⟨⟨qv, qn⟩, hq⟩ := Option.ne_none_iff_exists'.mp hne
            rw [hq] at h
            simp at h
          have := hrec.mp hnone
          match i with
          | 0 => simpa using hb
          | j + 1 =>
            have := this j (by omega) (by simpa using hil)
            simpa using this
        · intro h
          have : varintDecodeLoop rest
              (value ||| (b &&& 0x7F) <<< (7 * k) % 2 ^ 64) (7 * (k + 1)) = none := by
            apply hrec.mpr
            intro j hjk hjl
            have := h (j + 1) (by omega) (by simp; omega)
            simpa using this
          rw [this]
          simp

/-- C4 counterexample: the input `0x80 ×9, 0x02` is a terminating 10-byte
varint whose mathematically encoded value is `2 * 128^9 = 2^64`, which does
not fit in 64 bits; the claim says every such input is rejected, yet
`Varint::decode` accepts it, silently discarding the bit above bit 63 and
returning the value 0 with 10 bytes consumed. -/
theorem c4_counterexample :
    varintDecode [0x80, 0x80, 0x80, 0x80, 0x80, 0x80, 0x80, 0x80, 0x80, 0x02] 0 =
        some (0, 10) ∧
      (0x02 &&& 0x7F) * 128 ^ 9 = 2 ^ 64 := by
  constructor
  · decide
  · decide

/-- Claim C4 (amended): `Varint::decode` fails exactly when none of the
first 10 bytes of the remaining input has its continuation bit clear —
that is, when (a) the continuation bit is still set at byte 10 or (b) the
input is exhausted before a terminating byte.  A varint that terminates
within 10 bytes is always accepted; bits at positions 64 and above are
silently discarded, so inputs encoding values outside 64 bits are not all
rejected. -/
theorem c4_decode_fails_iff (input : List Nat) (off : Nat) :
    varintDecode input off = none ↔
      ∀ i, i < 10 → off + i < input.length → input.getD (off + i) 0 &&& 0x80 ≠ 0 := by
  unfold varintDecode
  have h0 : (0 : Nat) = 7 * 0 := rfl
  rw [h0, varintDecodeLoop_none_iff]
  constructor
  · intro h i hi hoff
    have := h i (by omega) (by simp; omega)
    rwa [getD_drop_eq] at this
  · intro h i hik hil
    rw [getD_drop_eq]
    have hoff : off + i < input.length := by
      simp at hil
      omega
    exact h i (by omega) hoff

/-- C4 witness: a truncated varint (single continuation byte) fails. -/
theorem c4_witness : varintDecode [0x80] 0 = none :=
  (c4_decode_fails_iff [0x80] 0).mpr (by decide)

/-- Claim C8: the `NullTerminated` validator succeeds precisely when the
string is nonempty and its last byte is zero, and its result is a function
of the final byte alone (embedded nulls earlier in the string are neither
detected nor do they affect the result). -/
theorem c8_nullTerminated (s : List Nat) (fieldId : Nat) :
    (nullTerminatedCheck s fieldId = none ↔ s.getLast? = some 0) ∧
      nullTerminatedCheck s fieldId =
        (if s.getLast? = some 0 then none
         else some (CrError.validationErr fieldId "must count null terminator")) := by
  have key : nullTerminatedCheck s fieldId =
      (if s.getLast? = some 0 then none
       else some (CrError.validationErr fieldId "must count null terminator")) := by
    rcases List.eq_nil_or_concat s with rfl | ⟨xs, a, rfl⟩
    · simp [nullTerminatedCheck]
    · have h1 : (xs ++ [a]).getLast? = some a := by
        simp [List.getLast?_concat]
      have h2 : (xs ++ [a]).getLastD 0 = a := by
        simp [List.getLastD_concat]
      have h3 : (xs ++ [a]).isEmpty = false := by
        simp
      by_cases ha : a = 0
      · simp [nullTerminatedCheck, h1, h2, h3, ha]
      · simp [nullTerminatedCheck, h1, h2, h3, ha]
  refine ⟨?_, key⟩
  rw [key]
  by_cases h : s.getLast? = some 0
  · simp [h]
  · simp [h]

/-- Claim C9: `CRC16::calculate` over the ASCII bytes of "123456789"
(49..57) yields the two bytes 0x29 0xB1, and for every input the 2-byte
trailer stores the 16-bit register high byte first. -/
theorem c9_crc16_check :
    crc16Calculate [49, 50, 51, 52, 53, 54, 55, 56, 57] = [0x29, 0xB1] ∧
      ∀ data : List Nat,
        crc16Calculate data = [crc16 data >>> 8 &&& 0xFF, crc16 data &&& 0xFF] :=
  ⟨by decide, fun _ => rfl⟩

/-- C7 counterexample: a `MapField` with `MaxSize = 1` and field id 7 whose
single slot holds key 5: inserting key 5 again (key and value passing
their validators) returns `CapacityExceeded`, not the `Validation`
(duplicate key) error the claim requires for every state containing the
key. -/
theorem c7_counterexample :
    (@mapInsert Nat Nat 1 7 (fun _ => none) (fun _ => none)
        (fun a b => a == b) ⟨[(5, 1)]⟩ 5 2).2 =
        some (CrError.capacityErr 7 "map capacity exceeded") ∧
      (@mapInsert Nat Nat 1 7 (fun _ => none) (fun _ => none)
          (fun a b => a == b) ⟨[(5, 1)]⟩ 5 2).2 ≠
        some (CrError.validationErr 7 "Duplicate key in map") := by
  constructor
  · decide
  · decide

/-- Claim C7 (amended): when key and value pass their validators,
`MapField::insert` of a key already present returns the duplicate-key
`Validation` error carrying the map's field id and leaves the map
unchanged — provided the map is not yet full; when `current_len_ >=
MaxSize` the `CapacityExceeded` error is returned instead (the capacity
check precedes the duplicate check), and `CapacityExceeded` is returned
exactly for insertions at or beyond `MaxSize`. -/
theorem c7_insert_spec (K V : Type) (m fid : Nat)
    (checkK : K → Option CrError) (checkV : V → Option CrError)
    (keyEq : K → K → Bool) :
    (∀ (s : MapState K V m) (k : K) (v : V), checkK k = none → checkV v = none →
        mapHasKey keyEq s k = true → s.items.length < m →
        mapInsert fid checkK checkV keyEq s k v =
          (s, some (CrError.validationErr fid "Duplicate key in map"))) ∧
      (∀ (s : MapState K V m) (k : K) (v : V), checkK k = none → checkV v = none →
        mapHasKey keyEq s k = true →
        (mapInsert fid checkK checkV keyEq s k v).1 = s) ∧
      (∀ (s : MapState K V m) (k : K) (v : V), checkK k = none → checkV v = none →
        ((mapInsert fid checkK checkV keyEq s k v).2 =
            some (CrError.capacityErr fid "map capacity exceeded") ↔
          m ≤ s.items.length)) := by
  refine ⟨?_, ?_, ?_⟩
  · intro s k v hk hv hdup hlen
    simp [mapInsert, hk, hv, hdup, Nat.not_le.mpr hlen]
  · intro s k v hk hv hdup
    by_cases hlen : m ≤ s.items.length
    · simp [mapInsert, hk, hv, hlen]
    · simp [mapInsert, hk, hv, hlen, hdup]
  · intro s k v hk hv
    by_cases hlen : m ≤ s.items.length
    · simp [mapInsert, hk, hv, hlen]
    · by_cases hdup : mapHasKey keyEq s k
      · simp [mapInsert, hk, hv, hlen, hdup, CrError.validationErr, CrError.capacityErr]
      · simp [mapInsert, hk, hv, hlen, hdup]

/-- C7 witness: the amended theorem applied at a concrete two-slot map
holding key 5, inserting key 5 again. -/
theorem c7_witness :
    @mapInsert Nat Nat 2 7 (fun _ => none) (fun _ => none)
        (fun a b => a == b) ⟨[(5, 1)]⟩ 5 2 =
      (⟨[(5, 1)]⟩, some (CrError.validationErr 7 "Duplicate key in map")) :=
  (c7_insert_spec Nat Nat 2 7 (fun _ => none) (fun _ => none)
        (fun a b => a == b)).1
    ⟨[(5, 1)]⟩ 5 2 rfl rfl (by decide) (by decide)

/-- C5 counterexample: `StaticLayout::deserialize_string` (Packed layout,
`String<4>` target, set flag true) on a wire slot with length 1 followed by
the bytes 97, 66, 5, 7 succeeds and leaves current length 1 with buffer
byte 66 at index 1 — violating the claimed invariant that every buffer
byte at an index at or beyond the current length is zero. -/
theorem c5_counterexample :
    @staticDeserString 4 1 true [1, 0, 0, 0, 97, 66, 5, 7] 0 =
        Except.ok ((⟨[97, 66, 5, 7], 1⟩ : StringState 4), 8) ∧
      ¬ stringInv (⟨[97, 66, 5, 7], 1⟩ : StringState 4) := by
  constructor
  · rfl
  · intro h
    exact absurd h.2.2 (by decide)

/-- Helper: `readBytes` always returns the requested number of bytes. -/
theorem readBytes_length (input : List Nat) (off n : Nat) :
    (readBytes input off n).length = n := by
  induction n generalizing off with
  | zero => rfl
  | succ k ih => simp [readBytes, ih]

/-- Helper: dropping a prefix of a raw read shifts the read. -/
theorem readBytes_drop (input : List Nat) (off n k : Nat) (hk : k ≤ n) :
    (readBytes input off n).drop k = readBytes input (off + k) (n - k) := by
  induction k generalizing off n with
  | zero => simp
  | succ j ih =>
    cases n with
    | zero => omega
    | succ n' =>
      rw [readBytes]
      simp only [List.drop_succ_cons]
      rw [ih (off + 1) n' (by omega)]
      rw [show off + 1 + j = off + (j + 1) from by omega,
        show n' - j = n' + 1 - (j + 1) from by omega]

/-- Helper: a raw read over a zero region is a zero list. -/
theorem readBytes_eq_replicate (input : List Nat) (off n : Nat)
    (h : ∀ i, i < n → input.getD (off + i) 0 = 0) :
    readBytes input off n = List.replicate n 0 := by
  induction n generalizing off with
  | zero => rfl
  | succ k ih =>
    rw [readBytes, List.replicate]
    have h0 : input.getD off 0 = 0 := by simpa using h 0 (by omega)
    rw [h0]
    congr 1
    apply ih
    intro i hi
    have := h (i + 1) (by omega)
    rwa [show off + (i + 1) = off + 1 + i by omega] at this

/-- Claim C5 (amended): every `String` operation keeps the current length
within `MaxSize` and the backing buffer at its declared size; default
construction, `set`, and `clear` (and hence the TLV deserialization path,
which stores through `String::set`) also keep every buffer byte at or
beyond the current length zero; `StaticLayout::deserialize_string`,
however, copies the full `MaxSize` wire bytes into the buffer, so it
restores the zero-suffix property only when the wire bytes beyond the
decoded length are themselves zero (as in buffers produced by
`StaticLayout::serialize_string` from an invariant-satisfying string) —
on arbitrary wire input only the length bound is guaranteed. -/
theorem c5_string_invariant (m : Nat) :
    stringInv (stringInit m) ∧
      stringInv (stringClear m) ∧
      (∀ (check : List Nat → Option CrError) (s : StringState m) (sv : List Nat),
        stringInv s → stringInv (stringSet check s sv).1) ∧
      (∀ (alignment : Nat) (set : Bool) (input : List Nat) (off : Nat)
          (s' : StringState m) (off' : Nat),
        @staticDeserString m alignment set input off = Except.ok (s', off') →
          s'.currentLen ≤ m ∧ s'.buffer.length = m ∧
            ((∀ i, s'.currentLen ≤ i → i < m → input.getD (off' - m + i) 0 = 0) →
              stringInv s')) := by
  refine ⟨⟨Nat.zero_le m, by simp [stringInit], by simp [stringInit]⟩,
    ⟨Nat.zero_le m, by simp [stringClear], by simp [stringClear]⟩, ?_, ?_⟩
  · intro check s sv hs
    rw [stringSet]
    by_cases hcap : m < sv.length
    · simpa [hcap] using hs
    · simp only [hcap, if_false]
      cases hchk : check sv with
      | some e => simpa using hs
      | none =>
        refine ⟨by simp; omega, by simp; omega, ?_⟩
        simp only
        rw [List.drop_left]
  · intro alignment set input off s' off' h
    cases set with
    | false =>
      rw [staticDeserString] at h
      simp only [Bool.false_eq_true, if_false, Except.ok.injEq, Prod.mk.injEq] at h
      obtain ⟨hs', _⟩ := h
      subst hs'
      exact ⟨Nat.zero_le m, by simp [stringClear],
        fun _ => ⟨Nat.zero_le m, by simp [stringClear], by simp [stringClear]⟩⟩
    | true =>
      rw [staticDeserString] at h
      simp only [if_true] at h
      by_cases hlen : m < readLE input (off + calcPadding 4 alignment off) 4
      · simp [hlen] at h
      · simp only [hlen, if_false, Except.ok.injEq, Prod.mk.injEq] at h
        obtain ⟨hs', hoff'⟩ := h
        subst hs'
        subst hoff'
        refine ⟨by simpa using Nat.not_lt.mp hlen, readBytes_length _ _ _, ?_⟩
        intro hzero
        simp only at hzero
        refine ⟨by simpa using Nat.not_lt.mp hlen, readBytes_length _ _ _, ?_⟩
        simp only
        rw [readBytes_drop _ _ _ _ (Nat.not_lt.mp hlen)]
        apply readBytes_eq_replicate
        intro i hi
        have := hzero (readLE input (off + calcPadding 4 alignment off) 4 + i)
          (by omega) (by omega)
        rw [show off + calcPadding 4 alignment off + 4 + m - m +
            (readLE input (off + calcPadding 4 alignment off) 4 + i) =
            off + calcPadding 4 alignment off + 4 +
              readLE input (off + calcPadding 4 alignment off) 4 + i by omega] at this
        exact this

/-- C5 witness: the amended invariant theorem applied to a concrete
`String<4>` set to the two bytes 97, 98. -/
theorem c5_witness :
    stringInv ((stringSet (fun _ => none) (stringInit 4) [97, 98]).1) :=
  (c5_string_invariant 4).2.2.1 (fun _ => none) (stringInit 4) [97, 98]
    ⟨by decide, by decide, by decide⟩

/-- Claim C2: the code diverges from the claim.  `StaticLayout<4>` writes a
redundant 4-byte little-endian message id at payload offsets 8..11 (the id
is already in the header), so `MyMessage { f1 = 42, f2 = -15 }` encodes to
24 bytes, not 20, and the byte at offset 9 is 0x56 (the second byte of
0x12345678), not a zero padding byte.  The layout is: header 0..5, padding
6..7, message id 8..11, f1 is-set 12, padding 13..15, f1 value 16..19,
f2 is-set 20, padding 21, f2 value 22..23.  (`staticSerializeTail` holds
the bytes from offset 6 on, so offset 9 is index 3 and offset 17 index
11.)  The repository's own test (src/test/api/test_e2e.cpp, "Aligned
Layout Check") asserts the claimed 20-byte layout and is contradicted by
the code. -/
theorem c2_aligned4_layout :
    staticSerializeEnd 4 myMessageSchema myMessageVals = 24 ∧
      staticSize 4 myMessageSchema = 24 ∧
      (staticSerializeTail 4 myMessageSchema myMessageVals).getD (6 - 6) 0 = 0 ∧
      (staticSerializeTail 4 myMessageSchema myMessageVals).getD (9 - 6) 0 = 0x56 ∧
      (staticSerializeTail 4 myMessageSchema myMessageVals).getD (17 - 6) 0 = 0 := by
  refine ⟨?_, ?_, ?_, ?_, ?_⟩ <;>
    simp [staticSerializeEnd, staticSerializeTail, staticSize, calcPayloadSize,
      calcFieldsEnd, serFields, serValue, payloadStart, alignUp, calcPadding,
      leBytes, myMessageSchema, myMessageVals, calcValueEnd]

/-- Claim C3: the code diverges from the claim at `Alignment = 8`.
`Size()` computes field offsets relative to 0, but `Serialize` aligns at
absolute offsets; fields start at absolute offset 12 (`PayloadStartOffset
8` plus the 4-byte message id), and `12 % 8 = 4`, so 8-byte slots pad
differently in the two computations.  For a message with a single
`Required` 8-byte scalar field, `Serialize` returns 24 bytes while
`Size()` is 28.  For `Alignment` 1 and 4 the absolute base 12 is divisible
by every slot alignment, so no such divergence arises there. -/
theorem c3_aligned8_size_mismatch :
    staticSerializeEnd 8 f64Schema f64Vals = 24 ∧
      staticSize 8 f64Schema = 28 ∧
      staticSerializeEnd 8 f64Schema f64Vals ≠ staticSize 8 f64Schema := by
  refine ⟨?_, ?_, ?_⟩ <;>
    simp [staticSerializeEnd, staticSerializeTail, staticSize, calcPayloadSize,
      calcFieldsEnd, serFields, serValue, payloadStart, alignUp, calcPadding,
      leBytes, f64Schema, f64Vals, calcValueEnd]

/-- Helper for C10: the message-type scan never assigns the output
variant when it reports an error. -/
theorem decoderScan_untouched (ik : IntegrityKind) (sk : SerdesKind)
    (hmid : Nat) (input : List Nat) (out : Nat × FieldVals) (e : CrError) :
    ∀ (l : List MsgSchema) (idx : Nat),
      (decoderScan ik sk hmid input out idx l).2 = some e →
      (decoderScan ik sk hmid input out idx l).1 = out := by
  intro l
  induction l with
  | nil => intro idx h; rfl
  | cons s rest ih =>
      intro idx h
      simp only [decoderScan] at h ⊢
      by_cases hm : s.mid = hmid
      · simp only [if_pos hm] at h ⊢
        cases hd : detailDeserialize ik sk s input with
        | error e' => simp [hd]
        | ok fvs => rw [hd] at h; simp at h
      · simp only [if_neg hm] at h ⊢
        exact ih (idx + 1) h

/-- **C10**: whenever `Decoder::Decode` returns an error of any kind
(header parse failure, no matching message id, or a failure anywhere in
the integrity/header/serdes/validation pipeline), the output variant is
exactly what it was before the call; the decoded message is stored only
when the whole pipeline succeeds. -/
theorem c10_decode_error_leaves_out (ik : IntegrityKind) (sk : SerdesKind)
    (schemas : List MsgSchema) (input : List Nat) (out : Nat × FieldVals)
    (e : CrError)
    (h : (decoderDecode ik sk schemas input out).2 = some e) :
    (decoderDecode ik sk schemas input out).1 = out := by
  unfold decoderDecode at h ⊢
  cases hh : getHeader input with
  | error e' => rfl
  | ok t =>
      rw [hh] at h
      obtain ⟨a, b, hmid⟩ := t
      exact decoderScan_untouched ik sk hmid input out e schemas 0 h

/-- Witness for C10 at a concrete erroring call: decoding an empty buffer
fails with the header bounds error and leaves the variant unchanged. -/
theorem c10_witness :
    (decoderDecode IntegrityKind.none (SerdesKind.staticLayout 1) [] []
          (0, FieldVals.nil)).2 =
        some (CrError.deserializationErr "buffer too small for header") ∧
      (decoderDecode IntegrityKind.none (SerdesKind.staticLayout 1) [] []
          (0, FieldVals.nil)).1 = (0, FieldVals.nil) :=
  ⟨rfl, c10_decode_error_leaves_out _ _ _ _ _
    (CrError.deserializationErr "buffer too small for header") rfl⟩

/-! ### C6 helper lemmas: CRC16 and Parity detect single-bit flips -/

theorem xorModTwoPow (a b n : Nat) : (a ^^^ b) % 2 ^ n = a % 2 ^ n ^^^ b % 2 ^ n := by
  apply Nat.eq_of_testBit_eq
  intro i
  simp [Nat.testBit_mod_two_pow, Nat.testBit_xor]
  by_cases h : i < n <;> simp [h]

theorem xorFlipNe (x k : Nat) : x ^^^ 2 ^ k ≠ x := by
  intro h
  have h2 : x ^^^ 2 ^ k ^^^ x = 0 := by rw [h]; simp
  rw [Nat.xor_comm x (2 ^ k)] at h2
  rw [Nat.xor_cancel_right] at h2
  exact absurd h2 (by positivity)

theorem xorLeftCancel (c x y : Nat) (h : c ^^^ x = c ^^^ y) : x = y := by
  have := congrArg (fun t => c ^^^ t) h
  simpa [← Nat.xor_assoc] using this

theorem highBitIff (c : Nat) (h : c < 65536) : (c &&& 0x8000 ≠ 0) ↔ 32768 ≤ c := by
  have h15 : (0x8000 : Nat) = 2 ^ 15 := by norm_num
  rw [h15, Nat.and_two_pow, Nat.testBit_to_div_mod]
  by_cases hd : c / 2 ^ 15 % 2 = 1 <;> simp [hd] <;> omega

theorem xorOddParity (x : Nat) : (x ^^^ 0x1021) % 2 = (x % 2 + 1) % 2 := by
  have h1 : (x ^^^ 0x1021).testBit 0 = ((x.testBit 0) != ((0x1021 : Nat).testBit 0)) :=
    Nat.testBit_xor x 0x1021 0
  have h2 : (0x1021 : Nat).testBit 0 = true := by decide
  rw [h2] at h1
  have h3 : ∀ y : Nat, y.testBit 0 = decide (y % 2 = 1) := by
    intro y; rw [Nat.testBit_to_div_mod]; norm_num
  rw [h3, h3] at h1
  by_cases hx : x % 2 = 1
  · have h5 : decide ((x ^^^ 0x1021) % 2 = 1) = false := by rw [h1]; simp [hx]
    have h4 : ¬((x ^^^ 0x1021) % 2 = 1) := by simpa using h5
    omega
  · have h5 : decide ((x ^^^ 0x1021) % 2 = 1) = true := by rw [h1]; simp [hx]
    have h4 : (x ^^^ 0x1021) % 2 = 1 := by simpa using h5
    omega

theorem crc16Shift_lt (c : Nat) : crc16Shift c < 65536 := by
  unfold crc16Shift
  split <;> exact Nat.mod_lt _ (by norm_num)

theorem crc16Shift_inj (c1 c2 : Nat) (h1 : c1 < 65536) (h2 : c2 < 65536)
    (hne : c1 ≠ c2) : crc16Shift c1 ≠ crc16Shift c2 := by
  have hs : ∀ c : Nat, c <<< 1 = 2 * c := by
    intro c; rw [Nat.shiftLeft_eq]; ring
  have hxm : ∀ c : Nat, (2 * c ^^^ 0x1021) % 65536 = 2 * c % 65536 ^^^ 0x1021 := by
    intro c
    have h16 : (65536 : Nat) = 2 ^ 16 := by norm_num
    rw [h16, xorModTwoPow]
    norm_num
  have hpar : ∀ c : Nat, (2 * c % 65536 ^^^ 0x1021) % 2 = 1 := by
    intro c
    have := xorOddParity (2 * c % 65536)
    omega
  unfold crc16Shift
  rw [hs c1, hs c2]
  split_ifs with ha hb hb
  · -- both high
    rw [highBitIff c1 h1] at ha
    rw [highBitIff c2 h2] at hb
    intro heq
    rw [hxm, hxm] at heq
    have hA := congrArg (fun t => t ^^^ 0x1021) heq
    simp only at hA
    rw [Nat.xor_cancel_right 0x1021 (2 * c1 % 65536),
      Nat.xor_cancel_right 0x1021 (2 * c2 % 65536)] at hA
    omega
  · -- c1 high, c2 low
    rw [highBitIff c1 h1] at ha
    rw [highBitIff c2 h2] at hb
    intro heq
    rw [hxm] at heq
    have hp := hpar c1
    rw [heq] at hp
    omega
  · -- c1 low, c2 high
    rw [highBitIff c1 h1] at ha
    rw [highBitIff c2 h2] at hb
    intro heq
    rw [hxm] at heq
    have hp := hpar c2
    rw [← heq] at hp
    omega
  · -- both low
    rw [highBitIff c1 h1] at ha
    rw [highBitIff c2 h2] at hb
    intro heq
    omega

theorem crc16IterLt (n : Nat) (hn : 1 ≤ n) (x : Nat) : Nat.iterate crc16Shift n x < 65536 := by
  match n, hn with
  | m + 1, _ =>
      rw [Function.iterate_succ_apply']
      exact crc16Shift_lt _

theorem crc16IterNe (n : Nat) : ∀ x1 x2 : Nat, x1 ≠ x2 → x1 < 65536 → x2 < 65536 →
    Nat.iterate crc16Shift n x1 ≠ Nat.iterate crc16Shift n x2 := by
  induction n with
  | zero => intro x1 x2 hne _ _; simpa using hne
  | succ k ih =>
      intro x1 x2 hne h1 h2
      rw [Function.iterate_succ_apply, Function.iterate_succ_apply]
      exact ih _ _ (crc16Shift_inj _ _ h1 h2 hne) (crc16Shift_lt _) (crc16Shift_lt _)

theorem crc16Byte_lt (c b : Nat) : crc16Byte c b < 65536 :=
  crc16IterLt 8 (by norm_num) _

theorem crc16Byte_ne_of_byte_ne (c : Nat) (hc : c < 65536) (b1 b2 : Nat)
    (hb1 : b1 < 256) (hb2 : b2 < 256) (hne : b1 ≠ b2) :
    crc16Byte c b1 ≠ crc16Byte c b2 := by
  unfold crc16Byte
  have h16 : (65536 : Nat) = 2 ^ 16 := by norm_num
  have hs : ∀ b : Nat, b <<< 8 = b * 256 := by
    intro b; rw [Nat.shiftLeft_eq]; try norm_num
  apply crc16IterNe
  · intro heq
    have := xorLeftCancel c _ _ heq
    rw [hs, hs] at this
    exact hne (by omega)
  · rw [h16]
    apply Nat.xor_lt_two_pow (by omega)
    rw [hs]; omega
  · rw [h16]
    apply Nat.xor_lt_two_pow (by omega)
    rw [hs]; omega

theorem crc16FoldLt (l : List Nat) : ∀ c : Nat, c < 65536 → List.foldl crc16Byte c l < 65536 := by
  induction l with
  | nil => intro c hc; simpa using hc
  | cons b rest ih =>
      intro c hc
      simp only [List.foldl_cons]
      exact ih _ (crc16Byte_lt _ _)

theorem crc16Byte_ne_of_c_ne (b : Nat) (hb : b < 256) (c1 c2 : Nat)
    (h1 : c1 < 65536) (h2 : c2 < 65536) (hne : c1 ≠ c2) :
    crc16Byte c1 b ≠ crc16Byte c2 b := by
  unfold crc16Byte
  have h16 : (65536 : Nat) = 2 ^ 16 := by norm_num
  have hs : b <<< 8 = b * 256 := by rw [Nat.shiftLeft_eq]; try norm_num
  apply crc16IterNe
  · intro heq
    have hA := congrArg (fun t => t ^^^ b <<< 8) heq
    simp only at hA
    rw [Nat.xor_cancel_right (b <<< 8) c1, Nat.xor_cancel_right (b <<< 8) c2] at hA
    exact hne hA
  · rw [h16]
    exact Nat.xor_lt_two_pow (by omega) (by rw [hs]; omega)
  · rw [h16]
    exact Nat.xor_lt_two_pow (by omega) (by rw [hs]; omega)

theorem crc16FoldNe (l : List Nat) : ∀ c1 c2 : Nat, (∀ b ∈ l, b < 256) →
    c1 ≠ c2 → c1 < 65536 → c2 < 65536 →
    List.foldl crc16Byte c1 l ≠ List.foldl crc16Byte c2 l := by
  induction l with
  | nil => intro c1 c2 _ hne _ _; simpa using hne
  | cons b rest ih =>
      intro c1 c2 hbytes hne h1 h2
      simp only [List.foldl_cons]
      exact ih _ _ (fun x hx => hbytes x (by simp [hx]))
        (crc16Byte_ne_of_c_ne b (hbytes b (by simp)) c1 c2 h1 h2 hne)
        (crc16Byte_lt _ _) (crc16Byte_lt _ _)

theorem crc16FoldFlip (k : Nat) (hk : k < 8) (data : List Nat) :
    ∀ (j c : Nat), c < 65536 → (∀ b ∈ data, b < 256) → j < data.length →
      List.foldl crc16Byte c (data.set j (data.getD j 0 ^^^ 2 ^ k)) ≠
        List.foldl crc16Byte c data := by
  induction data with
  | nil => intro j c _ _ hj; simp at hj
  | cons b rest ih =>
      intro j c hc hbytes hj
      match j with
      | 0 =>
          simp only [List.set_cons_zero, List.getD_cons_zero, List.foldl_cons]
          have hb : b < 256 := hbytes b (by simp)
          have hb' : b ^^^ 2 ^ k < 256 := by
            have : (256 : Nat) = 2 ^ 8 := by norm_num
            rw [this]
            exact Nat.xor_lt_two_pow (by omega) (by
              have : (2 : Nat) ^ k ≤ 2 ^ 7 := Nat.pow_le_pow_right (by norm_num) (by omega)
              omega)
          exact crc16FoldNe rest _ _ (fun x hx => hbytes x (by simp [hx]))
            (crc16Byte_ne_of_byte_ne c hc _ _ hb' hb (xorFlipNe b k))
            (crc16Byte_lt _ _) (crc16Byte_lt _ _)
      | j' + 1 =>
          simp only [List.set_cons_succ, List.getD_cons_succ, List.foldl_cons]
          exact ih j' (crc16Byte c b) (crc16Byte_lt _ _)
            (fun x hx => hbytes x (by simp [hx])) (by simp at hj; omega)

theorem crc16Lt (data : List Nat) : crc16 data < 65536 :=
  crc16FoldLt data 0xFFFF (by norm_num)

theorem crc16CalculateNe (d1 d2 : List Nat) (h : crc16 d1 ≠ crc16 d2) :
    crc16Calculate d1 ≠ crc16Calculate d2 := by
  unfold crc16Calculate
  intro he
  simp only [List.cons.injEq, and_true] at he
  obtain ⟨hhi, hlo⟩ := he
  have hm : ∀ x : Nat, x &&& 0xFF = x % 256 := by
    intro x
    have : (0xFF : Nat) = 2 ^ 8 - 1 := by norm_num
    rw [this, Nat.and_pow_two_sub_one_eq_mod]
    try norm_num
  have hd : ∀ x : Nat, x >>> 8 = x / 256 := by
    intro x
    rw [Nat.shiftRight_eq_div_pow]
    try norm_num
  rw [hm, hm, hd, hd] at *
  have h1 := crc16Lt d1
  have h2 := crc16Lt d2
  omega

theorem parityFoldInit (l : List Nat) : ∀ a m : Nat,
    List.foldl (· ^^^ ·) (a ^^^ m) l = List.foldl (· ^^^ ·) a l ^^^ m := by
  induction l with
  | nil => intro a m; simp
  | cons b rest ih =>
      intro a m
      simp only [List.foldl_cons]
      rw [show a ^^^ m ^^^ b = a ^^^ b ^^^ m by
        rw [Nat.xor_assoc, Nat.xor_assoc, Nat.xor_comm m b]]
      exact ih _ _

theorem parityFoldFlip (l : List Nat) : ∀ (j a m : Nat), j < l.length →
    List.foldl (· ^^^ ·) a (l.set j (l.getD j 0 ^^^ m)) =
      List.foldl (· ^^^ ·) a l ^^^ m := by
  induction l with
  | nil => intro j a m hj; simp at hj
  | cons b rest ih =>
      intro j a m hj
      match j with
      | 0 =>
          simp only [List.set_cons_zero, List.getD_cons_zero, List.foldl_cons]
          rw [show a ^^^ (b ^^^ m) = (a ^^^ b) ^^^ m by rw [Nat.xor_assoc]]
          exact parityFoldInit rest _ _
      | j' + 1 =>
          simp only [List.set_cons_succ, List.getD_cons_succ, List.foldl_cons]
          exact ih j' _ m (by simp at hj; omega)

/-- Helper for C6: a trailer mismatch short-circuits `detail::Deserialize`
with `Error::integrity()` before any header or payload processing. -/
theorem detailDeserialize_integrity_mismatch (ik : IntegrityKind)
    (sk : SerdesKind) (s : MsgSchema) (input : List Nat)
    (hlen : integritySize ik ≤ input.length)
    (hne : integrityCalc ik (input.take (input.length - integritySize ik)) ≠
      input.drop (input.length - integritySize ik)) :
    detailDeserialize ik sk s input = .error CrError.integrityErr := by
  unfold detailDeserialize
  rw [if_neg (Nat.not_lt.mpr hlen)]
  rw [if_pos hne]

/-- **C6**: for every valid message `m` encoded by `Serialize` under the
CRC16 or Parity integrity policy (any serdes policy), flipping any single
bit of any byte of the used prefix of the encoded buffer — header, serdes
payload, or trailer — makes `Deserialize` of the corrupted buffer return
the `Integrity` error. -/
theorem c6_single_bit_corruption (ik : IntegrityKind)
    (hik : ik = IntegrityKind.parity ∨ ik = IntegrityKind.crc16)
    (sk : SerdesKind) (s : MsgSchema) (m : FieldVals) (enc : List Nat)
    (henc : detailSerialize ik sk s m = .ok enc)
    (hbytes : ∀ b ∈ enc, b < 256)
    (j k : Nat) (hj : j < enc.length) (hk : k < 8) :
    detailDeserialize ik sk s (enc.set j (enc.getD j 0 ^^^ 2 ^ k)) =
      .error CrError.integrityErr := by
  have hser : serializeWithoutValidation ik sk s m = enc := by
    unfold detailSerialize at henc
    cases hv : msgValidate s m with
    | some e =>
        simp only [hv] at henc
        exact Except.noConfusion henc
    | none =>
        simp only [hv, Except.ok.injEq] at henc
        exact henc
  set payload := writeHeader sk s.mid ++ serdesSerializeTail sk s m with hpayload
  set cks := integrityCalc ik payload with hcks
  have henc2 : enc = payload ++ cks := by rw [← hser]; rfl
  have hzcks : cks.length = integritySize ik := by
    rcases hik with h | h <;> subst h <;>
      simp [hcks, integrityCalc, integritySize, parityCalculate, crc16Calculate]
  have hencl : enc.length = payload.length + cks.length := by rw [henc2]; simp
  set input := enc.set j (enc.getD j 0 ^^^ 2 ^ k) with hinput
  have hilen : input.length = enc.length := by rw [hinput]; simp
  apply detailDeserialize_integrity_mismatch
  · omega
  · have hPZ : input.length - integritySize ik = payload.length := by omega
    rw [hPZ]
    by_cases hcase : j < payload.length
    · -- the flipped bit is in the header or serdes payload
      have hgd : enc.getD j 0 = payload.getD j 0 := by
        rw [henc2]; exact List.getD_append _ _ _ _ hcase
      have hset : input = payload.set j (payload.getD j 0 ^^^ 2 ^ k) ++ cks := by
        rw [hinput, hgd, henc2]
        exact List.set_append_left _ _ hcase
      rw [hset, List.take_left' (by simp), List.drop_left' (by simp)]
      rw [hcks]
      rcases hik with h | h <;> subst h
      · simp only [integrityCalc, parityCalculate]
        intro hEq
        simp only [List.cons.injEq, and_true] at hEq
        rw [parityFoldFlip payload j 0 (2 ^ k) hcase] at hEq
        exact xorFlipNe _ _ hEq
      · simp only [integrityCalc]
        apply crc16CalculateNe
        unfold crc16
        exact crc16FoldFlip k hk payload j 0xFFFF (by norm_num)
          (fun b hb => hbytes b (by rw [henc2]; exact List.mem_append_left _ hb))
          hcase
    · -- the flipped bit is in the checksum trailer
      push_neg at hcase
      have hjz : j - payload.length < cks.length := by omega
      have hgd : enc.getD j 0 = cks.getD (j - payload.length) 0 := by
        rw [henc2]; exact List.getD_append_right _ _ _ _ hcase
      have hset : input = payload ++
          cks.set (j - payload.length)
            (cks.getD (j - payload.length) 0 ^^^ 2 ^ k) := by
        rw [hinput, hgd, henc2]
        exact List.set_append_right _ _ hcase
      rw [hset, List.take_left' rfl, List.drop_left' rfl]
      rw [← hcks]
      intro hEq
      have hgd2 := congrArg (fun l => l.getD (j - payload.length) 0) hEq
      simp only [List.getD_eq_getElem?_getD] at hgd2
      rw [List.getElem?_set_self hjz] at hgd2
      simp only [Option.getD_some] at hgd2
      exact xorFlipNe _ _ hgd2.symm

/-- Witness for C6: the concrete `MyMessage` scenario encoded Packed with
the Parity policy; flipping bit 0 of byte 0 makes decode report the
integrity error. -/
theorem c6_witness :
    detailSerialize IntegrityKind.parity (SerdesKind.staticLayout 1)
        myMessageSchema myMessageVals =
      Except.ok [3, 1, 120, 86, 52, 18, 120, 86, 52, 18, 1,
        42, 0, 0, 0, 1, 241, 255, 38] ∧
    (∀ b ∈ [3, 1, 120, 86, 52, 18, 120, 86, 52, 18, 1,
        42, 0, 0, 0, 1, 241, 255, 38], b < 256) ∧
    0 < List.length [3, 1, 120, 86, 52, 18, 120, 86, 52, 18, 1,
        42, 0, 0, 0, 1, 241, 255, 38] ∧
    detailDeserialize IntegrityKind.parity (SerdesKind.staticLayout 1)
        myMessageSchema
        (List.set [3, 1, 120, 86, 52, 18, 120, 86, 52, 18, 1,
            42, 0, 0, 0, 1, 241, 255, 38] 0
          (List.getD [3, 1, 120, 86, 52, 18, 120, 86, 52, 18, 1,
            42, 0, 0, 0, 1, 241, 255, 38] 0 0 ^^^ 2 ^ 0)) =
      .error CrError.integrityErr := by
  have hser : detailSerialize IntegrityKind.parity (SerdesKind.staticLayout 1)
      myMessageSchema myMessageVals =
      Except.ok [3, 1, 120, 86, 52, 18, 120, 86, 52, 18, 1,
        42, 0, 0, 0, 1, 241, 255, 38] := by
    simp [detailSerialize, msgValidate, fieldsValidate, valueOwnValidate,
      myMessageSchema, myMessageVals, positiveCheck32, noCheckN,
      serializeWithoutValidation, writeHeader, serdesFormat,
      serdesSerializeTail, staticSerializeTail, payloadStart, alignUp,
      calcPadding, leBytes, serFields, serValue, calcValueEnd, calcFieldsEnd,
      integrityCalc, parityCalculate]
  refine ⟨hser, by decide, by decide, ?_⟩
  exact c6_single_bit_corruption IntegrityKind.parity (Or.inl rfl)
    (SerdesKind.staticLayout 1) myMessageSchema myMessageVals _ hser
    (by decide) 0 0 (by decide) (by decide)

/-! ### Big-step equations for the TLV decoder

The decoder definitions bind their `varintDecode` results with equation
hypotheses (used by their termination proofs), which produces dependent
matches that `simp` cannot rewrite directly.  The lemmas below restate
each such case as a conditional equation. -/

/-- The loop's exit when the offset has reached the end of the input. -/
theorem tlvMsgLoop_done (fs : TopFields) (fuel : Nat) (input : List Nat)
    (offset : Nat) (cur : FieldVals) (hf : fuel ≠ 0)
    (ho : ¬ offset < input.length) :
    tlvMsgLoop fs fuel input offset cur = .ok cur := by
  match fuel, hf with
  | fuel' + 1, _ =>
      rw [tlvMsgLoop]
      rw [dif_neg ho]

/-- `deserialize_nested_message_field` on a successful length read. -/
theorem tlvDeserPlainField_sub_eq (input : List Nat) (mid : Nat)
    (fs : TopFields) (hook : FieldVals → Option CrError) (set : Bool)
    (v : Value) (off len n : Nat)
    (h1 : varintDecode input off = some (len, n))
    (hb : ¬ input.length < off + n + len) :
    tlvDeserPlainField input 1 (.sub mid fs hook) set v off =
      match tlvMsgLoop fs (((input.drop (off + n)).take len).length + 1)
          ((input.drop (off + n)).take len) 0 (defaultFields fs) with
      | .error e => .error e
      | .ok fvs => .ok (true, .sub fvs, off + n + len) := by
  rw [tlvDeserPlainField]
  simp only [bne_self_eq_false, Bool.false_eq_true, if_false]
  split
  · next heq => rw [h1] at heq; cases heq
  · next len' n' heq =>
      rw [h1] at heq
      injection heq with heq'
      injection heq' with ha hb'
      subst ha; subst hb'
      rw [dif_neg hb]

/-- `deserialize_array_field` on successful length and count reads. -/
theorem tlvDeserBareField_arr_eq (input : List Nat) (fid : Nat)
    (elem : FieldKind) (ms : Nat) (chk : Values → Option CrError) (v : Value)
    (off len n count n2 : Nat)
    (h1 : varintDecode input off = some (len, n))
    (hb : ¬ input.length < off + n + len)
    (h2 : varintDecode ((input.drop (off + n)).take len) 0 = some (count, n2)) :
    tlvDeserBareField input 1 (.arr fid elem ms chk) v off =
      match tlvDeserElems elem fid ms count ((input.drop (off + n)).take len)
          n2 (arrItemsOf v) with
      | .error e => .error e
      | .ok (items', _) => .ok (.arr items', off + n + len) := by
  rw [tlvDeserBareField]
  simp only [bne_self_eq_false, Bool.false_eq_true, if_false]
  split
  · next heq => rw [h1] at heq; cases heq
  · next len' n' heq =>
      rw [h1] at heq
      injection heq with heq'
      injection heq' with ha hb'
      subst ha; subst hb'
      rw [dif_neg hb]
      split
      · next heq2 => rw [h2] at heq2; cases heq2
      · next c' m' heq2 =>
          rw [h2] at heq2
          injection heq2 with heq2'
          injection heq2' with hc hd
          subst hc; subst hd
          rfl

/-- `deserialize_message_value` on a successful length read. -/
theorem tlvDeserValueNoTag_sub_eq (input : List Nat) (mid : Nat)
    (fs : TopFields) (hook : FieldVals → Option CrError) (off len n : Nat)
    (h1 : varintDecode input off = some (len, n))
    (hb : ¬ input.length < off + n + len) :
    tlvDeserValueNoTag input (.sub mid fs hook) off =
      match tlvMsgLoop fs (((input.drop (off + n)).take len).length + 1)
          ((input.drop (off + n)).take len) 0 (defaultFields fs) with
      | .error e => .error e
      | .ok fvs => .ok (.sub fvs, off + n + len) := by
  rw [tlvDeserValueNoTag]
  split
  · next heq => rw [h1] at heq; cases heq
  · next len' n' heq =>
      rw [h1] at heq
      injection heq with heq'
      injection heq' with ha hb'
      subst ha; subst hb'
      rw [dif_neg hb]

/-- `deserialize_array_value` on successful length and count reads. -/
theorem tlvDeserValueNoTag_arr_eq (input : List Nat) (fid : Nat)
    (elem : FieldKind) (ms : Nat) (chk : Values → Option CrError)
    (off len n count n2 : Nat)
    (h1 : varintDecode input off = some (len, n))
    (hb : ¬ input.length < off + n + len)
    (h2 : varintDecode ((input.drop (off + n)).take len) 0 = some (count, n2)) :
    tlvDeserValueNoTag input (.arr fid elem ms chk) off =
      match tlvDeserElems elem fid ms count ((input.drop (off + n)).take len)
          n2 .nil with
      | .error e => .error e
      | .ok (items, _) => .ok (.arr items, off + n + len) := by
  rw [tlvDeserValueNoTag]
  split
  · next heq => rw [h1] at heq; cases heq
  · next len' n' heq =>
      rw [h1] at heq
      injection heq with heq'
      injection heq' with ha hb'
      subst ha; subst hb'
      rw [dif_neg hb]
      generalize hR : (match tlvDeserElems elem fid ms count
          ((input.drop (off + n)).take len) n2 Values.nil with
        | Except.error e => (Except.error e : Except CrError (Value × Nat))
        | Except.ok (items, _) => Except.ok (Value.arr items, off + n + len)) = R
      try simp only []
      split
      · next heq2 => rw [h2] at heq2; cases heq2
      · next c' m' heq2 =>
          rw [h2] at heq2
          injection heq2 with heq2'
          injection heq2' with hc hd
          subst hc; subst hd
          exact hR

/-- `deserialize_map_value` on successful length and count reads. -/
theorem tlvDeserValueNoTag_kmap_eq (input : List Nat) (fid : Nat)
    (kk vk : FieldKind) (ms : Nat) (chk : Pairs → Option CrError)
    (off len n count n2 : Nat)
    (h1 : varintDecode input off = some (len, n))
    (hb : ¬ input.length < off + n + len)
    (h2 : varintDecode ((input.drop (off + n)).take len) 0 = some (count, n2)) :
    tlvDeserValueNoTag input (.kmap fid kk vk ms chk) off =
      match tlvDeserMapElems kk vk fid ms count
          ((input.drop (off + n)).take len) n2 .nil with
      | .error e => .error e
      | .ok (pairs, _) => .ok (.vmap pairs, off + n + len) := by
  rw [tlvDeserValueNoTag]
  split
  · next heq => rw [h1] at heq; cases heq
  · next len' n' heq =>
      rw [h1] at heq
      injection heq with heq'
      injection heq' with ha hb'
      subst ha; subst hb'
      rw [dif_neg hb]
      generalize hR : (match tlvDeserMapElems kk vk fid ms count
          ((input.drop (off + n)).take len) n2 Pairs.nil with
        | Except.error e => (Except.error e : Except CrError (Value × Nat))
        | Except.ok (pairs, _) => Except.ok (Value.vmap pairs, off + n + len)) = R
      try simp only []
      split
      · next heq2 => rw [h2] at heq2; cases heq2
      · next c' m' heq2 =>
          rw [h2] at heq2
          injection heq2 with heq2'
          injection heq2' with hc hd
          subst hc; subst hd
          exact hR

theorem lenValues_canonS (elem : FieldKind) (items : Values) :
    lenValues (canonSValues elem items) = lenValues items := by
  cases items with
  | nil => simp [canonSValues]
  | cons v rest => simp [canonSValues, lenValues, lenValues_canonS elem rest]
termination_by sizeOf items

theorem lenPairs_canonS (kk vk : FieldKind) (pairs : Pairs) :
    lenPairs (canonSPairs kk vk pairs) = lenPairs pairs := by
  cases pairs with
  | nil => simp [canonSPairs]
  | cons k v rest => simp [canonSPairs, lenPairs, lenPairs_canonS kk vk rest]
termination_by sizeOf pairs

theorem lenValues_canonT (elem : FieldKind) (items : Values) :
    lenValues (canonTValues elem items) = lenValues items := by
  cases items with
  | nil => simp [canonTValues]
  | cons v rest => simp [canonTValues, lenValues, lenValues_canonT elem rest]
termination_by sizeOf items

theorem lenPairs_canonT (kk vk : FieldKind) (pairs : Pairs) :
    lenPairs (canonTPairs kk vk pairs) = lenPairs pairs := by
  cases pairs with
  | nil => simp [canonTPairs]
  | cons k v rest => simp [canonTPairs, lenPairs, lenPairs_canonT kk vk rest]
termination_by sizeOf pairs

mutual
/-- The static decode image of a well-formed value is pointwise
equivalent to it. -/
theorem canonS_pw_v (k : FieldKind) (v : Value) (hw : wfValue k v) :
    pwEqValue k (canonSValue k v) v := by
  cases k with
  | scalar w c =>
      cases v <;> (try simp [wfValue] at hw) <;> simp [canonSValue, pwEqValue]
  | str ms c =>
      cases v <;> (try simp [wfValue] at hw) <;> simp [canonSValue, pwEqValue]
  | sub mid fs hook =>
      cases v with
      | sub fvs =>
          simp only [wfValue] at hw
          simp only [canonSValue, pwEqValue]
          exact canonS_pw_f fs fvs hw.2
      | scalar a => simp [wfValue] at hw
      | vstr b l => simp [wfValue] at hw
      | arr i => simp [wfValue] at hw
      | vmap p => simp [wfValue] at hw
  | arr fid elem ms chk =>
      cases v with
      | arr items =>
          simp only [wfValue] at hw
          simp only [canonSValue, pwEqValue]
          exact canonS_pw_vs elem items hw.2.2
      | scalar a => simp [wfValue] at hw
      | vstr b l => simp [wfValue] at hw
      | sub fvs => simp [wfValue] at hw
      | vmap p => simp [wfValue] at hw
  | kmap fid kk vk ms chk =>
      cases v with
      | vmap pairs =>
          simp only [wfValue] at hw
          simp only [canonSValue, pwEqValue]
          exact canonS_pw_ps kk vk pairs hw.2.2
      | scalar a => simp [wfValue] at hw
      | vstr b l => simp [wfValue] at hw
      | sub fvs => simp [wfValue] at hw
      | arr i => simp [wfValue] at hw
termination_by (2 * sizeOf k, 0, 0)
decreasing_by all_goals (subst_vars; decreasing_tactic)

/-- Array contents version of `canonS_pw_v`. -/
theorem canonS_pw_vs (elem : FieldKind) (items : Values)
    (hw : wfValues elem items) :
    pwEqValues elem (canonSValues elem items) items := by
  cases items with
  | nil => simp [canonSValues, pwEqValues]
  | cons v rest =>
      simp only [wfValues] at hw
      simp only [canonSValues, pwEqValues]
      exact ⟨canonS_pw_v elem v hw.1, canonS_pw_vs elem rest hw.2⟩
termination_by (2 * sizeOf elem, 1, sizeOf items)
decreasing_by all_goals (subst_vars; decreasing_tactic)

/-- Map contents version of `canonS_pw_v`. -/
theorem canonS_pw_ps (kk vk : FieldKind) (pairs : Pairs)
    (hw : wfPairs kk vk pairs) :
    pwEqPairs kk vk (canonSPairs kk vk pairs) pairs := by
  cases pairs with
  | nil => simp [canonSPairs, pwEqPairs]
  | cons k v rest =>
      simp only [wfPairs] at hw
      simp only [canonSPairs, pwEqPairs]
      exact ⟨canonS_pw_v kk k hw.1, canonS_pw_v vk v hw.2.1,
        canonS_pw_ps kk vk rest hw.2.2⟩
termination_by (2 * (sizeOf kk + sizeOf vk) + 1, 1, sizeOf pairs)
decreasing_by all_goals (subst_vars; decreasing_tactic)

/-- Field tuple version of `canonS_pw_v`. -/
theorem canonS_pw_f (fs : TopFields) (m : FieldVals) (hw : wfFields fs m) :
    pwEqFields fs (canonSFields fs m) m := by
  cases fs with
  | nil =>
      cases m with
      | nil => simp [canonSFields, pwEqFields]
      | cons set v r => simp [wfFields] at hw
  | consPlain id req kind rest =>
      cases m with
      | nil => simp [wfFields] at hw
      | cons set v r =>
          simp only [wfFields] at hw
          simp only [canonSFields, pwEqFields]
          refine ⟨by trivial, ?_, canonS_pw_f rest r hw.2⟩
          intro hset
          simp only [hset, if_true]
          exact canonS_pw_v kind v hw.1
  | consBare kind rest =>
      cases m with
      | nil => simp [wfFields] at hw
      | cons set v r =>
          simp only [wfFields] at hw
          simp only [canonSFields, pwEqFields]
          exact ⟨canonS_pw_v kind v hw.2.1, canonS_pw_f rest r hw.2.2⟩
termination_by (2 * sizeOf fs, 0, 0)
decreasing_by all_goals (subst_vars; decreasing_tactic)
end

mutual
/-- The TLV decode image of a well-formed value is pointwise equivalent
to it. -/
theorem canonT_pw_v (k : FieldKind) (v : Value) (hw : wfValue k v) :
    pwEqValue k (canonTValue k v) v := by
  cases k with
  | scalar w c =>
      cases v <;> (try simp [wfValue] at hw) <;> simp [canonTValue, pwEqValue]
  | str ms c =>
      cases v with
      | vstr b l =>
          simp only [wfValue] at hw
          simp only [canonTValue, pwEqValue]
          refine ⟨by trivial, ?_⟩
          exact List.take_left' (by simp [List.length_take]; omega)
      | scalar a => simp [wfValue] at hw
      | sub fvs => simp [wfValue] at hw
      | arr i => simp [wfValue] at hw
      | vmap p => simp [wfValue] at hw
  | sub mid fs hook =>
      cases v with
      | sub fvs =>
          simp only [wfValue] at hw
          simp only [canonTValue, pwEqValue]
          exact canonT_pw_f fs fvs hw.2
      | scalar a => simp [wfValue] at hw
      | vstr b l => simp [wfValue] at hw
      | arr i => simp [wfValue] at hw
      | vmap p => simp [wfValue] at hw
  | arr fid elem ms chk =>
      cases v with
      | arr items =>
          simp only [wfValue] at hw
          simp only [canonTValue, pwEqValue]
          exact canonT_pw_vs elem items hw.2.2
      | scalar a => simp [wfValue] at hw
      | vstr b l => simp [wfValue] at hw
      | sub fvs => simp [wfValue] at hw
      | vmap p => simp [wfValue] at hw
  | kmap fid kk vk ms chk =>
      cases v with
      | vmap pairs =>
          simp only [wfValue] at hw
          simp only [canonTValue, pwEqValue]
          exact canonT_pw_ps kk vk pairs hw.2.2
      | scalar a => simp [wfValue] at hw
      | vstr b l => simp [wfValue] at hw
      | sub fvs => simp [wfValue] at hw
      | arr i => simp [wfValue] at hw
termination_by (2 * sizeOf k, 0, 0)
decreasing_by all_goals (subst_vars; decreasing_tactic)

/-- Array contents version of `canonT_pw_v`. -/
theorem canonT_pw_vs (elem : FieldKind) (items : Values)
    (hw : wfValues elem items) :
    pwEqValues elem (canonTValues elem items) items := by
  cases items with
  | nil => simp [canonTValues, pwEqValues]
  | cons v rest =>
      simp only [wfValues] at hw
      simp only [canonTValues, pwEqValues]
      exact ⟨canonT_pw_v elem v hw.1, canonT_pw_vs elem rest hw.2⟩
termination_by (2 * sizeOf elem, 1, sizeOf items)
decreasing_by all_goals (subst_vars; decreasing_tactic)

/-- Map contents version of `canonT_pw_v`. -/
theorem canonT_pw_ps (kk vk : FieldKind) (pairs : Pairs)
    (hw : wfPairs kk vk pairs) :
    pwEqPairs kk vk (canonTPairs kk vk pairs) pairs := by
  cases pairs with
  | nil => simp [canonTPairs, pwEqPairs]
  | cons k v rest =>
      simp only [wfPairs] at hw
      simp only [canonTPairs, pwEqPairs]
      exact ⟨canonT_pw_v kk k hw.1, canonT_pw_v vk v hw.2.1,
        canonT_pw_ps kk vk rest hw.2.2⟩
termination_by (2 * (sizeOf kk + sizeOf vk) + 1, 1, sizeOf pairs)
decreasing_by all_goals (subst_vars; decreasing_tactic)

/-- Field tuple version of `canonT_pw_v`. -/
theorem canonT_pw_f (fs : TopFields) (m : FieldVals) (hw : wfFields fs m) :
    pwEqFields fs (canonTFields fs m) m := by
  cases fs with
  | nil =>
      cases m with
      | nil => simp [canonTFields, pwEqFields]
      | cons set v r => simp [wfFields] at hw
  | consPlain id req kind rest =>
      cases m with
      | nil => simp [wfFields] at hw
      | cons set v r =>
          simp only [wfFields] at hw
          simp only [canonTFields, pwEqFields]
          refine ⟨by trivial, ?_, canonT_pw_f rest r hw.2⟩
          intro hset
          simp only [hset, if_true]
          exact canonT_pw_v kind v hw.1
  | consBare kind rest =>
      cases m with
      | nil => simp [wfFields] at hw
      | cons set v r =>
          simp only [wfFields] at hw
          simp only [canonTFields, pwEqFields]
          exact ⟨canonT_pw_v kind v hw.2.1, canonT_pw_f rest r hw.2.2⟩
termination_by (2 * sizeOf fs, 0, 0)
decreasing_by all_goals (subst_vars; decreasing_tactic)
end

/-! ### C1 helper lemmas: pointwise equivalence implies `operator==` -/

/-- Boolean equality is symmetric for lawful `BEq` instances. -/
theorem bbeqComm {α : Type} [BEq α] [LawfulBEq α] (a b : α) :
    (a == b) = (b == a) := by
  by_cases h : a = b
  · subst h; rfl
  · rw [beq_eq_false_iff_ne.mpr h, beq_eq_false_iff_ne.mpr (Ne.symm h)]

/-- `operator==` on scalar or string keys is symmetric. -/
theorem valueEq_key_symm (kk : FieldKind) (hk : keyKindOk kk) (a b : Value) :
    valueEq kk a b = valueEq kk b a := by
  cases kk with
  | scalar w c => cases a <;> cases b <;> simp [valueEq] <;> exact eq_comm
  | str ms c => cases a <;> cases b <;> simp [valueEq] <;> exact eq_comm
  | sub m f h => simp [keyKindOk] at hk
  | arr f e m c => simp [keyKindOk] at hk
  | kmap f k v m c => simp [keyKindOk] at hk

/-- Pointwise-equivalent scalar/string keys compare equal both ways. -/
theorem valueEq_key_of_pw (kk : FieldKind) (hk : keyKindOk kk) (a b : Value)
    (h : pwEqValue kk a b) :
    valueEq kk a b = true ∧ valueEq kk b a = true := by
  cases kk with
  | scalar w c =>
      cases a <;> cases b <;> simp [pwEqValue] at h <;> simp [valueEq, h]
  | str ms c =>
      cases a <;> cases b <;> simp [pwEqValue] at h
      obtain ⟨h1, h2⟩ := h
      simp [valueEq, h2]
  | sub m f hh => simp [keyKindOk] at hk
  | arr f e m c => simp [keyKindOk] at hk
  | kmap f k v m c => simp [keyKindOk] at hk

/-- Pointwise-equivalent keys compare identically against anything. -/
theorem valueEq_key_congr (kk : FieldKind) (hk : keyKindOk kk) (a b : Value)
    (h : pwEqValue kk a b) (q : Value) :
    valueEq kk a q = valueEq kk b q ∧ valueEq kk q a = valueEq kk q b := by
  cases kk with
  | scalar w c =>
      cases a <;> cases b <;> simp [pwEqValue] at h <;> subst h <;> simp
  | str ms c =>
      cases a <;> cases b <;> simp [pwEqValue] at h
      obtain ⟨h1, h2⟩ := h
      cases q <;> simp [valueEq, h2]
  | sub m f hh => simp [keyKindOk] at hk
  | arr f e m c => simp [keyKindOk] at hk
  | kmap f k v m c => simp [keyKindOk] at hk

/-- Dropping a head entry whose key matches no key of the left map does
not change `has_entry`-based containment. -/
theorem pairsHasEntry_skip (kk vk : FieldKind) (k2 v2 : Value) (p2 : Pairs)
    (k v : Value) (h : valueEq kk k2 k = false) :
    pairsHasEntry kk vk (.cons k2 v2 p2) k v = pairsHasEntry kk vk p2 k v := by
  simp [pairsHasEntry, h]

/-- If the head key is absent from the left map, scanning past it leaves
`pairsAllFound` unchanged. -/
theorem pairsAllFound_skip (kk vk : FieldKind) (hk : keyKindOk kk)
    (k2 v2 : Value) (p2 : Pairs) (p1 : Pairs)
    (hp : pairsKeyPresent kk p1 k2 = false) :
    pairsAllFound kk vk p1 (.cons k2 v2 p2) = pairsAllFound kk vk p1 p2 := by
  cases p1 with
  | nil => simp [pairsAllFound]
  | cons k v r =>
      simp only [pairsKeyPresent, Bool.or_eq_false_iff] at hp
      simp only [pairsAllFound]
      rw [pairsHasEntry_skip kk vk k2 v2 p2 k v
        (by rw [valueEq_key_symm kk hk]; exact hp.1)]
      rw [pairsAllFound_skip kk vk hk k2 v2 p2 r hp.2]
termination_by sizeOf p1

/-- Key presence is invariant under pointwise key replacement. -/
theorem pairsKeyPresent_congr (kk vk : FieldKind) (hk : keyKindOk kk)
    (p1 p2 : Pairs) (h : pwEqPairs kk vk p1 p2) (q : Value) :
    pairsKeyPresent kk p1 q = pairsKeyPresent kk p2 q := by
  cases p1 with
  | nil =>
      cases p2 with
      | nil => rfl
      | cons a b r => simp [pwEqPairs] at h
  | cons k v r =>
      cases p2 with
      | nil => simp [pwEqPairs] at h
      | cons k2 v2 r2 =>
          simp only [pwEqPairs] at h
          simp only [pairsKeyPresent]
          rw [(valueEq_key_congr kk hk k k2 h.1 q).1,
            pairsKeyPresent_congr kk vk hk r r2 h.2.2 q]
termination_by sizeOf p1

/-- Key presence is invariant under pointwise replacement of the query. -/
theorem pairsKeyPresent_query_congr (kk : FieldKind) (hk : keyKindOk kk)
    (k1 k2 : Value) (h : pwEqValue kk k1 k2) (p : Pairs) :
    pairsKeyPresent kk p k1 = pairsKeyPresent kk p k2 := by
  cases p with
  | nil => rfl
  | cons k v r =>
      simp only [pairsKeyPresent]
      rw [(valueEq_key_congr kk hk k1 k2 h k).2,
        pairsKeyPresent_query_congr kk hk k1 k2 h r]
termination_by sizeOf p

mutual
/-- Pointwise-equivalent values compare equal (both ways) under the field
kinds' `operator==`, provided the right-hand side's maps have distinct
keys. -/
theorem pw_valueEq (k : FieldKind) (v1 v2 : Value) (hk : wfKind k)
    (hd : deepOkValue k v2) (h : pwEqValue k v1 v2) :
    valueEq k v1 v2 = true ∧ valueEq k v2 v1 = true := by
  cases k with
  | scalar w c =>
      cases v1 <;> cases v2 <;> simp [pwEqValue] at h <;> simp [valueEq, h]
  | str ms c =>
      cases v1 <;> cases v2 <;> simp [pwEqValue] at h
      obtain ⟨h1, h2⟩ := h
      simp [valueEq, h2]
  | sub mid fs hook =>
      cases v1 <;> cases v2 <;> simp [pwEqValue] at h
      simp only [wfKind] at hk
      simp only [deepOkValue] at hd
      simp only [valueEq]
      exact pw_fieldValsEq fs _ _ hk.2.2 hd h
  | arr fid elem ms chk =>
      cases v1 <;> cases v2 <;> simp [pwEqValue] at h
      simp only [wfKind] at hk
      simp only [deepOkValue] at hd
      obtain ⟨e1, e2, elen⟩ := pw_valuesEq elem _ _ hk.2.2 hd h
      simp [valueEq, e1, e2, elen]
  | kmap fid kk vk ms chk =>
      cases v1 <;> cases v2 <;> simp [pwEqValue] at h
      simp only [wfKind] at hk
      simp only [deepOkValue] at hd
      obtain ⟨a1, a2, alen⟩ := pw_pairsFound kk vk _ _ hk.2.2.2.1 hk.2.2.2.2
        hk.2.1 hd.1 hd.2 h
      simp [valueEq, a1, a2, alen]
termination_by (2 * sizeOf k, 0, 0)
decreasing_by all_goals (subst_vars; decreasing_tactic)

/-- Array-contents version of `pw_valueEq`. -/
theorem pw_valuesEq (elem : FieldKind) (i1 i2 : Values) (hk : wfKind elem)
    (hd : deepOkValues elem i2) (h : pwEqValues elem i1 i2) :
    valuesEq elem i1 i2 = true ∧ valuesEq elem i2 i1 = true ∧
      lenValues i1 = lenValues i2 := by
  cases i1 with
  | nil =>
      cases i2 with
      | nil => simp [valuesEq, lenValues]
      | cons v r => simp [pwEqValues] at h
  | cons v1 r1 =>
      cases i2 with
      | nil => simp [pwEqValues] at h
      | cons v2 r2 =>
          simp only [pwEqValues] at h
          simp only [deepOkValues] at hd
          have V := pw_valueEq elem v1 v2 hk hd.1 h.1
          have R := pw_valuesEq elem r1 r2 hk hd.2 h.2
          simp [valuesEq, lenValues, V.1, V.2, R.1, R.2.1, R.2.2]
termination_by (2 * sizeOf elem, 1, sizeOf i1)
decreasing_by all_goals (subst_vars; decreasing_tactic)

/-- Map-contents version of `pw_valueEq`: the `has_entry` scans succeed
both ways. -/
theorem pw_pairsFound (kk vk : FieldKind) (p1 p2 : Pairs) (hkk : wfKind kk)
    (hvk : wfKind vk) (hkey : keyKindOk kk) (hnd : noDupKeys kk p2)
    (hd : deepOkPairs kk vk p2) (h : pwEqPairs kk vk p1 p2) :
    pairsAllFound kk vk p1 p2 = true ∧ pairsAllFound kk vk p2 p1 = true ∧
      lenPairs p1 = lenPairs p2 := by
  cases p1 with
  | nil =>
      cases p2 with
      | nil => simp [pairsAllFound, lenPairs]
      | cons k v r => simp [pwEqPairs] at h
  | cons k1 v1 r1 =>
      cases p2 with
      | nil => simp [pwEqPairs] at h
      | cons k2 v2 r2 =>
          simp only [pwEqPairs] at h
          obtain ⟨hpk, hpv, hpr⟩ := h
          simp only [noDupKeys] at hnd
          simp only [deepOkPairs] at hd
          have K := valueEq_key_of_pw kk hkey k1 k2 hpk
          have V := pw_valueEq vk v1 v2 hvk hd.2.2.2.1 hpv
          have R := pw_pairsFound kk vk r1 r2 hkk hvk hkey hnd.2 hd.2.2.2.2 hpr
          have hkp1 : pairsKeyPresent kk r1 k2 = false := by
            rw [pairsKeyPresent_congr kk vk hkey r1 r2 hpr k2]
            exact hnd.1
          have hkp2 : pairsKeyPresent kk r2 k1 = false := by
            rw [pairsKeyPresent_query_congr kk hkey k1 k2 hpk r2]
            exact hnd.1
          refine ⟨?_, ?_, ?_⟩
          · simp only [pairsAllFound]
            rw [pairsAllFound_skip kk vk hkey k2 v2 r2 r1 hkp1]
            simp only [pairsHasEntry, K.2, if_true]
            simp [V.2, R.1]
          · simp only [pairsAllFound]
            rw [pairsAllFound_skip kk vk hkey k1 v1 r1 r2 hkp2]
            simp only [pairsHasEntry, K.1, if_true]
            simp [V.1, R.2.1]
          · simp [lenPairs, R.2.2]
termination_by (2 * (sizeOf kk + sizeOf vk) + 1, 1, sizeOf p1)
decreasing_by all_goals (subst_vars; decreasing_tactic)

/-- Field-tuple version of `pw_valueEq`. -/
theorem pw_fieldValsEq (fs : TopFields) (f1 f2 : FieldVals) (hk : wfTF fs)
    (hd : deepOkFields fs f2) (h : pwEqFields fs f1 f2) :
    fieldValsEq fs f1 f2 = true ∧ fieldValsEq fs f2 f1 = true := by
  cases fs with
  | nil =>
      cases f1 <;> cases f2 <;> simp [pwEqFields] at h <;>
        simp [fieldValsEq]
  | consPlain id req kind rest =>
      cases f1 <;> cases f2 <;> simp [pwEqFields] at h
      next s1 v1 r1 s2 v2 r2 =>
        obtain ⟨hss, hsv, hr⟩ := h
        subst hss
        simp only [wfTF] at hk
        simp only [deepOkFields] at hd
        have R := pw_fieldValsEq rest r1 r2 hk.2.2.2.2 hd.2 hr
        by_cases hset : s1 = true
        · have V := pw_valueEq kind v1 v2 hk.2.2.1 (hd.1 hset) (hsv hset)
          subst hset
          simp [fieldValsEq, V.1, V.2, R.1, R.2]
        · have hs0 : s1 = false := by
            cases s1
            · rfl
            · exact absurd rfl hset
          subst hs0
          simp [fieldValsEq, R.1, R.2]
  | consBare kind rest =>
      cases f1 <;> cases f2 <;> simp [pwEqFields] at h
      next s1 v1 r1 s2 v2 r2 =>
        obtain ⟨hv, hr⟩ := h
        simp only [wfTF] at hk
        simp only [deepOkFields] at hd
        have V := pw_valueEq kind v1 v2 hk.2.1 hd.1 hv
        have R := pw_fieldValsEq rest r1 r2 hk.2.2.2 hd.2 hr
        simp [fieldValsEq, V.1, V.2, R.1, R.2]
termination_by (2 * sizeOf fs, 0, 0)
decreasing_by all_goals (subst_vars; decreasing_tactic)
end

mutual
/-- Validation sees only observable content: pointwise-equivalent values
validate identically (hooks and container validators respect equivalence
by `wfKind`; scalar checks get equal values; string checks get equal
views). -/
theorem valOwn_inv (k : FieldKind) (v1 v2 : Value) (hk : wfKind k)
    (h : pwEqValue k v1 v2) :
    valueOwnValidate k v1 = valueOwnValidate k v2 := by
  cases k with
  | scalar w c =>
      cases v1 <;> cases v2 <;> simp [pwEqValue] at h <;> simp [valueOwnValidate, h]
  | str ms c =>
      cases v1 <;> cases v2 <;> simp [pwEqValue] at h
      obtain ⟨h1, h2⟩ := h
      simp [valueOwnValidate, h2]
  | sub mid fs hook =>
      cases v1 <;> cases v2 <;> simp [pwEqValue] at h
      simp only [wfKind] at hk
      simp only [valueOwnValidate]
      exact hk.2.1 _ _ h
  | arr fid elem ms chk =>
      cases v1 <;> cases v2 <;> simp [pwEqValue] at h
      simp only [wfKind] at hk
      simp only [valueOwnValidate]
      rw [arrElems_inv fid elem _ _ hk.2.2 h, hk.2.1 _ _ h]
  | kmap fid kk vk ms chk =>
      cases v1 <;> cases v2 <;> simp [pwEqValue] at h
      simp only [wfKind] at hk
      simp only [valueOwnValidate]
      rw [mapElems_inv kk vk _ _ hk.2.2.2.1 hk.2.2.2.2 h, hk.2.2.1 _ _ h]
termination_by (2 * sizeOf k, 0, 0)
decreasing_by all_goals (subst_vars; decreasing_tactic)

/-- `ArrayField::Validate`'s element loop is invariant (scalar elements
validate the constant field id; other elements validate content). -/
theorem arrElems_inv (fid : Nat) (elem : FieldKind) (i1 i2 : Values)
    (hk : wfKind elem) (h : pwEqValues elem i1 i2) :
    arrElemsValidate fid elem i1 = arrElemsValidate fid elem i2 := by
  cases i1 with
  | nil =>
      cases i2 with
      | nil => rfl
      | cons v r => simp [pwEqValues] at h
  | cons v1 r1 =>
      cases i2 with
      | nil => simp [pwEqValues] at h
      | cons v2 r2 =>
          simp only [pwEqValues] at h
          cases elem with
          | scalar w c =>
              simp only [arrElemsValidate]
              cases c (fid % 2 ^ (8 * w)) with
              | some e => rfl
              | none => exact arrElems_inv fid _ r1 r2 hk h.2
          | str ms c =>
              simp only [arrElemsValidate]
              rw [valOwn_inv _ v1 v2 hk h.1]
              cases valueOwnValidate (FieldKind.str ms c) v2 with
              | some e => rfl
              | none => exact arrElems_inv fid _ r1 r2 hk h.2
          | sub mid fs hook =>
              simp only [arrElemsValidate]
              rw [valOwn_inv _ v1 v2 hk h.1]
              cases valueOwnValidate (FieldKind.sub mid fs hook) v2 with
              | some e => rfl
              | none => exact arrElems_inv fid _ r1 r2 hk h.2
          | arr f e m c =>
              simp only [arrElemsValidate]
              rw [valOwn_inv _ v1 v2 hk h.1]
              cases valueOwnValidate (FieldKind.arr f e m c) v2 with
              | some e => rfl
              | none => exact arrElems_inv fid _ r1 r2 hk h.2
          | kmap f k2 v2k m c =>
              simp only [arrElemsValidate]
              rw [valOwn_inv _ v1 v2 hk h.1]
              cases valueOwnValidate (FieldKind.kmap f k2 v2k m c) v2 with
              | some e => rfl
              | none => exact arrElems_inv fid _ r1 r2 hk h.2
termination_by (2 * sizeOf elem, 1, sizeOf i1)
decreasing_by all_goals (subst_vars; decreasing_tactic)

/-- `MapField::Validate`'s pair loop is invariant. -/
theorem mapElems_inv (kk vk : FieldKind) (p1 p2 : Pairs) (hkk : wfKind kk)
    (hvk : wfKind vk) (h : pwEqPairs kk vk p1 p2) :
    mapElemsValidate kk vk p1 = mapElemsValidate kk vk p2 := by
  cases p1 with
  | nil =>
      cases p2 with
      | nil => rfl
      | cons k v r => simp [pwEqPairs] at h
  | cons k1 v1 r1 =>
      cases p2 with
      | nil => simp [pwEqPairs] at h
      | cons k2 v2 r2 =>
          simp only [pwEqPairs] at h
          simp only [mapElemsValidate]
          rw [valOwn_inv kk k1 k2 hkk h.1]
          cases valueOwnValidate kk k2 with
          | some e => rfl
          | none =>
              rw [valOwn_inv vk v1 v2 hvk h.2.1]
              cases valueOwnValidate vk v2 with
              | some e => rfl
              | none => exact mapElems_inv kk vk r1 r2 hkk hvk h.2.2
termination_by (2 * (sizeOf kk + sizeOf vk) + 1, 1, sizeOf p1)
decreasing_by all_goals (subst_vars; decreasing_tactic)

end

/-! ### C1 helper lemmas: static layout offsets and lengths -/

mutual
/-- Value slots never move the offset backwards. -/
theorem calcValueEnd_ge (A : Nat) (k : FieldKind) (off : Nat) :
    off ≤ calcValueEnd A k off := by
  cases k with
  | scalar w c => simp only [calcValueEnd]; omega
  | str ms c => simp only [calcValueEnd]; omega
  | sub mid fs hook => simp only [calcValueEnd]; omega
  | arr fid elem ms chk =>
      simp only [calcValueEnd]
      have h := calcSlots_ge A elem ms (off + calcPadding 4 A off + 4)
      omega
  | kmap fid kk vk ms chk =>
      simp only [calcValueEnd]
      have h := calcPairSlots_ge A kk vk ms (off + calcPadding 4 A off + 4)
      omega
termination_by (2 * sizeOf k, 0, 0)
decreasing_by all_goals (subst_vars; decreasing_tactic)

/-- Array slots never move the offset backwards. -/
theorem calcSlots_ge (A : Nat) (elem : FieldKind) (n off : Nat) :
    off ≤ calcSlots A elem n off := by
  cases n with
  | zero => simp [calcSlots]
  | succ m =>
      simp only [calcSlots]
      have h1 := calcValueEnd_ge A elem off
      have h2 := calcSlots_ge A elem m (calcValueEnd A elem off)
      omega
termination_by (2 * sizeOf elem, 1, n)
decreasing_by all_goals (subst_vars; decreasing_tactic)

/-- Map slots never move the offset backwards. -/
theorem calcPairSlots_ge (A : Nat) (kk vk : FieldKind) (n off : Nat) :
    off ≤ calcPairSlots A kk vk n off := by
  cases n with
  | zero => simp [calcPairSlots]
  | succ m =>
      simp only [calcPairSlots]
      have h1 := calcValueEnd_ge A kk off
      have h2 := calcValueEnd_ge A vk (calcValueEnd A kk off)
      have h3 := calcPairSlots_ge A kk vk m (calcValueEnd A vk (calcValueEnd A kk off))
      omega
termination_by (2 * (sizeOf kk + sizeOf vk) + 1, 1, n)
decreasing_by all_goals (subst_vars; decreasing_tactic)

/-- Field slots never move the offset backwards. -/
theorem calcFieldsEnd_ge (A : Nat) (fs : TopFields) (off : Nat) :
    off ≤ calcFieldsEnd A fs off := by
  cases fs with
  | nil => simp [calcFieldsEnd]
  | consPlain id req kind rest =>
      simp only [calcFieldsEnd]
      have h1 := calcValueEnd_ge A kind (off + 1)
      have h2 := calcFieldsEnd_ge A rest (calcValueEnd A kind (off + 1))
      omega
  | consBare kind rest =>
      simp only [calcFieldsEnd]
      have h1 := calcValueEnd_ge A kind off
      have h2 := calcFieldsEnd_ge A rest (calcValueEnd A kind off)
      omega
termination_by (2 * sizeOf fs, 0, 0)
decreasing_by all_goals (subst_vars; decreasing_tactic)
end

/-- Shifting the offset by a multiple of the padding granularity does
not change the padding. -/
theorem calcPadding_shift (s A d r : Nat) (hd : min s A ∣ d) :
    calcPadding s A (d + r) = calcPadding s A r := by
  unfold calcPadding
  rcases Nat.eq_zero_or_pos (min s A) with h0 | hpos
  · rw [h0] at hd ⊢
    obtain rfl : d = 0 := Nat.eq_zero_of_zero_dvd hd
    simp
  · obtain ⟨q, rfl⟩ := hd
    rw [Nat.mul_add_mod]

/-- Offsets after `calculate_padding<T>(offset)` are aligned to the
granularity. -/
theorem calcPadding_aligns (g off : Nat) (hg : 1 ≤ g) :
    g ∣ (off + calcPadding g g off) := by
  unfold calcPadding
  simp only [Nat.min_self]
  have hm : off % g < g := Nat.mod_lt _ (by omega)
  by_cases h0 : off % g = 0
  · rw [h0, Nat.sub_zero, Nat.mod_self, Nat.add_zero]
    exact Nat.dvd_of_mod_eq_zero h0
  · have hlt : g - off % g < g := by omega
    rw [Nat.mod_eq_of_lt hlt]
    have h1 : g ∣ off - off % g := Nat.dvd_sub_mod off
    have hle : off % g ≤ off := Nat.mod_le off g
    have he : off + (g - off % g) = (off - off % g) + g := by omega
    rw [he]
    exact Nat.dvd_add h1 (Nat.dvd_refl g)

/-- The granularity used for a 4-byte quantity divides the alignment
when the alignment divides 4. -/
theorem min4_dvd (A : Nat) (hA : A ∣ 4) : min 4 A ∣ A := by
  have h4 : A ≤ 4 := Nat.le_of_dvd (by norm_num) hA
  have h1 : 1 ≤ A := Nat.pos_of_dvd_of_pos hA (by norm_num)
  rw [Nat.min_eq_right h4]

/-- The granularity used for a scalar of one of the machine widths
divides the alignment when the alignment divides 4. -/
theorem minw_dvd (w A : Nat) (hw : w = 1 ∨ w = 2 ∨ w = 4 ∨ w = 8)
    (hA : A ∣ 4) : min w A ∣ A := by
  have h4 : A ≤ 4 := Nat.le_of_dvd (by norm_num) hA
  have h1 : 1 ≤ A := Nat.pos_of_dvd_of_pos hA (by norm_num)
  have hA3 : A ≠ 3 := by
    rintro rfl
    exact absurd hA (by decide)
  have hA' : A = 1 ∨ A = 2 ∨ A = 4 := by omega
  rcases hw with rfl | rfl | rfl | rfl <;>
    rcases hA' with rfl | rfl | rfl <;> decide

mutual
/-- When the alignment divides 4, the value-end computation is invariant
under shifting the base offset by a multiple of the alignment. -/
theorem calcValueEnd_shift (A : Nat) (k : FieldKind) (d r : Nat) (hA : A ∣ 4)
    (hk : wfKind k) (hd : A ∣ d) :
    calcValueEnd A k (d + r) = d + calcValueEnd A k r := by
  cases k with
  | scalar w c =>
      simp only [wfKind] at hk
      simp only [calcValueEnd]
      rw [calcPadding_shift w A d r (dvd_trans (minw_dvd w A hk hA) hd)]
      omega
  | str ms c =>
      simp only [calcValueEnd]
      rw [calcPadding_shift 4 A d r (dvd_trans (min4_dvd A hA) hd)]
      omega
  | sub mid fs hook =>
      simp only [calcValueEnd]
      rw [calcPadding_shift A A d r (by rw [Nat.min_self]; exact hd)]
      omega
  | arr fid elem ms chk =>
      simp only [wfKind] at hk
      simp only [calcValueEnd]
      rw [calcPadding_shift 4 A d r (dvd_trans (min4_dvd A hA) hd)]
      have h1 : d + r + calcPadding 4 A r + 4 = d + (r + calcPadding 4 A r + 4) := by
        omega
      rw [h1, calcSlots_shift A elem ms d (r + calcPadding 4 A r + 4) hA hk.2.2 hd]
  | kmap fid kk vk ms chk =>
      simp only [wfKind] at hk
      simp only [calcValueEnd]
      rw [calcPadding_shift 4 A d r (dvd_trans (min4_dvd A hA) hd)]
      have h1 : d + r + calcPadding 4 A r + 4 = d + (r + calcPadding 4 A r + 4) := by
        omega
      rw [h1, calcPairSlots_shift A kk vk ms d (r + calcPadding 4 A r + 4) hA
        hk.2.2.2.1 hk.2.2.2.2 hd]
termination_by (2 * sizeOf k, 0, 0)
decreasing_by all_goals (subst_vars; decreasing_tactic)

/-- Shift invariance for the array element-slot loop. -/
theorem calcSlots_shift (A : Nat) (elem : FieldKind) (n d r : Nat) (hA : A ∣ 4)
    (hk : wfKind elem) (hd : A ∣ d) :
    calcSlots A elem n (d + r) = d + calcSlots A elem n r := by
  cases n with
  | zero => simp [calcSlots]
  | succ m =>
      simp only [calcSlots]
      rw [calcValueEnd_shift A elem d r hA hk hd,
        calcSlots_shift A elem m d (calcValueEnd A elem r) hA hk hd]
termination_by (2 * sizeOf elem, 1, n)
decreasing_by all_goals (subst_vars; decreasing_tactic)

/-- Shift invariance for the map pair-slot loop. -/
theorem calcPairSlots_shift (A : Nat) (kk vk : FieldKind) (n d r : Nat)
    (hA : A ∣ 4) (hkk : wfKind kk) (hvk : wfKind vk) (hd : A ∣ d) :
    calcPairSlots A kk vk n (d + r) = d + calcPairSlots A kk vk n r := by
  cases n with
  | zero => simp [calcPairSlots]
  | succ m =>
      simp only [calcPairSlots]
      rw [calcValueEnd_shift A kk d r hA hkk hd,
        calcValueEnd_shift A vk d (calcValueEnd A kk r) hA hvk hd,
        calcPairSlots_shift A kk vk m d (calcValueEnd A vk (calcValueEnd A kk r))
          hA hkk hvk hd]
termination_by (2 * (sizeOf kk + sizeOf vk) + 1, 1, n)
decreasing_by all_goals (subst_vars; decreasing_tactic)

/-- Shift invariance for the field-end fold. -/
theorem calcFieldsEnd_shift (A : Nat) (fs : TopFields) (d r : Nat) (hA : A ∣ 4)
    (hf : wfTF fs) (hd : A ∣ d) :
    calcFieldsEnd A fs (d + r) = d + calcFieldsEnd A fs r := by
  cases fs with
  | nil => simp [calcFieldsEnd]
  | consPlain id req kind rest =>
      simp only [wfTF] at hf
      simp only [calcFieldsEnd]
      have h1 : d + r + 1 = d + (r + 1) := by omega
      rw [h1, calcValueEnd_shift A kind d (r + 1) hA hf.2.2.1 hd,
        calcFieldsEnd_shift A rest d (calcValueEnd A kind (r + 1)) hA hf.2.2.2.2 hd]
  | consBare kind rest =>
      simp only [wfTF] at hf
      simp only [calcFieldsEnd]
      rw [calcValueEnd_shift A kind d r hA hf.2.1 hd,
        calcFieldsEnd_shift A rest d (calcValueEnd A kind r) hA hf.2.2.2 hd]
termination_by (2 * sizeOf fs, 0, 0)
decreasing_by all_goals (subst_vars; decreasing_tactic)
end

/-- `leBytes` always produces exactly `w` bytes. -/
theorem leBytes_length (w v : Nat) : (leBytes w v).length = w := by
  induction w generalizing v with
  | zero => simp [leBytes]
  | succ m ih => simp [leBytes, ih]

/-- Length of the zero fill for unused array slots. -/
theorem zeroSlots_len (A : Nat) (elem : FieldKind) (n off : Nat) :
    (zeroSlots A elem n off).length = calcSlots A elem n off - off := by
  induction n generalizing off with
  | zero => simp [zeroSlots, calcSlots]
  | succ m ih =>
      simp only [zeroSlots, calcSlots, List.length_append, List.length_replicate]
      have h1 := calcValueEnd_ge A elem off
      have h2 := calcSlots_ge A elem m (calcValueEnd A elem off)
      rw [ih]
      omega

/-- Length of the zero fill for unused map slots. -/
theorem zeroPairSlots_len (A : Nat) (kk vk : FieldKind) (n off : Nat) :
    (zeroPairSlots A kk vk n off).length = calcPairSlots A kk vk n off - off := by
  induction n generalizing off with
  | zero => simp [zeroPairSlots, calcPairSlots]
  | succ m ih =>
      simp only [zeroPairSlots, calcPairSlots, List.length_append,
        List.length_replicate]
      have h1 := calcValueEnd_ge A kk off
      have h2 := calcValueEnd_ge A vk (calcValueEnd A kk off)
      have h3 := calcPairSlots_ge A kk vk m
        (calcValueEnd A vk (calcValueEnd A kk off))
      rw [ih]
      omega

/-- The slot loop splits over a sum of counts. -/
theorem calcSlots_split (A : Nat) (elem : FieldKind) (a b off : Nat) :
    calcSlots A elem (a + b) off = calcSlots A elem b (calcSlots A elem a off) := by
  induction a generalizing off with
  | zero => simp [calcSlots]
  | succ m ih =>
      have h1 : m + 1 + b = (m + b) + 1 := by omega
      rw [h1]
      simp only [calcSlots]
      rw [ih]

/-- The pair-slot loop splits over a sum of counts. -/
theorem calcPairSlots_split (A : Nat) (kk vk : FieldKind) (a b off : Nat) :
    calcPairSlots A kk vk (a + b) off =
      calcPairSlots A kk vk b (calcPairSlots A kk vk a off) := by
  induction a generalizing off with
  | zero => simp [calcPairSlots]
  | succ m ih =>
      have h1 : m + 1 + b = (m + b) + 1 := by omega
      rw [h1]
      simp only [calcPairSlots]
      rw [ih]

mutual
/-- `serialize_value` writes exactly the slot computed by the
corresponding end-offset calculation, for alignments dividing 4. -/
theorem serValue_len (A : Nat) (k : FieldKind) (v : Value) (off : Nat)
    (hA : A ∣ 4) (hk : wfKind k) (hv : wfValue k v) :
    (serValue A k v off).length = calcValueEnd A k off - off := by
  have hA1 : 1 ≤ A := Nat.pos_of_dvd_of_pos hA (by norm_num)
  cases k with
  | scalar w c =>
      cases v with
      | scalar n =>
          simp only [serValue, calcValueEnd, List.length_append,
            List.length_replicate, leBytes_length]
          omega
      | vstr buf len => simp only [wfValue] at hv
      | sub fvs => simp only [wfValue] at hv
      | arr items => simp only [wfValue] at hv
      | vmap pairs => simp only [wfValue] at hv
  | str ms c =>
      cases v with
      | scalar n => simp only [wfValue] at hv
      | vstr buf len =>
          simp only [wfValue] at hv
          simp only [serValue, calcValueEnd, List.length_append,
            List.length_replicate, leBytes_length, hv.1]
          omega
      | sub fvs => simp only [wfValue] at hv
      | arr items => simp only [wfValue] at hv
      | vmap pairs => simp only [wfValue] at hv
  | sub mid fs hook =>
      cases v with
      | scalar n => simp only [wfValue] at hv
      | vstr buf len => simp only [wfValue] at hv
      | sub fvs =>
          simp only [wfValue] at hv
          simp only [wfKind] at hk
          simp only [serValue, calcValueEnd, List.length_append,
            List.length_replicate, leBytes_length]
          have hbase : A ∣ (off + calcPadding A A off + 4) := by
            have h1 := calcPadding_aligns A off hA1
            exact Nat.dvd_add h1 hA
          have hlen := serFields_len A fs fvs (off + calcPadding A A off + 4)
            hA hk.2.2 hv.2
          have hsh := calcFieldsEnd_shift A fs (off + calcPadding A A off + 4) 0
            hA hk.2.2 hbase
          rw [Nat.add_zero] at hsh
          have hge := calcFieldsEnd_ge A fs (off + calcPadding A A off + 4)
          omega
      | arr items => simp only [wfValue] at hv
      | vmap pairs => simp only [wfValue] at hv
  | arr fid elem ms chk =>
      cases v with
      | scalar n => simp only [wfValue] at hv
      | vstr buf len => simp only [wfValue] at hv
      | sub fvs => simp only [wfValue] at hv
      | arr items =>
          simp only [wfValue] at hv
          simp only [wfKind] at hk
          simp only [serValue, calcValueEnd, List.length_append,
            List.length_replicate, leBytes_length, zeroSlots_len]
          have hlen := serItems_len A elem items (off + calcPadding 4 A off + 4)
            hA hk.2.2 hv.2.2
          have hge1 := calcSlots_ge A elem (lenValues items)
            (off + calcPadding 4 A off + 4)
          have hsplit := calcSlots_split A elem (lenValues items)
            (ms - lenValues items) (off + calcPadding 4 A off + 4)
          have hms : lenValues items + (ms - lenValues items) = ms := by
            have := hv.1
            omega
          rw [hms] at hsplit
          have hslot : off + calcPadding 4 A off + 4 +
              (serItems A elem items (off + calcPadding 4 A off + 4)).length =
              calcSlots A elem (lenValues items)
                (off + calcPadding 4 A off + 4) := by
            omega
          rw [hslot, hsplit]
          have hge2 := calcSlots_ge A elem (ms - lenValues items)
            (calcSlots A elem (lenValues items) (off + calcPadding 4 A off + 4))
          omega
      | vmap pairs => simp only [wfValue] at hv
  | kmap fid kk vk ms chk =>
      cases v with
      | scalar n => simp only [wfValue] at hv
      | vstr buf len => simp only [wfValue] at hv
      | sub fvs => simp only [wfValue] at hv
      | arr items => simp only [wfValue] at hv
      | vmap pairs =>
          simp only [wfValue] at hv
          simp only [wfKind] at hk
          simp only [serValue, calcValueEnd, List.length_append,
            List.length_replicate, leBytes_length, zeroPairSlots_len]
          have hlen := serPairs_len A kk vk pairs (off + calcPadding 4 A off + 4)
            hA hk.2.2.2.1 hk.2.2.2.2 hv.2.2
          have hge1 := calcPairSlots_ge A kk vk (lenPairs pairs)
            (off + calcPadding 4 A off + 4)
          have hsplit := calcPairSlots_split A kk vk (lenPairs pairs)
            (ms - lenPairs pairs) (off + calcPadding 4 A off + 4)
          have hms : lenPairs pairs + (ms - lenPairs pairs) = ms := by
            have := hv.1
            omega
          rw [hms] at hsplit
          have hslot : off + calcPadding 4 A off + 4 +
              (serPairs A kk vk pairs (off + calcPadding 4 A off + 4)).length =
              calcPairSlots A kk vk (lenPairs pairs)
                (off + calcPadding 4 A off + 4) := by
            omega
          rw [hslot, hsplit]
          have hge2 := calcPairSlots_ge A kk vk (ms - lenPairs pairs)
            (calcPairSlots A kk vk (lenPairs pairs)
              (off + calcPadding 4 A off + 4))
          omega
termination_by (2 * sizeOf k, 0, sizeOf v)
decreasing_by all_goals (subst_vars; decreasing_tactic)

/-- `serialize_array`'s element loop writes exactly the slots of the
active elements. -/
theorem serItems_len (A : Nat) (elem : FieldKind) (items : Values) (off : Nat)
    (hA : A ∣ 4) (hk : wfKind elem) (hv : wfValues elem items) :
    (serItems A elem items off).length =
      calcSlots A elem (lenValues items) off - off := by
  cases items with
  | nil => simp [serItems, lenValues, calcSlots]
  | cons v rest =>
      simp only [wfValues] at hv
      simp only [serItems, lenValues, List.length_append]
      have h1 := serValue_len A elem v off hA hk hv.1
      have hge1 := calcValueEnd_ge A elem off
      have hoff : off + (serValue A elem v off).length =
          calcValueEnd A elem off := by omega
      rw [hoff]
      have h2 := serItems_len A elem rest (calcValueEnd A elem off) hA hk hv.2
      have hge2 := calcSlots_ge A elem (lenValues rest) (calcValueEnd A elem off)
      simp only [calcSlots]
      omega
termination_by (2 * sizeOf elem, 1, sizeOf items)
decreasing_by all_goals (subst_vars; decreasing_tactic)

/-- `serialize_map`'s pair loop writes exactly the slots of the active
pairs. -/
theorem serPairs_len (A : Nat) (kk vk : FieldKind) (pairs : Pairs) (off : Nat)
    (hA : A ∣ 4) (hkk : wfKind kk) (hvk : wfKind vk)
    (hv : wfPairs kk vk pairs) :
    (serPairs A kk vk pairs off).length =
      calcPairSlots A kk vk (lenPairs pairs) off - off := by
  cases pairs with
  | nil => simp [serPairs, lenPairs, calcPairSlots]
  | cons k v rest =>
      simp only [wfPairs] at hv
      simp only [serPairs, lenPairs, List.length_append]
      have h1 := serValue_len A kk k off hA hkk hv.1
      have hge1 := calcValueEnd_ge A kk off
      have hoffk : off + (serValue A kk k off).length =
          calcValueEnd A kk off := by omega
      rw [hoffk]
      have h2 := serValue_len A vk v (calcValueEnd A kk off) hA hvk hv.2.1
      have hge2 := calcValueEnd_ge A vk (calcValueEnd A kk off)
      have hoffv : calcValueEnd A kk off +
          (serValue A vk v (calcValueEnd A kk off)).length =
          calcValueEnd A vk (calcValueEnd A kk off) := by omega
      rw [hoffv]
      have h3 := serPairs_len A kk vk rest
        (calcValueEnd A vk (calcValueEnd A kk off)) hA hkk hvk hv.2.2
      have hge3 := calcPairSlots_ge A kk vk (lenPairs rest)
        (calcValueEnd A vk (calcValueEnd A kk off))
      simp only [calcPairSlots]
      omega
termination_by (2 * (sizeOf kk + sizeOf vk) + 1, 1, sizeOf pairs)
decreasing_by all_goals (subst_vars; decreasing_tactic)

/-- `serialize_field`'s fold writes exactly the payload computed by the
field-end fold. -/
theorem serFields_len (A : Nat) (fs : TopFields) (m : FieldVals) (off : Nat)
    (hA : A ∣ 4) (hf : wfTF fs) (hm : wfFields fs m) :
    (serFields A fs m off).length = calcFieldsEnd A fs off - off := by
  cases fs with
  | nil =>
      cases m with
      | nil => simp [serFields, calcFieldsEnd]
      | cons set v rest => simp only [wfFields] at hm
  | consPlain id req kind restF =>
      cases m with
      | nil => simp only [wfFields] at hm
      | cons set v restV =>
          simp only [wfFields] at hm
          simp only [wfTF] at hf
          simp only [serFields, calcFieldsEnd, List.length_cons,
            List.length_append]
          have hbody : (if set = true then serValue A kind v (off + 1)
              else List.replicate
                (calcValueEnd A kind (off + 1) - (off + 1)) 0).length =
              calcValueEnd A kind (off + 1) - (off + 1) := by
            cases set with
            | true =>
                simp only [if_pos rfl]
                exact serValue_len A kind v (off + 1) hA hf.2.2.1 hm.1
            | false => simp
          have hge1 := calcValueEnd_ge A kind (off + 1)
          rw [hbody]
          have hoff : off + 1 + (calcValueEnd A kind (off + 1) - (off + 1)) =
              calcValueEnd A kind (off + 1) := by omega
          rw [hoff]
          have h2 := serFields_len A restF restV (calcValueEnd A kind (off + 1))
            hA hf.2.2.2.2 hm.2
          have hge2 := calcFieldsEnd_ge A restF (calcValueEnd A kind (off + 1))
          omega
  | consBare kind restF =>
      cases m with
      | nil => simp only [wfFields] at hm
      | cons set v restV =>
          simp only [wfFields] at hm
          simp only [wfTF] at hf
          simp only [serFields, calcFieldsEnd, List.length_append]
          have h1 := serValue_len A kind v off hA hf.2.1 hm.2.1
          have hge1 := calcValueEnd_ge A kind off
          have hoff : off + (serValue A kind v off).length =
              calcValueEnd A kind off := by omega
          rw [hoff]
          have h2 := serFields_len A restF restV (calcValueEnd A kind off)
            hA hf.2.2.2 hm.2.2
          have hge2 := calcFieldsEnd_ge A restF (calcValueEnd A kind off)
          omega
termination_by (2 * sizeOf fs, 0, 0)
decreasing_by all_goals (subst_vars; decreasing_tactic)
end

/-- Reading at an index inside the middle segment of a framed buffer
lands in the middle segment. -/
theorem getD_concat (pre l post : List Nat) (i : Nat) (hi : i < l.length) :
    (pre ++ l ++ post).getD (pre.length + i) 0 = l.getD i 0 := by
  rw [List.append_assoc]
  rw [List.getD_append_right pre (l ++ post) 0 (pre.length + i) (by omega)]
  have h1 : pre.length + i - pre.length = i := by omega
  rw [h1]
  rw [List.getD_append l post 0 i hi]

/-- Reading back a little-endian value written into the middle of a
framed buffer. -/
theorem readLE_concat (w : Nat) (n : Nat) (pre post : List Nat)
    (hn : n < 2 ^ (8 * w)) :
    readLE (pre ++ leBytes w n ++ post) pre.length w = n := by
  induction w generalizing pre n with
  | zero =>
      simp only [readLE]
      omega
  | succ m ih =>
      simp only [readLE]
      have hb : (pre ++ leBytes (m + 1) n ++ post).getD pre.length 0 = n % 256 := by
        have h0 : (0 : Nat) < (leBytes (m + 1) n).length := by
          rw [leBytes_length]; omega
        have h2 := getD_concat pre (leBytes (m + 1) n) post 0 h0
        simp only [Nat.add_zero] at h2
        rw [h2]
        simp [leBytes]
      rw [hb]
      have hsplit : pre ++ leBytes (m + 1) n ++ post =
          (pre ++ [n % 256]) ++ leBytes m (n / 256) ++ post := by
        simp [leBytes, List.append_assoc]
      have hlen : pre.length + 1 = (pre ++ [n % 256]).length := by simp
      rw [hsplit, hlen, ih (n / 256) (pre ++ [n % 256]) (by
        have h2 : 2 ^ (8 * (m + 1)) = 2 ^ (8 * m) * 256 := by
          rw [Nat.mul_add, Nat.pow_add]
          try norm_num
        rw [h2] at hn
        omega)]
      omega

/-- Reading back raw bytes written into the middle of a framed buffer. -/
theorem readBytes_concat (l : List Nat) (pre post : List Nat) :
    readBytes (pre ++ l ++ post) pre.length l.length = l := by
  induction l generalizing pre with
  | nil => simp [readBytes]
  | cons b rest ih =>
      simp only [List.length_cons, readBytes]
      have hb : (pre ++ (b :: rest) ++ post).getD pre.length 0 = b := by
        have h0 : (0 : Nat) < (b :: rest).length := by simp
        have h2 := getD_concat pre (b :: rest) post 0 h0
        simp only [Nat.add_zero] at h2
        rw [h2]
        simp
      rw [hb]
      have hsplit : pre ++ (b :: rest) ++ post =
          (pre ++ [b]) ++ rest ++ post := by
        simp [List.append_assoc]
      have hlen : pre.length + 1 = (pre ++ [b]).length := by simp
      rw [hsplit, hlen, ih (pre ++ [b])]

/-- Decoding an unset plain field ignores the input and yields the
default value and the computed slot end. -/
theorem deserValue_unset (A : Nat) (k : FieldKind) (input : List Nat)
    (off : Nat) :
    deserValue A k false input off = .ok (defaultValue k, calcValueEnd A k off) := by
  cases k with
  | scalar w c => simp [deserValue, defaultValue, calcValueEnd]
  | str ms c => simp [deserValue, defaultValue, calcValueEnd]
  | sub mid fs hook => simp [deserValue, defaultValue, calcValueEnd]
  | arr fid elem ms chk => simp [deserValue, defaultValue, calcValueEnd]
  | kmap fid kk vk ms chk => simp [deserValue, defaultValue, calcValueEnd]


mutual
/-- Static-layout decode of a serialized set value, framed inside any
buffer, recovers the canonical image of the value and ends at the
computed slot end. -/
theorem deserValue_ser (A : Nat) (k : FieldKind) (v : Value) (off : Nat)
    (hA : A ∣ 4) (hk : wfKind k) (hv : wfValue k v)
    (pre post : List Nat) (hpre : pre.length = off) :
    deserValue A k true (pre ++ serValue A k v off ++ post) off =
      .ok (canonSValue k v, calcValueEnd A k off) := by
  have hA1 : 1 ≤ A := Nat.pos_of_dvd_of_pos hA (by norm_num)
  have h232 : (2 : Nat) ^ (8 * 4) = 2 ^ 32 := by norm_num
  cases k with
  | scalar w c =>
      cases v with
      | scalar n =>
          simp only [wfValue] at hv
          have hser : serValue A (.scalar w c) (.scalar n) off =
              List.replicate (calcPadding w A off) 0 ++ leBytes w n := by
            simp [serValue]
          rw [hser]
          simp only [deserValue]
          have hrd : readLE (pre ++ (List.replicate (calcPadding w A off) 0 ++
              leBytes w n) ++ post) (off + calcPadding w A off) w = n := by
            have hre : pre ++ (List.replicate (calcPadding w A off) 0 ++
                leBytes w n) ++ post =
                (pre ++ List.replicate (calcPadding w A off) 0) ++
                  leBytes w n ++ post := by
              simp [List.append_assoc]
            have hlen2 : off + calcPadding w A off =
                (pre ++ List.replicate (calcPadding w A off) 0).length := by
              simp [hpre]
            rw [hre, hlen2]
            exact readLE_concat w n _ post hv
          rw [hrd]
          simp [canonSValue, calcValueEnd]
      | vstr buf len => simp only [wfValue] at hv
      | sub fvs => simp only [wfValue] at hv
      | arr items => simp only [wfValue] at hv
      | vmap pairs => simp only [wfValue] at hv
  | str ms c =>
      cases v with
      | scalar n => simp only [wfValue] at hv
      | vstr buf len =>
          simp only [wfValue] at hv
          obtain ⟨hbuf, hle, hms, _⟩ := hv
          have hser : serValue A (.str ms c) (.vstr buf len) off =
              List.replicate (calcPadding 4 A off) 0 ++ leBytes 4 len ++ buf := by
            simp [serValue]
          rw [hser]
          simp only [deserValue]
          have hrd : readLE (pre ++ (List.replicate (calcPadding 4 A off) 0 ++
              leBytes 4 len ++ buf) ++ post) (off + calcPadding 4 A off) 4 =
              len := by
            have hre : pre ++ (List.replicate (calcPadding 4 A off) 0 ++
                leBytes 4 len ++ buf) ++ post =
                (pre ++ List.replicate (calcPadding 4 A off) 0) ++
                  leBytes 4 len ++ (buf ++ post) := by
              simp [List.append_assoc]
            have hlen2 : off + calcPadding 4 A off =
                (pre ++ List.replicate (calcPadding 4 A off) 0).length := by
              simp [hpre]
            rw [hre, hlen2]
            exact readLE_concat 4 len _ (buf ++ post) (by omega)
          rw [hrd]
          have hnlt : ¬ ms < len := by omega
          rw [if_neg hnlt]
          have hrb : readBytes (pre ++ (List.replicate (calcPadding 4 A off) 0 ++
              leBytes 4 len ++ buf) ++ post)
              (off + calcPadding 4 A off + 4) ms = buf := by
            have hre : pre ++ (List.replicate (calcPadding 4 A off) 0 ++
                leBytes 4 len ++ buf) ++ post =
                ((pre ++ List.replicate (calcPadding 4 A off) 0) ++
                  leBytes 4 len) ++ buf ++ post := by
              simp [List.append_assoc]
            have hlen3 : off + calcPadding 4 A off + 4 =
                ((pre ++ List.replicate (calcPadding 4 A off) 0) ++
                  leBytes 4 len).length := by
              simp [hpre, leBytes_length]
              try omega
            have hmsb : ms = buf.length := hbuf.symm
            rw [hre, hlen3, hmsb]
            exact readBytes_concat buf _ post
          rw [hrb]
          simp [canonSValue, calcValueEnd]
      | sub fvs => simp only [wfValue] at hv
      | arr items => simp only [wfValue] at hv
      | vmap pairs => simp only [wfValue] at hv
  | sub mid fs hook =>
      cases v with
      | scalar n => simp only [wfValue] at hv
      | vstr buf len => simp only [wfValue] at hv
      | sub fvs =>
          simp only [wfValue] at hv
          simp only [wfKind] at hk
          have hser : serValue A (.sub mid fs hook) (.sub fvs) off =
              List.replicate (calcPadding A A off) 0 ++ leBytes 4 mid ++
                serFields A fs fvs (off + calcPadding A A off + 4) := by
            simp [serValue]
          rw [hser]
          simp only [deserValue]
          have hrd : readLE (pre ++ (List.replicate (calcPadding A A off) 0 ++
              leBytes 4 mid ++
              serFields A fs fvs (off + calcPadding A A off + 4)) ++ post)
              (off + calcPadding A A off) 4 = mid := by
            have hre : pre ++ (List.replicate (calcPadding A A off) 0 ++
                leBytes 4 mid ++
                serFields A fs fvs (off + calcPadding A A off + 4)) ++ post =
                (pre ++ List.replicate (calcPadding A A off) 0) ++
                  leBytes 4 mid ++
                  (serFields A fs fvs (off + calcPadding A A off + 4) ++
                    post) := by
              simp [List.append_assoc]
            have hlen2 : off + calcPadding A A off =
                (pre ++ List.replicate (calcPadding A A off) 0).length := by
              simp [hpre]
            rw [hre, hlen2]
            exact readLE_concat 4 mid _ _ (by omega)
          rw [hrd]
          simp only [bne_self_eq_false, Bool.and_false, Bool.false_eq_true,
            if_false]
          have hdf : deserFields A fs
              (pre ++ (List.replicate (calcPadding A A off) 0 ++
                leBytes 4 mid ++
                serFields A fs fvs (off + calcPadding A A off + 4)) ++ post)
              (off + calcPadding A A off + 4) =
              .ok (canonSFields fs fvs,
                calcFieldsEnd A fs (off + calcPadding A A off + 4)) := by
            have hre : pre ++ (List.replicate (calcPadding A A off) 0 ++
                leBytes 4 mid ++
                serFields A fs fvs (off + calcPadding A A off + 4)) ++ post =
                ((pre ++ List.replicate (calcPadding A A off) 0) ++
                  leBytes 4 mid) ++
                  serFields A fs fvs (off + calcPadding A A off + 4) ++
                  post := by
              simp [List.append_assoc]
            rw [hre]
            exact deserFields_ser A fs fvs (off + calcPadding A A off + 4)
              hA hk.2.2 hv.2 _ post (by simp [hpre, leBytes_length]; try omega)
          rw [hdf]
          have hbase : A ∣ (off + calcPadding A A off + 4) :=
            Nat.dvd_add (calcPadding_aligns A off hA1) hA
          have hsh : calcFieldsEnd A fs (off + calcPadding A A off + 4) =
              off + calcPadding A A off + 4 + calcFieldsEnd A fs 0 := by
            have := calcFieldsEnd_shift A fs (off + calcPadding A A off + 4) 0
              hA hk.2.2 hbase
            simpa using this
          rw [hsh]
          simp [canonSValue, calcValueEnd]
      | arr items => simp only [wfValue] at hv
      | vmap pairs => simp only [wfValue] at hv
  | arr fid elem ms chk =>
      cases v with
      | scalar n => simp only [wfValue] at hv
      | vstr buf len => simp only [wfValue] at hv
      | sub fvs => simp only [wfValue] at hv
      | arr items =>
          simp only [wfValue] at hv
          simp only [wfKind] at hk
          have hser : serValue A (.arr fid elem ms chk) (.arr items) off =
              List.replicate (calcPadding 4 A off) 0 ++
                leBytes 4 (lenValues items) ++
                serItems A elem items (off + calcPadding 4 A off + 4) ++
                zeroSlots A elem (ms - lenValues items)
                  (off + calcPadding 4 A off + 4 +
                    (serItems A elem items
                      (off + calcPadding 4 A off + 4)).length) := by
            simp [serValue]
          rw [hser]
          simp only [deserValue, Bool.not_true, Bool.false_eq_true, if_false]
          have hrd : readLE (pre ++ (List.replicate (calcPadding 4 A off) 0 ++
              leBytes 4 (lenValues items) ++
              serItems A elem items (off + calcPadding 4 A off + 4) ++
              zeroSlots A elem (ms - lenValues items)
                (off + calcPadding 4 A off + 4 +
                  (serItems A elem items
                    (off + calcPadding 4 A off + 4)).length)) ++ post)
              (off + calcPadding 4 A off) 4 = lenValues items := by
            have hre : pre ++ (List.replicate (calcPadding 4 A off) 0 ++
                leBytes 4 (lenValues items) ++
                serItems A elem items (off + calcPadding 4 A off + 4) ++
                zeroSlots A elem (ms - lenValues items)
                  (off + calcPadding 4 A off + 4 +
                    (serItems A elem items
                      (off + calcPadding 4 A off + 4)).length)) ++ post =
                (pre ++ List.replicate (calcPadding 4 A off) 0) ++
                  leBytes 4 (lenValues items) ++
                  (serItems A elem items (off + calcPadding 4 A off + 4) ++
                    (zeroSlots A elem (ms - lenValues items)
                      (off + calcPadding 4 A off + 4 +
                        (serItems A elem items
                          (off + calcPadding 4 A off + 4)).length) ++
                      post)) := by
              simp [List.append_assoc]
            have hlen2 : off + calcPadding 4 A off =
                (pre ++ List.replicate (calcPadding 4 A off) 0).length := by
              simp [hpre]
            rw [hre, hlen2]
            exact readLE_concat 4 (lenValues items) _ _ (by omega)
          rw [hrd]
          have hnlt : ¬ ms < lenValues items := by omega
          rw [if_neg hnlt]
          have hdi : deserItems A elem (lenValues items)
              (pre ++ (List.replicate (calcPadding 4 A off) 0 ++
                leBytes 4 (lenValues items) ++
                serItems A elem items (off + calcPadding 4 A off + 4) ++
                zeroSlots A elem (ms - lenValues items)
                  (off + calcPadding 4 A off + 4 +
                    (serItems A elem items
                      (off + calcPadding 4 A off + 4)).length)) ++ post)
              (off + calcPadding 4 A off + 4) =
              .ok (canonSValues elem items,
                calcSlots A elem (lenValues items)
                  (off + calcPadding 4 A off + 4)) := by
            have hre : pre ++ (List.replicate (calcPadding 4 A off) 0 ++
                leBytes 4 (lenValues items) ++
                serItems A elem items (off + calcPadding 4 A off + 4) ++
                zeroSlots A elem (ms - lenValues items)
                  (off + calcPadding 4 A off + 4 +
                    (serItems A elem items
                      (off + calcPadding 4 A off + 4)).length)) ++ post =
                ((pre ++ List.replicate (calcPadding 4 A off) 0) ++
                  leBytes 4 (lenValues items)) ++
                  serItems A elem items (off + calcPadding 4 A off + 4) ++
                  (zeroSlots A elem (ms - lenValues items)
                    (off + calcPadding 4 A off + 4 +
                      (serItems A elem items
                        (off + calcPadding 4 A off + 4)).length) ++ post) := by
              simp [List.append_assoc]
            rw [hre]
            exact deserItems_ser A elem items (off + calcPadding 4 A off + 4)
              hA hk.2.2 hv.2.2 _ _ (by simp [hpre, leBytes_length]; try omega)
          rw [hdi]
          simp [canonSValue]
      | vmap pairs => simp only [wfValue] at hv
  | kmap fid kk vk ms chk =>
      cases v with
      | scalar n => simp only [wfValue] at hv
      | vstr buf len => simp only [wfValue] at hv
      | sub fvs => simp only [wfValue] at hv
      | arr items => simp only [wfValue] at hv
      | vmap pairs =>
          simp only [wfValue] at hv
          simp only [wfKind] at hk
          have hser : serValue A (.kmap fid kk vk ms chk) (.vmap pairs) off =
              List.replicate (calcPadding 4 A off) 0 ++
                leBytes 4 (lenPairs pairs) ++
                serPairs A kk vk pairs (off + calcPadding 4 A off + 4) ++
                zeroPairSlots A kk vk (ms - lenPairs pairs)
                  (off + calcPadding 4 A off + 4 +
                    (serPairs A kk vk pairs
                      (off + calcPadding 4 A off + 4)).length) := by
            simp [serValue]
          rw [hser]
          simp only [deserValue, Bool.not_true, Bool.false_eq_true, if_false]
          have hrd : readLE (pre ++ (List.replicate (calcPadding 4 A off) 0 ++
              leBytes 4 (lenPairs pairs) ++
              serPairs A kk vk pairs (off + calcPadding 4 A off + 4) ++
              zeroPairSlots A kk vk (ms - lenPairs pairs)
                (off + calcPadding 4 A off + 4 +
                  (serPairs A kk vk pairs
                    (off + calcPadding 4 A off + 4)).length)) ++ post)
              (off + calcPadding 4 A off) 4 = lenPairs pairs := by
            have hre : pre ++ (List.replicate (calcPadding 4 A off) 0 ++
                leBytes 4 (lenPairs pairs) ++
                serPairs A kk vk pairs (off + calcPadding 4 A off + 4) ++
                zeroPairSlots A kk vk (ms - lenPairs pairs)
                  (off + calcPadding 4 A off + 4 +
                    (serPairs A kk vk pairs
                      (off + calcPadding 4 A off + 4)).length)) ++ post =
                (pre ++ List.replicate (calcPadding 4 A off) 0) ++
                  leBytes 4 (lenPairs pairs) ++
                  (serPairs A kk vk pairs (off + calcPadding 4 A off + 4) ++
                    (zeroPairSlots A kk vk (ms - lenPairs pairs)
                      (off + calcPadding 4 A off + 4 +
                        (serPairs A kk vk pairs
                          (off + calcPadding 4 A off + 4)).length) ++
                      post)) := by
              simp [List.append_assoc]
            have hlen2 : off + calcPadding 4 A off =
                (pre ++ List.replicate (calcPadding 4 A off) 0).length := by
              simp [hpre]
            rw [hre, hlen2]
            exact readLE_concat 4 (lenPairs pairs) _ _ (by omega)
          rw [hrd]
          have hnlt : ¬ ms < lenPairs pairs := by omega
          rw [if_neg hnlt]
          have hdp : deserPairs A kk vk (lenPairs pairs)
              (pre ++ (List.replicate (calcPadding 4 A off) 0 ++
                leBytes 4 (lenPairs pairs) ++
                serPairs A kk vk pairs (off + calcPadding 4 A off + 4) ++
                zeroPairSlots A kk vk (ms - lenPairs pairs)
                  (off + calcPadding 4 A off + 4 +
                    (serPairs A kk vk pairs
                      (off + calcPadding 4 A off + 4)).length)) ++ post)
              (off + calcPadding 4 A off + 4) =
              .ok (canonSPairs kk vk pairs,
                calcPairSlots A kk vk (lenPairs pairs)
                  (off + calcPadding 4 A off + 4)) := by
            have hre : pre ++ (List.replicate (calcPadding 4 A off) 0 ++
                leBytes 4 (lenPairs pairs) ++
                serPairs A kk vk pairs (off + calcPadding 4 A off + 4) ++
                zeroPairSlots A kk vk (ms - lenPairs pairs)
                  (off + calcPadding 4 A off + 4 +
                    (serPairs A kk vk pairs
                      (off + calcPadding 4 A off + 4)).length)) ++ post =
                ((pre ++ List.replicate (calcPadding 4 A off) 0) ++
                  leBytes 4 (lenPairs pairs)) ++
                  serPairs A kk vk pairs (off + calcPadding 4 A off + 4) ++
                  (zeroPairSlots A kk vk (ms - lenPairs pairs)
                    (off + calcPadding 4 A off + 4 +
                      (serPairs A kk vk pairs
                        (off + calcPadding 4 A off + 4)).length) ++ post) := by
              simp [List.append_assoc]
            rw [hre]
            exact deserPairs_ser A kk vk pairs (off + calcPadding 4 A off + 4)
              hA hk.2.2.2.1 hk.2.2.2.2 hv.2.2 _ _
              (by simp [hpre, leBytes_length]; try omega)
          rw [hdp]
          simp [canonSValue]
termination_by (2 * sizeOf k, 2, 0)
decreasing_by all_goals (subst_vars; decreasing_tactic)

/-- Static-layout decode of serialized array elements, framed inside any
buffer. -/
theorem deserItems_ser (A : Nat) (elem : FieldKind) (items : Values)
    (off : Nat) (hA : A ∣ 4) (hk : wfKind elem) (hv : wfValues elem items)
    (pre post : List Nat) (hpre : pre.length = off) :
    deserItems A elem (lenValues items)
        (pre ++ serItems A elem items off ++ post) off =
      .ok (canonSValues elem items,
        calcSlots A elem (lenValues items) off) := by
  cases items with
  | nil => simp [serItems, lenValues, deserItems, canonSValues, calcSlots]
  | cons v rest =>
      simp only [wfValues] at hv
      have hserlen := serValue_len A elem v off hA hk hv.1
      have hge := calcValueEnd_ge A elem off
      have hVE : off + (serValue A elem v off).length =
          calcValueEnd A elem off := by omega
      have hchunk : serItems A elem (.cons v rest) off =
          serValue A elem v off ++
            serItems A elem rest (off + (serValue A elem v off).length) := by
        simp [serItems]
      rw [hchunk]
      simp only [lenValues, deserItems]
      have hdv : deserValue A elem true
          (pre ++ (serValue A elem v off ++
            serItems A elem rest (off + (serValue A elem v off).length)) ++
            post) off =
          .ok (canonSValue elem v, calcValueEnd A elem off) := by
        have hre : pre ++ (serValue A elem v off ++
            serItems A elem rest (off + (serValue A elem v off).length)) ++
            post = pre ++ serValue A elem v off ++
            (serItems A elem rest (off + (serValue A elem v off).length) ++
              post) := by
          simp [List.append_assoc]
        rw [hre]
        exact deserValue_ser A elem v off hA hk hv.1 pre _ hpre
      rw [hdv]
      have hdi : deserItems A elem (lenValues rest)
          (pre ++ (serValue A elem v off ++
            serItems A elem rest (off + (serValue A elem v off).length)) ++
            post) (calcValueEnd A elem off) =
          .ok (canonSValues elem rest,
            calcSlots A elem (lenValues rest) (calcValueEnd A elem off)) := by
        have hre : pre ++ (serValue A elem v off ++
            serItems A elem rest (off + (serValue A elem v off).length)) ++
            post = (pre ++ serValue A elem v off) ++
            serItems A elem rest (off + (serValue A elem v off).length) ++
            post := by
          simp [List.append_assoc]
        rw [hre, hVE]
        exact deserItems_ser A elem rest (calcValueEnd A elem off) hA hk hv.2
          (pre ++ serValue A elem v off) post (by simp [hpre]; try omega)
      simp only [hdi, canonSValues, calcSlots]
termination_by (2 * sizeOf elem, 2, sizeOf items)
decreasing_by all_goals (subst_vars; decreasing_tactic)

/-- Static-layout decode of serialized map pairs, framed inside any
buffer. -/
theorem deserPairs_ser (A : Nat) (kk vk : FieldKind) (pairs : Pairs)
    (off : Nat) (hA : A ∣ 4) (hkk : wfKind kk) (hvk : wfKind vk)
    (hv : wfPairs kk vk pairs) (pre post : List Nat)
    (hpre : pre.length = off) :
    deserPairs A kk vk (lenPairs pairs)
        (pre ++ serPairs A kk vk pairs off ++ post) off =
      .ok (canonSPairs kk vk pairs,
        calcPairSlots A kk vk (lenPairs pairs) off) := by
  cases pairs with
  | nil => simp [serPairs, lenPairs, deserPairs, canonSPairs, calcPairSlots]
  | cons k v rest =>
      simp only [wfPairs] at hv
      have hklen := serValue_len A kk k off hA hkk hv.1
      have hkge := calcValueEnd_ge A kk off
      have hKE : off + (serValue A kk k off).length =
          calcValueEnd A kk off := by omega
      have hvlen := serValue_len A vk v (calcValueEnd A kk off) hA hvk hv.2.1
      have hvge := calcValueEnd_ge A vk (calcValueEnd A kk off)
      have hchunk : serPairs A kk vk (.cons k v rest) off =
          serValue A kk k off ++
            (serValue A vk v (off + (serValue A kk k off).length) ++
              serPairs A kk vk rest
                (off + (serValue A kk k off).length +
                  (serValue A vk v
                    (off + (serValue A kk k off).length)).length)) := by
        simp [serPairs, List.append_assoc]
      rw [hchunk, hKE]
      have hVE : calcValueEnd A kk off +
          (serValue A vk v (calcValueEnd A kk off)).length =
          calcValueEnd A vk (calcValueEnd A kk off) := by omega
      rw [hVE]
      simp only [lenPairs, deserPairs]
      have hdk : deserValue A kk true
          (pre ++ (serValue A kk k off ++
            (serValue A vk v (calcValueEnd A kk off) ++
              serPairs A kk vk rest
                (calcValueEnd A vk (calcValueEnd A kk off)))) ++ post) off =
          .ok (canonSValue kk k, calcValueEnd A kk off) := by
        have hre : pre ++ (serValue A kk k off ++
            (serValue A vk v (calcValueEnd A kk off) ++
              serPairs A kk vk rest
                (calcValueEnd A vk (calcValueEnd A kk off)))) ++ post =
            pre ++ serValue A kk k off ++
            ((serValue A vk v (calcValueEnd A kk off) ++
              serPairs A kk vk rest
                (calcValueEnd A vk (calcValueEnd A kk off))) ++ post) := by
          simp [List.append_assoc]
        rw [hre]
        exact deserValue_ser A kk k off hA hkk hv.1 pre _ hpre
      have hdvv : deserValue A vk true
          (pre ++ (serValue A kk k off ++
            (serValue A vk v (calcValueEnd A kk off) ++
              serPairs A kk vk rest
                (calcValueEnd A vk (calcValueEnd A kk off)))) ++ post)
          (calcValueEnd A kk off) =
          .ok (canonSValue vk v, calcValueEnd A vk (calcValueEnd A kk off)) := by
        have hre : pre ++ (serValue A kk k off ++
            (serValue A vk v (calcValueEnd A kk off) ++
              serPairs A kk vk rest
                (calcValueEnd A vk (calcValueEnd A kk off)))) ++ post =
            (pre ++ serValue A kk k off) ++
            serValue A vk v (calcValueEnd A kk off) ++
            (serPairs A kk vk rest
              (calcValueEnd A vk (calcValueEnd A kk off)) ++ post) := by
          simp [List.append_assoc]
        rw [hre]
        exact deserValue_ser A vk v (calcValueEnd A kk off) hA hvk hv.2.1
          (pre ++ serValue A kk k off) _ (by simp [hpre]; try omega)
      have hdp : deserPairs A kk vk (lenPairs rest)
          (pre ++ (serValue A kk k off ++
            (serValue A vk v (calcValueEnd A kk off) ++
              serPairs A kk vk rest
                (calcValueEnd A vk (calcValueEnd A kk off)))) ++ post)
          (calcValueEnd A vk (calcValueEnd A kk off)) =
          .ok (canonSPairs kk vk rest,
            calcPairSlots A kk vk (lenPairs rest)
              (calcValueEnd A vk (calcValueEnd A kk off))) := by
        have hre : pre ++ (serValue A kk k off ++
            (serValue A vk v (calcValueEnd A kk off) ++
              serPairs A kk vk rest
                (calcValueEnd A vk (calcValueEnd A kk off)))) ++ post =
            ((pre ++ serValue A kk k off) ++
              serValue A vk v (calcValueEnd A kk off)) ++
            serPairs A kk vk rest
              (calcValueEnd A vk (calcValueEnd A kk off)) ++ post := by
          simp [List.append_assoc]
        rw [hre]
        exact deserPairs_ser A kk vk rest
          (calcValueEnd A vk (calcValueEnd A kk off)) hA hkk hvk hv.2.2
          ((pre ++ serValue A kk k off) ++
            serValue A vk v (calcValueEnd A kk off)) post
          (by simp [hpre]; try omega)
      simp only [hdk, hdvv, hdp, canonSPairs, calcPairSlots]
termination_by (2 * (sizeOf kk + sizeOf vk) + 1, 2, sizeOf pairs)
decreasing_by all_goals (subst_vars; decreasing_tactic)

/-- Static-layout decode of a serialized field tuple, framed inside any
buffer, recovers the canonical image of the tuple. -/
theorem deserFields_ser (A : Nat) (fs : TopFields) (m : FieldVals)
    (off : Nat) (hA : A ∣ 4) (hf : wfTF fs) (hm : wfFields fs m)
    (pre post : List Nat) (hpre : pre.length = off) :
    deserFields A fs (pre ++ serFields A fs m off ++ post) off =
      .ok (canonSFields fs m, calcFieldsEnd A fs off) := by
  cases fs with
  | nil =>
      cases m with
      | nil => simp [serFields, deserFields, canonSFields, calcFieldsEnd]
      | cons set v rest => simp only [wfFields] at hm
  | consPlain id req kind restF =>
      cases m with
      | nil => simp only [wfFields] at hm
      | cons set v restV =>
          simp only [wfFields] at hm
          simp only [wfTF] at hf
          have hge := calcValueEnd_ge A kind (off + 1)
          cases set with
          | true =>
              have hserlen := serValue_len A kind v (off + 1) hA hf.2.2.1 hm.1
              have hVE : off + 1 + (serValue A kind v (off + 1)).length =
                  calcValueEnd A kind (off + 1) := by omega
              have hchunk : serFields A (.consPlain id req kind restF)
                  (.cons true v restV) off =
                  1 :: (serValue A kind v (off + 1) ++
                    serFields A restF restV
                      (off + 1 + (serValue A kind v (off + 1)).length)) := by
                simp [serFields]
              rw [hchunk, hVE]
              simp only [deserFields]
              have hflag : (pre ++ (1 :: (serValue A kind v (off + 1) ++
                  serFields A restF restV (calcValueEnd A kind (off + 1)))) ++
                  post).getD off 0 = 1 := by
                have h0 : (0 : Nat) < (1 :: (serValue A kind v (off + 1) ++
                    serFields A restF restV
                      (calcValueEnd A kind (off + 1)))).length := by simp
                have h2 := getD_concat pre _ post 0 h0
                simp only [Nat.add_zero, hpre] at h2
                rw [h2]
                simp
              rw [hflag]
              have h10 : ((1 : Nat) != 0) = true := by decide
              rw [h10]
              have hdv : deserValue A kind true
                  (pre ++ (1 :: (serValue A kind v (off + 1) ++
                    serFields A restF restV
                      (calcValueEnd A kind (off + 1)))) ++ post) (off + 1) =
                  .ok (canonSValue kind v, calcValueEnd A kind (off + 1)) := by
                have hre : pre ++ (1 :: (serValue A kind v (off + 1) ++
                    serFields A restF restV
                      (calcValueEnd A kind (off + 1)))) ++ post =
                    (pre ++ [1]) ++ serValue A kind v (off + 1) ++
                      (serFields A restF restV
                        (calcValueEnd A kind (off + 1)) ++ post) := by
                  simp [List.append_assoc]
                rw [hre]
                exact deserValue_ser A kind v (off + 1) hA hf.2.2.1 hm.1
                  (pre ++ [1]) _ (by simp [hpre]; try omega)
              have hdf : deserFields A restF
                  (pre ++ (1 :: (serValue A kind v (off + 1) ++
                    serFields A restF restV
                      (calcValueEnd A kind (off + 1)))) ++ post)
                  (calcValueEnd A kind (off + 1)) =
                  .ok (canonSFields restF restV,
                    calcFieldsEnd A restF (calcValueEnd A kind (off + 1))) := by
                have hre : pre ++ (1 :: (serValue A kind v (off + 1) ++
                    serFields A restF restV
                      (calcValueEnd A kind (off + 1)))) ++ post =
                    ((pre ++ [1]) ++ serValue A kind v (off + 1)) ++
                      serFields A restF restV
                        (calcValueEnd A kind (off + 1)) ++ post := by
                  simp [List.append_assoc]
                rw [hre]
                exact deserFields_ser A restF restV
                  (calcValueEnd A kind (off + 1)) hA hf.2.2.2.2 hm.2
                  ((pre ++ [1]) ++ serValue A kind v (off + 1)) post
                  (by simp [hpre]; try omega)
              simp only [hdv, hdf]
              simp [canonSFields, calcFieldsEnd]
          | false =>
              have hchunk : serFields A (.consPlain id req kind restF)
                  (.cons false v restV) off =
                  0 :: (List.replicate
                    (calcValueEnd A kind (off + 1) - (off + 1)) 0 ++
                    serFields A restF restV
                      (off + 1 +
                        (calcValueEnd A kind (off + 1) - (off + 1)))) := by
                simp [serFields]
              have hoff2 : off + 1 +
                  (calcValueEnd A kind (off + 1) - (off + 1)) =
                  calcValueEnd A kind (off + 1) := by omega
              rw [hchunk, hoff2]
              simp only [deserFields]
              have hflag : (pre ++ (0 :: (List.replicate
                  (calcValueEnd A kind (off + 1) - (off + 1)) 0 ++
                  serFields A restF restV (calcValueEnd A kind (off + 1)))) ++
                  post).getD off 0 = 0 := by
                have h0 : (0 : Nat) < ((0 : Nat) :: (List.replicate
                    (calcValueEnd A kind (off + 1) - (off + 1)) 0 ++
                    serFields A restF restV
                      (calcValueEnd A kind (off + 1)))).length := by simp
                have h2 := getD_concat pre _ post 0 h0
                simp only [Nat.add_zero, hpre] at h2
                rw [h2]
                simp
              rw [hflag]
              have h00 : ((0 : Nat) != 0) = false := by decide
              rw [h00]
              have hdf : deserFields A restF
                  (pre ++ (0 :: (List.replicate
                    (calcValueEnd A kind (off + 1) - (off + 1)) 0 ++
                    serFields A restF restV
                      (calcValueEnd A kind (off + 1)))) ++ post)
                  (calcValueEnd A kind (off + 1)) =
                  .ok (canonSFields restF restV,
                    calcFieldsEnd A restF (calcValueEnd A kind (off + 1))) := by
                have hre : pre ++ (0 :: (List.replicate
                    (calcValueEnd A kind (off + 1) - (off + 1)) 0 ++
                    serFields A restF restV
                      (calcValueEnd A kind (off + 1)))) ++ post =
                    ((pre ++ [0]) ++ List.replicate
                      (calcValueEnd A kind (off + 1) - (off + 1)) 0) ++
                      serFields A restF restV
                        (calcValueEnd A kind (off + 1)) ++ post := by
                  simp [List.append_assoc]
                rw [hre]
                exact deserFields_ser A restF restV
                  (calcValueEnd A kind (off + 1)) hA hf.2.2.2.2 hm.2
                  ((pre ++ [0]) ++ List.replicate
                    (calcValueEnd A kind (off + 1) - (off + 1)) 0) post
                  (by simp [hpre]; try omega)
              simp only [deserValue_unset, hdf]
              simp [canonSFields, calcFieldsEnd]
  | consBare kind restF =>
      cases m with
      | nil => simp only [wfFields] at hm
      | cons set v restV =>
          simp only [wfFields] at hm
          simp only [wfTF] at hf
          have hge := calcValueEnd_ge A kind off
          have hserlen := serValue_len A kind v off hA hf.2.1 hm.2.1
          have hVE : off + (serValue A kind v off).length =
              calcValueEnd A kind off := by omega
          have hchunk : serFields A (.consBare kind restF)
              (.cons set v restV) off =
              serValue A kind v off ++
                serFields A restF restV
                  (off + (serValue A kind v off).length) := by
            simp [serFields]
          rw [hchunk, hVE]
          simp only [deserFields]
          have hdv : deserValue A kind true
              (pre ++ (serValue A kind v off ++
                serFields A restF restV (calcValueEnd A kind off)) ++ post)
              off =
              .ok (canonSValue kind v, calcValueEnd A kind off) := by
            have hre : pre ++ (serValue A kind v off ++
                serFields A restF restV (calcValueEnd A kind off)) ++ post =
                pre ++ serValue A kind v off ++
                  (serFields A restF restV (calcValueEnd A kind off) ++
                    post) := by
              simp [List.append_assoc]
            rw [hre]
            exact deserValue_ser A kind v off hA hf.2.1 hm.2.1 pre _ hpre
          have hdf : deserFields A restF
              (pre ++ (serValue A kind v off ++
                serFields A restF restV (calcValueEnd A kind off)) ++ post)
              (calcValueEnd A kind off) =
              .ok (canonSFields restF restV,
                calcFieldsEnd A restF (calcValueEnd A kind off)) := by
            have hre : pre ++ (serValue A kind v off ++
                serFields A restF restV (calcValueEnd A kind off)) ++ post =
                (pre ++ serValue A kind v off) ++
                  serFields A restF restV (calcValueEnd A kind off) ++
                  post := by
              simp [List.append_assoc]
            rw [hre]
            exact deserFields_ser A restF restV (calcValueEnd A kind off)
              hA hf.2.2.2 hm.2.2 (pre ++ serValue A kind v off) post
              (by simp [hpre]; try omega)
          simp only [hdv, hdf]
          simp [canonSFields, calcFieldsEnd]
termination_by (2 * sizeOf fs, 2, 0)
decreasing_by all_goals (subst_vars; decreasing_tactic)
end

